import Mathlib

/-!
# Graph_Assignment: indexed minimum priority queue and graph algorithms

A shallow embedding of `src/min_pq.h` (class `MinPQ<T>`) and `src/graph.h`
(classes `Edge`, `Graph`).

Conventions of the embedding.

* A C++ `int` is an `Int`; capacities are assumed small enough for `2 * n` to fit
  in an `int`, so no wrap-around is modelled.
* A heap-allocated C array (`pq`, `qp`, `keys`, `adj`, `color`, `done`, `a`) is a total
  map from `Int`; a write is `Function.update`.
* A `std::vector` or `std::list` is a `List`; `v[i]` is `vget`, `v[i] = x` is `vset`.
* The key type `T` of the queue is any linearly ordered type.  The `double` weights
  and distances of the graph are read as exact numbers of a linearly ordered ring `W`
  (for instance `ℚ`, which holds every finite `double`, or `ℤ`); the constant
  `DBL_MAX` of `<cfloat>` is the number `2^1024 - 2^971`.
* A C++ `throw` is an error value `Err`; a member function of `MinPQ` or `Graph` that
  writes to the object returns the outcome together with the object as it is when
  the function returns or throws.
* Every `while` loop is a structurally recursive function on a step budget; a budget
  that is used up while the loop condition still holds is the error `outOfFuel`
  (for `swim` and `sink` the budget is shown to be enough by `MinPQ.swim_eq` and
  `MinPQ.sink_eq`).
-/

set_option autoImplicit false

/-- Error values: one constructor for each `throw` (and the `assert`) of the sources. -/
inductive Err where
  /-- `"Size can't be negative"` -/
  | negativeSize
  /-- `"index is negative: "` -/
  | indexNegative
  /-- `"index >= capacity: "` -/
  | indexTooLarge
  /-- `"index is already in the priority queue"` -/
  | duplicateIndex
  /-- `"Priority queue underflow"` -/
  | underflow
  /-- `"index is not in the priority queue"` -/
  | notPresent
  /-- `"Calling decreaseKey() with a key equal to the key in the priority queue"` -/
  | decreaseKeyEqual
  /-- `"Calling decreaseKey() with a key > the key in the priority queue"` -/
  | decreaseKeyGreater
  /-- `"Calling increaseKey() with a key equal to the key in the priority queue"` -/
  | increaseKeyEqual
  /-- `"Calling increaseKey() with a key < the key in the priority queue"` -/
  | increaseKeyLess
  /-- `assert(min == pq[n+1])` of `delMin` fails -/
  | assertionFailed
  /-- `"Negative edge weights are not supported."` -/
  | negativeWeight
  /-- `"Invalid vertex"` -/
  | invalidVertex
  /-- `"not undirected"` -/
  | notUndirected
  /-- The step budget of a loop of the embedding is used up (no C++ counterpart). -/
  | outOfFuel
  deriving DecidableEq, Repr

deriving instance DecidableEq for Except

/-! ## `min_pq.h` -/

/-- The private fields of `MinPQ<T>`. -/
structure MinPQ (T : Type) where
  /-- maximum number of elements on PQ -/
  maxN : Int
  /-- number of elements on PQ -/
  n : Int
  /-- binary heap using 1-based indexing -/
  pq : Int → Int
  /-- inverse of pq -/
  qp : Int → Int
  /-- `keys[i]` is the priority of `i` -/
  keys : Int → T

namespace MinPQ

variable {T : Type}

/-- The constructor `MinPQ(int maxN)`.  The cells of `pq` and `keys`, which `new` leaves
unwritten, hold `0` and `junk`. -/
def new (maxN : Int) (junk : T) : Except Err (MinPQ T) :=
  if maxN < 0 then .error .negativeSize
  else .ok ⟨maxN, 0, fun _ => 0, fun _ => -1, fun _ => junk⟩

/-- `isEmpty()` -/
def isEmpty (s : MinPQ T) : Bool := s.n == 0

/-- `size()` -/
def size (s : MinPQ T) : Int := s.n

/-- `validateIndex(i)`.  The source builds the thrown string as `"..." + i`, which adds `i`
to the address of the literal; the embedding keeps which `throw` is executed, not the
text of the string. -/
def validateIndex (s : MinPQ T) (i : Int) : Except Err Unit :=
  if i < 0 then .error .indexNegative
  else if i ≥ s.maxN then .error .indexTooLarge
  else .ok ()

/-- `contains(i)` -/
def contains (s : MinPQ T) (i : Int) : Except Err Bool :=
  match s.validateIndex i with
  | .error e => .error e
  | .ok _ => .ok (s.qp i != -1)

/-- `greater(i, j)` -/
def greater [LinearOrder T] (s : MinPQ T) (i j : Int) : Bool :=
  decide (s.keys (s.pq i) > s.keys (s.pq j))

/-- `exch(i, j)` -/
def exch (s : MinPQ T) (i j : Int) : MinPQ T :=
  let swap := s.pq i
  let pq1 := Function.update s.pq i (s.pq j)
  let pq2 := Function.update pq1 j swap
  let qp1 := Function.update s.qp (pq2 i) i
  let qp2 := Function.update qp1 (pq2 j) j
  { s with pq := pq2, qp := qp2 }

/-- The loop of `swim(k)`, at most `fuel` iterations. -/
def swimLoop [LinearOrder T] : Nat → MinPQ T → Int → MinPQ T
  | 0, s, _ => s
  | fuel + 1, s, k =>
    if k > 1 ∧ s.greater (k / 2) k = true then
      swimLoop fuel (s.exch k (k / 2)) (k / 2)
    else s

/-- `swim(k)`: `k` halves in every iteration, so `k` iterations are never used up
(`MinPQ.swim_eq`). -/
def swim [LinearOrder T] (s : MinPQ T) (k : Int) : MinPQ T :=
  swimLoop k.toNat s k

/-- The loop of `sink(k)`, at most `fuel` iterations. -/
def sinkLoop [LinearOrder T] : Nat → MinPQ T → Int → MinPQ T
  | 0, s, _ => s
  | fuel + 1, s, k =>
    if 2 * k ≤ s.n then
      let j := 2 * k
      let j := if j < s.n ∧ s.greater j (j + 1) = true then j + 1 else j
      if s.greater k j = false then s
      else sinkLoop fuel (s.exch k j) j
    else s

/-- `sink(k)`: for `k ≥ 1` the slot `k` grows in every iteration and stays `≤ n`, so `n`
iterations are never used up (`MinPQ.sink_eq`). -/
def sink [LinearOrder T] (s : MinPQ T) (k : Int) : MinPQ T :=
  sinkLoop s.n.toNat s k

/-- `insert(i, key)` -/
def insert [LinearOrder T] (s : MinPQ T) (i : Int) (key : T) : Except Err Unit × MinPQ T :=
  match s.validateIndex i with
  | .error e => (.error e, s)
  | .ok _ =>
    match s.contains i with
    | .error e => (.error e, s)
    | .ok true => (.error .duplicateIndex, s)
    | .ok false =>
      let s := { s with n := s.n + 1 }
      let s := { s with qp := Function.update s.qp i s.n }
      let s := { s with pq := Function.update s.pq s.n i }
      let s := { s with keys := Function.update s.keys i key }
      (.ok (), s.swim s.n)

/-- `minIndex()` -/
def minIndex (s : MinPQ T) : Except Err Int :=
  if s.n = 0 then .error .underflow else .ok (s.pq 1)

/-- `minKey()` -/
def minKey (s : MinPQ T) : Except Err T :=
  if s.n = 0 then .error .underflow else .ok (s.keys (s.pq 1))

/-- `delMin()` -/
def delMin [LinearOrder T] (s : MinPQ T) : Except Err Int × MinPQ T :=
  if s.n = 0 then (.error .underflow, s)
  else
    let min := s.pq 1
    let j := s.n
    let s := { s with n := s.n - 1 }
    let s := s.exch 1 j
    let s := s.sink 1
    if min ≠ s.pq (s.n + 1) then (.error .assertionFailed, s)
    else
      let s := { s with qp := Function.update s.qp min (-1) }
      let s := { s with pq := Function.update s.pq (s.n + 1) (-1) }
      (.ok min, s)

/-- `keyOf(i)` -/
def keyOf (s : MinPQ T) (i : Int) : Except Err T :=
  match s.validateIndex i with
  | .error e => .error e
  | .ok _ =>
    match s.contains i with
    | .error e => .error e
    | .ok false => .error .notPresent
    | .ok true => .ok (s.keys i)

/-- `changeKey(i, key)` -/
def changeKey [LinearOrder T] (s : MinPQ T) (i : Int) (key : T) : Except Err Unit × MinPQ T :=
  match s.validateIndex i with
  | .error e => (.error e, s)
  | .ok _ =>
    match s.contains i with
    | .error e => (.error e, s)
    | .ok false => (.error .notPresent, s)
    | .ok true =>
      let s := { s with keys := Function.update s.keys i key }
      let s := s.swim (s.qp i)
      let s := s.sink (s.qp i)
      (.ok (), s)

/-- `decreaseKey(i, key)` -/
def decreaseKey [LinearOrder T] (s : MinPQ T) (i : Int) (key : T) : Except Err Unit × MinPQ T :=
  match s.validateIndex i with
  | .error e => (.error e, s)
  | .ok _ =>
    match s.contains i with
    | .error e => (.error e, s)
    | .ok false => (.error .notPresent, s)
    | .ok true =>
      if s.keys i = key then (.error .decreaseKeyEqual, s)
      else if s.keys i < key then (.error .decreaseKeyGreater, s)
      else
        let s := { s with keys := Function.update s.keys i key }
        let s := s.swim (s.qp i)
        (.ok (), s)

/-- `increaseKey(i, key)` -/
def increaseKey [LinearOrder T] (s : MinPQ T) (i : Int) (key : T) : Except Err Unit × MinPQ T :=
  match s.validateIndex i with
  | .error e => (.error e, s)
  | .ok _ =>
    match s.contains i with
    | .error e => (.error e, s)
    | .ok false => (.error .notPresent, s)
    | .ok true =>
      if s.keys i = key then (.error .increaseKeyEqual, s)
      else if s.keys i > key then (.error .increaseKeyLess, s)
      else
        let s := { s with keys := Function.update s.keys i key }
        let s := s.sink (s.qp i)
        (.ok (), s)

/-- `remove(i)` -/
def remove [LinearOrder T] (s : MinPQ T) (i : Int) : Except Err Unit × MinPQ T :=
  match s.validateIndex i with
  | .error e => (.error e, s)
  | .ok _ =>
    match s.contains i with
    | .error e => (.error e, s)
    | .ok false => (.error .notPresent, s)
    | .ok true =>
      let index := s.qp i
      let j := s.n
      let s := { s with n := s.n - 1 }
      let s := s.exch index j
      let s := s.swim index
      let s := s.sink index
      let s := { s with qp := Function.update s.qp i (-1) }
      (.ok (), s)

/-! ### Specification vocabulary for `MinPQ` -/

/-- The key of the index stored at heap slot `k`: `keys[pq[k]]`. -/
def slotKey (s : MinPQ T) (k : Int) : T := s.keys (s.pq k)

/-- Index `i` is on the queue: `i` is a valid index and `qp[i] != -1`
(what `contains(i)` returns without throwing). -/
def Contained (s : MinPQ T) (i : Int) : Prop :=
  0 ≤ i ∧ i < s.maxN ∧ s.qp i ≠ -1

/-- Index bookkeeping of the slots `1..m`: `pq` and `qp` are inverse to each other. -/
def Bk (s : MinPQ T) (m : Int) : Prop :=
  (∀ k, 1 ≤ k → k ≤ m → 0 ≤ s.pq k ∧ s.pq k < s.maxN ∧ s.qp (s.pq k) = k) ∧
  (∀ i, 0 ≤ i → i < s.maxN → s.qp i = -1 ∨ (1 ≤ s.qp i ∧ s.qp i ≤ m ∧ s.pq (s.qp i) = i))

/-- Heap order: the key at every non-root slot is at least the key at its parent slot. -/
def HeapOrdered [LinearOrder T] (s : MinPQ T) : Prop :=
  ∀ k, 2 ≤ k → k ≤ s.n → s.slotKey (k / 2) ≤ s.slotKey k

/-- Heap order on all parent-child pairs that do not involve slot `k`, and the children
of `k` are in order with the parent of `k`. -/
def HeapExcept [LinearOrder T] (s : MinPQ T) (k : Int) : Prop :=
  (∀ j, 2 ≤ j → j ≤ s.n → j ≠ k → j / 2 ≠ k → s.slotKey (j / 2) ≤ s.slotKey j) ∧
  (∀ j, 2 ≤ j → j ≤ s.n → j / 2 = k → 2 ≤ k → s.slotKey (k / 2) ≤ s.slotKey j)

/-- Heap order except that slot `k` may be smaller than its parent. -/
def HeapUp [LinearOrder T] (s : MinPQ T) (k : Int) : Prop :=
  s.HeapExcept k ∧ ∀ j, 2 ≤ j → j ≤ s.n → j / 2 = k → s.slotKey k ≤ s.slotKey j

/-- Heap order except that slot `k` may be larger than its children. -/
def HeapDown [LinearOrder T] (s : MinPQ T) (k : Int) : Prop :=
  s.HeapExcept k ∧ (2 ≤ k → k ≤ s.n → s.slotKey (k / 2) ≤ s.slotKey k)

/-- The class invariant of `MinPQ` between public operations. -/
structure Inv [LinearOrder T] (s : MinPQ T) : Prop where
  n_nonneg : 0 ≤ s.n
  n_le : s.n ≤ s.maxN
  bk : s.Bk s.n
  heap : s.HeapOrdered

/-- What a run of `exch` calls on slots `1..n` keeps of a state `s0`, for `n ≤ m`. -/
structure Frame (s0 : MinPQ T) (m : Int) (s : MinPQ T) : Prop where
  n_eq : s.n = s0.n
  maxN_eq : s.maxN = s0.maxN
  keys_eq : s.keys = s0.keys
  n_le : s.n ≤ m
  bk : s.Bk m
  above : ∀ k, s0.n < k → s.pq k = s0.pq k
  absent : ∀ i, s.qp i = -1 ↔ s0.qp i = -1

/-- The states of a queue that a client can produce: a freshly constructed queue, and
the state left by any public mutating call (failed calls included) on such a state. -/
inductive Reachable [LinearOrder T] : MinPQ T → Prop
  | new (maxN : Int) (junk : T) (s : MinPQ T) : MinPQ.new maxN junk = .ok s → Reachable s
  | insert (s : MinPQ T) (i : Int) (key : T) : Reachable s → Reachable (s.insert i key).2
  | delMin (s : MinPQ T) : Reachable s → Reachable s.delMin.2
  | remove (s : MinPQ T) (i : Int) : Reachable s → Reachable (s.remove i).2
  | changeKey (s : MinPQ T) (i : Int) (key : T) : Reachable s → Reachable (s.changeKey i key).2
  | decreaseKey (s : MinPQ T) (i : Int) (key : T) :
      Reachable s → Reachable (s.decreaseKey i key).2
  | increaseKey (s : MinPQ T) (i : Int) (key : T) :
      Reachable s → Reachable (s.increaseKey i key).2

/-- A client loop over the public interface: `while (!isEmpty()) { k = minKey();
i = delMin(); out.push_back({i, k}); }`, at most `fuel` iterations.  The result lists
the returned indices with the keys they had when they were removed. -/
def drainLoop [LinearOrder T] : Nat → MinPQ T → Except Err (List (Int × T)) × MinPQ T
  | 0, s => if s.isEmpty then (.ok [], s) else (.error .outOfFuel, s)
  | fuel + 1, s =>
    if s.isEmpty then (.ok [], s)
    else
      match s.minKey with
      | .error e => (.error e, s)
      | .ok k =>
        match s.delMin with
        | (.error e, s) => (.error e, s)
        | (.ok i, s) =>
          match drainLoop fuel s with
          | (.error e, s) => (.error e, s)
          | (.ok out, s) => (.ok ((i, k) :: out), s)

/-- The client loop `drainLoop` with a budget of `size()` iterations. -/
def drain [LinearOrder T] (s : MinPQ T) : Except Err (List (Int × T)) × MinPQ T :=
  drainLoop s.n.toNat s

end MinPQ

/-- The errors of `decreaseKey` and `increaseKey` about the direction of the new key. -/
def Err.isKeyDirection : Err → Bool
  | .decreaseKeyEqual => true
  | .decreaseKeyGreater => true
  | .increaseKeyEqual => true
  | .increaseKeyLess => true
  | _ => false

/-- The outcome is one of the key-direction errors. -/
def failsWithKeyDirection {α : Type} : Except Err α → Bool
  | .error e => e.isKeyDirection
  | .ok _ => false

/-! ## `graph.h` -/

/-- `v[i]` on a `std::vector`; `d` stands for what an access outside the vector reads. -/
def vget {α : Type} (v : List α) (i : Int) (d : α) : α :=
  if i < 0 then d else v.getD i.toNat d

/-- `v[i] = x` on a `std::vector`; an access outside the vector writes nothing. -/
def vset {α : Type} (v : List α) (i : Int) (x : α) : List α :=
  if i < 0 then v else v.set i.toNat x

/-- Class `Edge`: a directed edge. -/
structure Edge (W : Type) where
  /-- field `from` -/
  from_ : Int
  /-- field `to` -/
  to_ : Int
  /-- field `weight` -/
  weight : W
  deriving DecidableEq, Repr

/-- The private fields of `Graph`: the number of vertices and the adjacency lists.  `V` is
a natural number: for a negative `V` the allocation `new list<Edge>[V]` of the
constructor throws, and no object exists. -/
structure Graph (W : Type) where
  /-- number of vertices -/
  V : Nat
  /-- adjacency lists -/
  adj : Int → List (Edge W)

/-- The conversion of a `double` to `int` in `a[edge.from][edge.to] = edge.weight`:
truncation toward zero.  (C++ defines the conversion only when the truncated value
fits in an `int`; the embedding truncates every value.) -/
def toInt {W : Type} [LinearOrderedRing W] [FloorRing W] (w : W) : Int :=
  if 0 ≤ w then Int.floor w else Int.ceil w

/-- The constant `DBL_MAX` of `<cfloat>`, the largest finite `double`:
`(2 - 2^-52) * 2^1023 = 2^1024 - 2^971`. -/
def DBL_MAX {W : Type} [LinearOrderedRing W] : W := ((2 ^ 1024 - 2 ^ 971 : Nat) : W)

namespace Graph

variable {W : Type}

/-- The constructor `Graph(int V)`: `V` empty adjacency lists. -/
def new (V : Nat) : Graph W := ⟨V, fun _ => []⟩

/-- `get_V()` -/
def get_V (g : Graph W) : Int := g.V

/-- `add_edge(v, w, weight)` -/
def add_edge [LinearOrderedRing W] (g : Graph W) (v w : Int) (weight : W) :
    Except Err Unit × Graph W :=
  if weight < 0 then (.error .negativeWeight, g)
  else (.ok (), { g with adj := Function.update g.adj v (g.adj v ++ [⟨v, w, weight⟩]) })

/-- The loop of `has_edge` over the adjacency list of `v`. -/
def has_edge_loop (w : Int) : List (Edge W) → Bool
  | [] => false
  | edge :: rest => if edge.to_ = w then true else has_edge_loop w rest

/-- `has_edge(v, w)` -/
def has_edge (g : Graph W) (v w : Int) : Bool := has_edge_loop w (g.adj v)

/-- The assignment `a[edge.from][edge.to] = edge.weight` of `is_undirected`. -/
def setCell [LinearOrderedRing W] [FloorRing W] (a : Int → Int → Int) (edge : Edge W) :
    Int → Int → Int :=
  Function.update a edge.from_ (Function.update (a edge.from_) edge.to_ (toInt edge.weight))

/-- The second loop nest of `is_undirected`: `a[edge.from][edge.to] = edge.weight`
for every stored edge, in the order of the vertices and of their adjacency lists. -/
def fillMatrix [LinearOrderedRing W] [FloorRing W] (g : Graph W) (a : Int → Int → Int) :
    Int → Int → Int :=
  (List.range g.V).foldl (fun a (v : Nat) => (g.adj (v : Int)).foldl setCell a) a

/-- `is_undirected()`.  The matrix `a` after the first loop nest holds `-1`. -/
def is_undirected [LinearOrderedRing W] [FloorRing W] (g : Graph W) : Bool :=
  let a := g.fillMatrix (fun _ _ => -1)
  (List.range g.V).foldl
    (fun flag (i : Nat) => (List.range g.V).foldl
      (fun flag (j : Nat) => if a (i : Int) (j : Int) ≠ a (j : Int) (i : Int) then false
        else flag) flag) true

/-- The inner loop of `get_reachable_from` over the adjacency list of the dequeued
vertex: the state is the queue `q`, the array `color` and the vector `result`. -/
def bfsScan : List (Edge W) → List Int × (Int → Int) × List Int →
    List Int × (Int → Int) × List Int
  | [], st => st
  | edge :: rest, (q, color, result) =>
    if color edge.to_ = 0 then
      bfsScan rest (q ++ [edge.to_], Function.update color edge.to_ 1, result ++ [edge.to_])
    else bfsScan rest (q, color, result)

/-- The `while (!q.empty())` loop of `get_reachable_from`, at most `fuel` iterations. -/
def bfsLoop (g : Graph W) : Nat → List Int × (Int → Int) × List Int → Except Err (List Int)
  | _, ([], _, result) => .ok result
  | 0, (_ :: _, _, _) => .error .outOfFuel
  | fuel + 1, (u :: q, color, result) =>
    match bfsScan (g.adj u) (q, color, result) with
    | (q, color, result) => bfsLoop g fuel (q, Function.update color u 2, result)

/-- `get_reachable_from(s)`.  The array `color` after its initialisation loop holds `0`;
every vertex enters the queue at most once, so `V` iterations are never used up when
the endpoints of the edges are vertices. -/
def get_reachable_from (g : Graph W) (s : Int) : Except Err (List Int) :=
  if s < 0 ∨ s ≥ g.V then .error .invalidVertex
  else bfsLoop g g.V ([s], Function.update (fun _ => 0) s 1, [s])

/-- The loop `for (j < v.size()) done[v[j]] = 1` of `connected_components`. -/
def markDone (v : List Int) (done : Int → Int) : Int → Int :=
  v.foldl (fun done x => Function.update done x 1) done

/-- The main loop of `connected_components` over the vertices still to visit. -/
def ccLoop (g : Graph W) : List Nat → (Int → Int) → List (List Int) →
    Except Err (List (List Int))
  | [], _, result => .ok result
  | i :: rest, done, result =>
    if done i = 0 then
      match g.get_reachable_from i with
      | .error e => .error e
      | .ok v => ccLoop g rest (markDone v done) (result ++ [v])
    else ccLoop g rest done result

/-- `connected_components()`.  The array `done` after its initialisation loop holds `0`. -/
def connected_components [LinearOrderedRing W] [FloorRing W] (g : Graph W) :
    Except Err (List (List Int)) :=
  if g.is_undirected = false then .error .notUndirected
  else ccLoop g (List.range g.V) (fun _ => 0) []

/-- The loop `for (i < sources.size())` of `shortest_paths` that validates the sources. -/
def checkSources (g : Graph W) : List Int → Except Err Unit
  | [] => .ok ()
  | s :: rest => if s < 0 ∨ s ≥ g.V then .error .invalidVertex else checkSources g rest

/-- The loop `for (i < sources.size()) dist[sources[i]] = 0` of `shortest_paths`. -/
def zeroSources [LinearOrderedRing W] (sources : List Int) (dist : List W) : List W :=
  sources.foldl (fun dist s => vset dist s 0) dist

/-- The loop `for (i < V) pq.insert(i, dist[i])` of `shortest_paths`. -/
def insertAll [LinearOrderedRing W] (dist : List W) : List Nat → MinPQ W → Except Err (MinPQ W)
  | [], pq => .ok pq
  | i :: rest, pq =>
    match pq.insert i (vget dist i DBL_MAX) with
    | (.error e, _) => .error e
    | (.ok _, pq) => insertAll dist rest pq

/-- The loop over the adjacency list of the extracted vertex `u` in `shortest_paths`:
the relaxation of every edge out of `u`. -/
def relaxEdges [LinearOrderedRing W] (u : Int) :
    List (Edge W) → List W × List Int × MinPQ W → Except Err (List W × List Int × MinPQ W)
  | [], st => .ok st
  | edge :: rest, (dist, parent, pq) =>
    if vget dist u DBL_MAX + edge.weight < vget dist edge.to_ DBL_MAX then
      let dist := vset dist edge.to_ (vget dist u DBL_MAX + edge.weight)
      let parent := vset parent edge.to_ u
      match pq.decreaseKey edge.to_ (vget dist edge.to_ DBL_MAX) with
      | (.error e, _) => .error e
      | (.ok _, pq) => relaxEdges u rest (dist, parent, pq)
    else relaxEdges u rest (dist, parent, pq)

/-- The `while (!pq.isEmpty())` loop of `shortest_paths`, at most `fuel` iterations. -/
def dijkstraLoop [LinearOrderedRing W] (g : Graph W) :
    Nat → List W × List Int × MinPQ W → Except Err (List W × List Int)
  | fuel, (dist, parent, pq) =>
    if pq.isEmpty then .ok (dist, parent)
    else
      match fuel with
      | 0 => .error .outOfFuel
      | fuel + 1 =>
        match pq.delMin with
        | (.error e, _) => .error e
        | (.ok u, pq) =>
          match relaxEdges u (g.adj u) (dist, parent, pq) with
          | .error e => .error e
          | .ok st => dijkstraLoop g fuel st

/-- `shortest_paths(sources, dist, parent)`: the result is the pair of the vectors
`dist` and `parent` when the call returns; what the two vectors hold when the call
throws is not part of the result.  Every iteration of the main loop removes one of
the `V` inserted vertices, so `V` iterations are never used up. -/
def shortest_paths [LinearOrderedRing W] (g : Graph W) (sources : List Int) :
    Except Err (List W × List Int) :=
  match MinPQ.new (g.V : Int) (DBL_MAX : W) with
  | .error e => .error e
  | .ok pq =>
    let dist := List.replicate g.V (DBL_MAX : W)
    let parent := List.replicate g.V (-1 : Int)
    match checkSources g sources with
    | .error e => .error e
    | .ok _ =>
      let dist := zeroSources sources dist
      match insertAll dist (List.range g.V) pq with
      | .error e => .error e
      | .ok pq => dijkstraLoop g g.V (dist, parent, pq)

/-! ### `shortest_paths` with a log of its priority-queue calls -/

/-- A call of a member function of the priority queue inside `shortest_paths`, with the
queue as it is when the call is made: `insert(i, key)`, `delMin()` (with the index it
returns) and `decreaseKey(i, key)`. -/
inductive PQCall (W : Type) where
  | insert (pq : MinPQ W) (i : Int) (key : W)
  | delMin (pq : MinPQ W) (u : Int)
  | decreaseKey (pq : MinPQ W) (i : Int) (key : W)

/-- What makes the logged call succeed: `insert` on a valid index that is not contained,
`delMin` on a queue that is not empty, `decreaseKey` on a contained index with a key
strictly less than its current key. -/
def PQCall.Pre [LinearOrder W] : PQCall W → Prop
  | .insert pq i _ => 0 ≤ i ∧ i < pq.maxN ∧ pq.contains i = .ok false
  | .delMin pq u => pq.isEmpty = false ∧ pq.delMin.1 = .ok u
  | .decreaseKey pq i key => pq.contains i = .ok true ∧ ∃ c, pq.keyOf i = .ok c ∧ key < c

/-- The indices inserted by the logged calls, in the order of the calls. -/
def inserted : List (PQCall W) → List Int
  | [] => []
  | .insert _ i _ :: rest => i :: inserted rest
  | _ :: rest => inserted rest

/-- The indices returned by the logged `delMin` calls, in the order of the calls. -/
def extracted : List (PQCall W) → List Int
  | [] => []
  | .delMin _ u :: rest => u :: extracted rest
  | _ :: rest => extracted rest

/-- `insertAll` with the log of its `insert` calls. -/
def insertAllLog [LinearOrderedRing W] (dist : List W) :
    List Nat → MinPQ W → List (PQCall W) → Except Err (MinPQ W × List (PQCall W))
  | [], pq, log => .ok (pq, log)
  | i :: rest, pq, log =>
    match pq.insert i (vget dist i DBL_MAX) with
    | (.error e, _) => .error e
    | (.ok _, pq') =>
      insertAllLog dist rest pq' (log ++ [.insert pq i (vget dist i DBL_MAX)])

/-- `relaxEdges` with the log of its `decreaseKey` calls. -/
def relaxEdgesLog [LinearOrderedRing W] (u : Int) :
    List (Edge W) → List W × List Int × MinPQ W → List (PQCall W) →
    Except Err ((List W × List Int × MinPQ W) × List (PQCall W))
  | [], st, log => .ok (st, log)
  | edge :: rest, (dist, parent, pq), log =>
    if vget dist u DBL_MAX + edge.weight < vget dist edge.to_ DBL_MAX then
      let dist := vset dist edge.to_ (vget dist u DBL_MAX + edge.weight)
      let parent := vset parent edge.to_ u
      match pq.decreaseKey edge.to_ (vget dist edge.to_ DBL_MAX) with
      | (.error e, _) => .error e
      | (.ok _, pq') =>
        relaxEdgesLog u rest (dist, parent, pq')
          (log ++ [.decreaseKey pq edge.to_ (vget dist edge.to_ DBL_MAX)])
    else relaxEdgesLog u rest (dist, parent, pq) log

/-- `dijkstraLoop` with the log of its `delMin` and `decreaseKey` calls. -/
def dijkstraLoopLog [LinearOrderedRing W] (g : Graph W) :
    Nat → List W × List Int × MinPQ W → List (PQCall W) →
    Except Err ((List W × List Int) × List (PQCall W))
  | fuel, (dist, parent, pq), log =>
    if pq.isEmpty then .ok ((dist, parent), log)
    else
      match fuel with
      | 0 => .error .outOfFuel
      | fuel + 1 =>
        match pq.delMin with
        | (.error e, _) => .error e
        | (.ok u, pq') =>
          match relaxEdgesLog u (g.adj u) (dist, parent, pq') (log ++ [.delMin pq u]) with
          | .error e => .error e
          | .ok (st, log) => dijkstraLoopLog g fuel st log

/-- `shortest_paths` with the log of all its priority-queue calls. -/
def shortest_paths_log [LinearOrderedRing W] (g : Graph W) (sources : List Int) :
    Except Err ((List W × List Int) × List (PQCall W)) :=
  match MinPQ.new (g.V : Int) (DBL_MAX : W) with
  | .error e => .error e
  | .ok pq =>
    let dist := List.replicate g.V (DBL_MAX : W)
    let parent := List.replicate g.V (-1 : Int)
    match checkSources g sources with
    | .error e => .error e
    | .ok _ =>
      let dist := zeroSources sources dist
      match insertAllLog dist (List.range g.V) pq [] with
      | .error e => .error e
      | .ok (pq, log) => dijkstraLoopLog g g.V (dist, parent, pq) log

/-! ### Specification vocabulary for `Graph` -/

/-- There is a stored edge from `a` to `b`: an entry of the adjacency list of `a` whose
field `to` is `b`. -/
def Adj (g : Graph W) (a b : Int) : Prop := ∃ e ∈ g.adj a, e.to_ = b

/-- There is a directed path of length `≥ 0` from `a` to `b`. -/
def Reach (g : Graph W) : Int → Int → Prop := Relation.ReflTransGen g.Adj

/-- The endpoints of every stored edge are vertices, that is, lie in `[0, V)`. -/
@[reducible] def InRange (g : Graph W) : Prop :=
  ∀ v ∈ List.range g.V, ∀ e ∈ g.adj (v : Int),
    0 ≤ e.from_ ∧ e.from_ < (g.V : Int) ∧ 0 ≤ e.to_ ∧ e.to_ < (g.V : Int)

/-- The class invariant of `Graph` that the constructor and `add_edge` establish: an
edge stored in the adjacency list of `v` has `from = v` and a weight `≥ 0`. -/
@[reducible] def WellFormed [LinearOrderedRing W] (g : Graph W) : Prop :=
  ∀ v ∈ List.range g.V, ∀ e ∈ g.adj (v : Int), e.from_ = (v : Int) ∧ 0 ≤ e.weight

/-- The graphs that a client can produce: a freshly constructed graph, and the graph
left by any `add_edge` call (failed calls included) on such a graph. -/
inductive Built [LinearOrderedRing W] : Graph W → Prop
  | new (V : Nat) : Built (Graph.new V)
  | add_edge (g : Graph W) (v w : Int) (weight : W) : Built g → Built (g.add_edge v w weight).2

/-- The property that the comment of `is_undirected` states: for every stored edge
`v -> w` there is a stored edge `w -> v` with the same weight. -/
@[reducible] def Reciprocal (g : Graph W) : Prop :=
  ∀ v ∈ List.range g.V, ∀ e ∈ g.adj (v : Int),
    ∃ e' ∈ g.adj e.to_, e'.to_ = (v : Int) ∧ e'.weight = e.weight

/-- The weight of the last edge to `w` in an adjacency list, if there is one: the weight
that `is_undirected` leaves in the matrix. -/
def lastTo (w : Int) : List (Edge W) → Option W
  | [] => none
  | e :: es =>
    match lastTo w es with
    | some x => some x
    | none => if e.to_ = w then some e.weight else none

/-- The graphs built by paired insertions: a freshly constructed graph, and the graph
after `add_edge(u, v, w)` immediately followed by `add_edge(v, u, w)`, for vertices
`u`, `v` and a weight `w ≥ 0`. -/
inductive PairBuilt [LinearOrderedRing W] : Graph W → Prop
  | new (V : Nat) : PairBuilt (Graph.new V)
  | pair (g : Graph W) (u v : Int) (w : W) :
      0 ≤ u → u < (g.V : Int) → 0 ≤ v → v < (g.V : Int) → 0 ≤ w → PairBuilt g →
      PairBuilt ((g.add_edge u v w).2.add_edge v u w).2

/-- The invariant of the main loop of `connected_components`: `rest` are the vertices
still to visit. -/
structure CcInv (g : Graph W) (rest : List Nat) (done : Int → Int)
    (result : List (List Int)) : Prop where
  done_iff : ∀ v, done v ≠ 0 ↔ v ∈ result.flatten
  nodup : result.flatten.Nodup
  range : ∀ v ∈ result.flatten, 0 ≤ v ∧ v < (g.V : Int)
  closed : ∀ v ∈ result.flatten, ∀ w, g.Reach v w → w ∈ result.flatten
  visited : ∀ v : Nat, v < g.V → v ∉ rest → (v : Int) ∈ result.flatten

/-- The weight of every stored edge is `≥ 0`. -/
@[reducible] def NonNeg [LinearOrderedRing W] (g : Graph W) : Prop :=
  ∀ v ∈ List.range g.V, ∀ e ∈ g.adj (v : Int), 0 ≤ e.weight

/-- Every source is a vertex. -/
@[reducible] def ValidSources (g : Graph W) (sources : List Int) : Prop :=
  ∀ s ∈ sources, 0 ≤ s ∧ s < (g.V : Int)

/-- `PathW g a b w`: there is a directed path of stored edges from `a` to `b` whose
weights sum to `w`. -/
inductive PathW [LinearOrderedRing W] (g : Graph W) : Int → Int → W → Prop
  | nil (a : Int) : PathW g a a 0
  | snoc (a b : Int) (w : W) (e : Edge W) :
      PathW g a b w → e ∈ g.adj b → PathW g a e.to_ (w + e.weight)

/-- `ParentWalk g sources parent x w`: following `parent[]` from `x` ends, after finitely
many steps, at a source whose parent is `-1`; every step `parent[y] -> y` of the walk
is a stored edge, and the weights of these edges sum to `w`. -/
inductive ParentWalk [LinearOrderedRing W] (g : Graph W) (sources parent : List Int) :
    Int → W → Prop
  | root (s : Int) : s ∈ sources → vget parent s (-1) = -1 → ParentWalk g sources parent s 0
  | step (x : Int) (w : W) (e : Edge W) :
      vget parent x (-1) ≠ -1 → ParentWalk g sources parent (vget parent x (-1)) w →
      e ∈ g.adj (vget parent x (-1)) → e.to_ = x →
      ParentWalk g sources parent x (w + e.weight)

/-- The invariant of the loops of `shortest_paths`, but for the relaxed edges.  `order`
lists the vertices removed from the queue so far, in the order of their removal. -/
structure DCore [LinearOrderedRing W] (g : Graph W) (sources : List Int) (dist : List W)
    (parent : List Int) (pq : MinPQ W) (order : List Int) : Prop where
  pqinv : pq.Inv
  maxN : pq.maxN = (g.V : Int)
  len_d : dist.length = g.V
  len_p : parent.length = g.V
  order_nodup : order.Nodup
  done_iff : ∀ v, 0 ≤ v → v < (g.V : Int) → (v ∈ order ↔ pq.qp v = -1)
  order_range : ∀ v ∈ order, 0 ≤ v ∧ v < (g.V : Int)
  keys : ∀ v, 0 ≤ v → v < (g.V : Int) → pq.qp v ≠ -1 → pq.keys v = vget dist v DBL_MAX
  src : ∀ s ∈ sources, vget dist s DBL_MAX = 0
  bounds : ∀ v, 0 ≤ v → v < (g.V : Int) →
    0 ≤ vget dist v DBL_MAX ∧ vget dist v DBL_MAX ≤ DBL_MAX
  mono : ∀ u ∈ order, ∀ v, 0 ≤ v → v < (g.V : Int) → v ∉ order →
    vget dist u DBL_MAX ≤ vget dist v DBL_MAX
  par : ∀ v, 0 ≤ v → v < (g.V : Int) →
    (vget parent v (-1) = -1 ∧
      (vget dist v DBL_MAX = DBL_MAX ∨ (v ∈ sources ∧ vget dist v DBL_MAX = 0))) ∨
    (∃ l1 l2 e, order = l1 ++ vget parent v (-1) :: l2 ∧ v ∉ l1 ∧ v ≠ vget parent v (-1) ∧
      e ∈ g.adj (vget parent v (-1)) ∧ e.to_ = v ∧
      vget dist v DBL_MAX = vget dist (vget parent v (-1)) DBL_MAX + e.weight ∧
      vget dist v DBL_MAX < DBL_MAX)
  src_par : ∀ s ∈ sources, vget parent s (-1) = -1

/-- Every edge out of a removed vertex is relaxed, but for the edges `es` out of `u`
that are still to scan. -/
def Relaxed [LinearOrderedRing W] (g : Graph W) (dist : List W) (order : List Int) (u : Int)
    (es : List (Edge W)) : Prop :=
  ∀ x ∈ order, ∀ e ∈ g.adj x,
    vget dist e.to_ DBL_MAX ≤ vget dist x DBL_MAX + e.weight ∨ (x = u ∧ e ∈ es)

/-- The invariant of the loops of `get_reachable_from`.  `cur` holds the vertex whose
adjacency list is being scanned (it is dequeued but still has color 1), if any. -/
structure BfsInv (g : Graph W) (s : Int) (cur q : List Int) (color : Int → Int)
    (result : List Int) : Prop where
  nodup_res : result.Nodup
  nodup_q : (cur ++ q).Nodup
  res_iff : ∀ v, v ∈ result ↔ color v ≠ 0
  gray_iff : ∀ v, v ∈ cur ++ q ↔ color v = 1
  colors : ∀ v, color v = 0 ∨ color v = 1 ∨ color v = 2
  black : ∀ v, color v = 2 → ∀ e ∈ g.adj v, color e.to_ ≠ 0
  reach : ∀ v ∈ result, g.Reach s v
  src : s ∈ result
  range : ∀ v ∈ result, 0 ≤ v ∧ v < (g.V : Int)

/-- The number of vertices that are not yet colored 2. -/
def nonBlack (g : Graph W) (color : Int → Int) : Nat :=
  ((Finset.range g.V).filter (fun i : Nat => color (i : Int) ≠ 2)).card

/-- `HopN g a b n`: there is a directed path of exactly `n` stored edges from `a` to `b`. -/
inductive HopN (g : Graph W) (a : Int) : Int → Nat → Prop
  | nil : HopN g a a 0
  | snoc (b c : Int) (n : Nat) : HopN g a b n → g.Adj b c → HopN g a c (n + 1)

/-- `n` is the hop distance from `s` to `v`: the minimum number of edges on a directed
path from `s` to `v`. -/
def IsHopDist (g : Graph W) (s v : Int) (n : Nat) : Prop :=
  g.HopN s v n ∧ ∀ m, g.HopN s v m → n ≤ m

/-- The entries of `ws` that are not among the vertices `seen` discovered so far, in the
order of `ws`, each entry once (at its first place in `ws`). -/
def newOf (seen : List Int) : List Int → List Int
  | [] => []
  | w :: ws => if w ∈ seen then newOf seen ws else w :: newOf (seen ++ [w]) ws

/-- Breadth-first discovery order from `s`: the sequence `r` is `s` followed by one block
for each of its elements, in the order of `r`; the block of the element `u` at place `i`
holds the heads of the edges out of `u`, in the order of the adjacency list of `u`
(the order of their insertion), that are not discovered before: not `s` and in no block
of an earlier place. -/
def DiscoveryOrder (g : Graph W) (s : Int) (r : List Int) : Prop :=
  ∃ blocks : List (List Int), blocks.length = r.length ∧ r = s :: blocks.flatten ∧
    ∀ (i : Nat) (u : Int), r[i]? = some u →
      blocks[i]? = some (newOf (s :: (blocks.take i).flatten) ((g.adj u).map fun e => e.to_))

/-- The invariant of the main loop of `get_reachable_from` for the order of the result:
`done` are the vertices dequeued so far, `blocks` the vertices that each of them added,
and `lev` the number of edges of the path on which a vertex was discovered. -/
structure OrdInv (g : Graph W) (s : Int) (done q : List Int) (color : Int → Int)
    (result : List Int) (blocks : List (List Int)) (lev : Int → Nat) : Prop where
  split : result = done ++ q
  res_iff : ∀ v, color v ≠ 0 ↔ v ∈ result
  len : blocks.length = done.length
  flat : result = s :: blocks.flatten
  block : ∀ (i : Nat) (u : Int), done[i]? = some u →
    blocks[i]? = some (newOf (s :: (blocks.take i).flatten) ((g.adj u).map fun e => e.to_))
  lev_s : lev s = 0
  hop : ∀ v ∈ result, g.HopN s v (lev v)
  sorted : result.Pairwise (fun a b => lev a ≤ lev b)
  front : ∀ u ∈ q.head?, ∀ v ∈ result, lev v ≤ lev u + 1
  closed : ∀ x ∈ done, ∀ y, g.Adj x y → y ∈ result ∧ lev y ≤ lev x + 1

end Graph

/-! ## Examples -/

/-- The graph of `test.cpp`: 4 vertices, edges 0-1 (4), 2-3 (2), 3-0 (3) in both
directions. -/
def exGraph : Graph Int :=
  let g : Graph Int := Graph.new 4
  let g := (g.add_edge 0 1 4).2
  let g := (g.add_edge 1 0 4).2
  let g := (g.add_edge 2 3 2).2
  let g := (g.add_edge 3 2 2).2
  let g := (g.add_edge 3 0 3).2
  (g.add_edge 0 3 3).2


/-- Test queue: capacity 5, indices 0..4 inserted with keys 5, 3, 8, 1, 4. -/
def exPQ : MinPQ Int :=
  let s : MinPQ Int := ⟨5, 0, fun _ => 0, fun _ => -1, fun _ => 0⟩
  let s := (s.insert 0 5).2
  let s := (s.insert 1 3).2
  let s := (s.insert 2 8).2
  let s := (s.insert 3 1).2
  (s.insert 4 4).2

/-- A chain `0 -> 1 -> 2` of two edges of weight `DBL_MAX`. -/
def satGraph : Graph Int :=
  let g : Graph Int := Graph.new 3
  let g := (g.add_edge 0 1 DBL_MAX).2
  (g.add_edge 1 2 DBL_MAX).2

/-- One edge `0 -> 1` of weight `DBL_MAX`. -/
def satEdge : Graph Int := ((Graph.new 2 : Graph Int).add_edge 0 1 DBL_MAX).2

/-- One edge `0 -> 1` of weight 1, without the edge back. -/
def oneWay : Graph Int := ((Graph.new 2 : Graph Int).add_edge 0 1 1).2

/-- Two parallel edges `0 -> 1` of weights 1 and 2, and one edge `1 -> 0` of weight 2:
the edge of weight 1 has no edge back of the same weight. -/
def parGraph : Graph Int :=
  let g : Graph Int := Graph.new 2
  let g := (g.add_edge 0 1 1).2
  let g := (g.add_edge 0 1 2).2
  (g.add_edge 1 0 2).2

/-- Parallel edges of weights 1 and 2 in both directions, inserted in the orders 1, 2
and 2, 1. -/
def parGraph2 : Graph Int :=
  let g : Graph Int := Graph.new 2
  let g := (g.add_edge 0 1 1).2
  let g := (g.add_edge 0 1 2).2
  let g := (g.add_edge 1 0 2).2
  (g.add_edge 1 0 1).2

/-- An edge `0 -> 1` of weight 1/2 and an edge `1 -> 0` of weight 7/10. -/
def fracGraph : Graph ℚ :=
  let g : Graph ℚ := Graph.new 2
  let g := (g.add_edge 0 1 (1 / 2)).2
  (g.add_edge 1 0 (7 / 10)).2

/-- The graph of `test.cpp` with a fifth vertex that no edge touches. -/
def exGraph5 : Graph Int :=
  let g : Graph Int := Graph.new 5
  let g := (g.add_edge 0 1 4).2
  let g := (g.add_edge 1 0 4).2
  let g := (g.add_edge 2 3 2).2
  let g := (g.add_edge 3 2 2).2
  let g := (g.add_edge 3 0 3).2
  (g.add_edge 0 3 3).2

/-! # Theorems -/

namespace MinPQ

variable {T : Type}

/-! ### `exch` -/

@[simp] theorem exch_n (s : MinPQ T) (a b : Int) : (s.exch a b).n = s.n := rfl

@[simp] theorem exch_maxN (s : MinPQ T) (a b : Int) : (s.exch a b).maxN = s.maxN := rfl

@[simp] theorem exch_keys (s : MinPQ T) (a b : Int) : (s.exch a b).keys = s.keys := rfl

theorem exch_pq (s : MinPQ T) (a b c : Int) :
    (s.exch a b).pq c = if c = b then s.pq a else if c = a then s.pq b else s.pq c := by
  simp only [exch, Function.update_apply]

theorem exch_qp (s : MinPQ T) (a b i : Int) :
    (s.exch a b).qp i = if i = s.pq a then b else if i = s.pq b then a else s.qp i := by
  simp only [exch, Function.update_apply]
  by_cases hab : a = b
  · subst hab; simp
  · simp only [if_neg hab, if_true]

theorem exch_slotKey (s : MinPQ T) (a b c : Int) :
    (s.exch a b).slotKey c =
      if c = b then s.slotKey a else if c = a then s.slotKey b else s.slotKey c := by
  unfold slotKey
  rw [exch_pq, exch_keys]
  split_ifs <;> rfl

theorem exch_self_of_bk (s : MinPQ T) (m a : Int) (h : s.Bk m) (h1 : 1 ≤ a) (h2 : a ≤ m) :
    s.exch a a = s := by
  have hq := (h.1 a h1 h2).2.2
  cases s with
  | mk maxN n pq qp keys =>
    simp only at hq
    simp only [exch, mk.injEq, true_and, and_true, Function.update_eq_self,
      Function.update_same, Function.update_idem]
    funext c
    by_cases hc : c = pq a
    · rw [hc, Function.update_same, hq]
    · rw [Function.update_noteq hc]

theorem exch_bk (s : MinPQ T) (m a b : Int) (h : s.Bk m)
    (ha1 : 1 ≤ a) (ha2 : a ≤ m) (hb1 : 1 ≤ b) (hb2 : b ≤ m) : (s.exch a b).Bk m := by
  obtain ⟨h1, h2⟩ := h
  have hA := h1 a ha1 ha2
  have hB := h1 b hb1 hb2
  constructor
  · intro k hk1 hk2
    have hK := h1 k hk1 hk2
    rw [exch_maxN, exch_pq]
    by_cases hkb : k = b
    · subst hkb
      simp only [if_true, exch_qp]
      exact ⟨hA.1, hA.2.1, by simp⟩
    · by_cases hka : k = a
      · subst hka
        simp only [if_neg hkb, if_true, exch_qp]
        refine ⟨hB.1, hB.2.1, ?_⟩
        have : s.pq b ≠ s.pq k := fun e => hkb (by rw [← hK.2.2, ← e, hB.2.2])
        simp [this]
      · simp only [if_neg hkb, if_neg hka, exch_qp]
        refine ⟨hK.1, hK.2.1, ?_⟩
        have e1 : s.pq k ≠ s.pq a := fun e => hka (by rw [← hK.2.2, e, hA.2.2])
        have e2 : s.pq k ≠ s.pq b := fun e => hkb (by rw [← hK.2.2, e, hB.2.2])
        simp [e1, e2, hK.2.2]
  · intro i hi1 hi2
    rw [exch_maxN] at hi2
    rw [exch_qp]
    by_cases hia : i = s.pq a
    · right
      simp only [if_pos hia, exch_pq, if_true]
      exact ⟨hb1, hb2, hia.symm⟩
    · by_cases hib : i = s.pq b
      · right
        simp only [if_neg hia, if_pos hib, exch_pq, if_true]
        refine ⟨ha1, ha2, ?_⟩
        split_ifs with hab
        · rw [hab] at hia; exact absurd hib hia
        · exact hib.symm
      · simp only [if_neg hia, if_neg hib]
        rcases h2 i hi1 hi2 with h | ⟨q1, q2, q3⟩
        · exact Or.inl h
        · right
          refine ⟨q1, q2, ?_⟩
          rw [exch_pq]
          have e1 : s.qp i ≠ b := fun e => hib (by rw [← q3, e])
          have e2 : s.qp i ≠ a := fun e => hia (by rw [← q3, e])
          simp [e1, e2, q3]

theorem Frame.refl (s : MinPQ T) (m : Int) (h : s.Bk m) (hn : s.n ≤ m) : Frame s m s :=
  ⟨rfl, rfl, rfl, hn, h, fun _ _ => rfl, fun _ => Iff.rfl⟩

theorem Frame.exch (s0 s : MinPQ T) (m a b : Int) (h : Frame s0 m s)
    (ha1 : 1 ≤ a) (ha2 : a ≤ s.n) (hb1 : 1 ≤ b) (hb2 : b ≤ s.n) : Frame s0 m (s.exch a b) := by
  have hn := h.n_le
  have hA := h.bk.1 a ha1 (by omega)
  have hB := h.bk.1 b hb1 (by omega)
  refine ⟨h.n_eq, h.maxN_eq, h.keys_eq, hn, exch_bk s m a b h.bk ha1 (by omega) hb1 (by omega),
    ?_, ?_⟩
  · intro k hk
    have := h.n_eq
    rw [exch_pq, if_neg (by omega), if_neg (by omega)]
    exact h.above k hk
  · intro i
    rw [exch_qp, ← h.absent i]
    by_cases hia : i = s.pq a
    · rw [if_pos hia, hia, hA.2.2]; omega
    · by_cases hib : i = s.pq b
      · rw [if_neg hia, if_pos hib, hib, hB.2.2]; omega
      · rw [if_neg hia, if_neg hib]

/-! ### The loops `swim` and `sink` -/

section Loops

variable [LinearOrder T]

theorem greater_iff (s : MinPQ T) (a b : Int) :
    s.greater a b = true ↔ s.slotKey b < s.slotKey a := by
  simp [greater, slotKey]

theorem greater_false_iff (s : MinPQ T) (a b : Int) :
    s.greater a b = false ↔ s.slotKey a ≤ s.slotKey b := by
  simp [greater, slotKey]

theorem swimLoop_stop (fuel : Nat) (s : MinPQ T) (k : Int)
    (h : ¬ (k > 1 ∧ s.greater (k / 2) k = true)) : swimLoop fuel s k = s := by
  cases fuel with
  | zero => rfl
  | succ f => rw [swimLoop, if_neg h]

/-- Any budget of at least `k` iterations gives the same result. -/
theorem swimLoop_fuel (fuel : Nat) : ∀ (s : MinPQ T) (k : Int), k.toNat ≤ fuel →
    swimLoop fuel s k = swimLoop k.toNat s k := by
  induction fuel using Nat.strong_induction_on with
  | _ fuel ih =>
    intro s k hk
    by_cases hc : k > 1 ∧ s.greater (k / 2) k = true
    · obtain ⟨m, hm⟩ : ∃ m, k.toNat = m + 1 := ⟨k.toNat - 1, by omega⟩
      obtain ⟨f, hf⟩ : ∃ f, fuel = f + 1 := ⟨fuel - 1, by omega⟩
      rw [hm, hf, swimLoop, swimLoop, if_pos hc, if_pos hc]
      rw [ih f (by omega) _ _ (by omega), ih m (by omega) _ _ (by omega)]
    · rw [swimLoop_stop _ _ _ hc, swimLoop_stop _ _ _ hc]

/-- The loop equation of `swim`: the embedding runs the `while` loop to its end. -/
theorem swim_eq (s : MinPQ T) (k : Int) :
    s.swim k = if k > 1 ∧ s.greater (k / 2) k = true then (s.exch k (k / 2)).swim (k / 2)
      else s := by
  unfold swim
  split_ifs with hc
  · obtain ⟨m, hm⟩ : ∃ m, k.toNat = m + 1 := ⟨k.toNat - 1, by omega⟩
    rw [hm, swimLoop, if_pos hc]
    exact swimLoop_fuel m _ _ (by omega)
  · exact swimLoop_stop _ _ _ hc

theorem sinkLoop_stop (fuel : Nat) (s : MinPQ T) (k : Int) (h : ¬ 2 * k ≤ s.n) :
    sinkLoop fuel s k = s := by
  cases fuel with
  | zero => rfl
  | succ f => rw [sinkLoop, if_neg h]

/-- The child slot that `sink` compares slot `k` with. -/
theorem sinkLoop_succ (fuel : Nat) (s : MinPQ T) (k : Int) (h : 2 * k ≤ s.n) :
    sinkLoop (fuel + 1) s k =
      if s.greater k (if 2 * k < s.n ∧ s.greater (2 * k) (2 * k + 1) = true
          then 2 * k + 1 else 2 * k) = false then s
      else sinkLoop fuel
        (s.exch k (if 2 * k < s.n ∧ s.greater (2 * k) (2 * k + 1) = true
          then 2 * k + 1 else 2 * k))
        (if 2 * k < s.n ∧ s.greater (2 * k) (2 * k + 1) = true then 2 * k + 1 else 2 * k) := by
  rw [sinkLoop, if_pos h]

/-- Any budget of more than `n - k` iterations gives the same result, for `k ≥ 1`. -/
theorem sinkLoop_fuel (fuel : Nat) : ∀ (f2 : Nat) (s : MinPQ T) (k : Int), 1 ≤ k →
    s.n - k < fuel → s.n - k < f2 → sinkLoop fuel s k = sinkLoop f2 s k := by
  induction fuel with
  | zero => intro f2 s k hk h1 h2; rw [sinkLoop_stop _ _ _ (by omega), sinkLoop_stop _ _ _ (by omega)]
  | succ f ih =>
    intro f2 s k hk h1 h2
    by_cases hc : 2 * k ≤ s.n
    · obtain ⟨g, hg⟩ : ∃ g, f2 = g + 1 := ⟨f2 - 1, by omega⟩
      subst hg
      rw [sinkLoop_succ _ _ _ hc, sinkLoop_succ _ _ _ hc]
      split_ifs with h3 h4
      · rfl
      · exact ih _ _ _ (by omega) (by rw [exch_n]; push_cast at h1 ⊢; omega)
          (by rw [exch_n]; push_cast at h2 ⊢; omega)
      · rfl
      · exact ih _ _ _ (by omega) (by rw [exch_n]; push_cast at h1 ⊢; omega)
          (by rw [exch_n]; push_cast at h2 ⊢; omega)
    · rw [sinkLoop_stop _ _ _ hc, sinkLoop_stop _ _ _ hc]

/-- The loop equation of `sink` for a slot `k ≥ 1`: the embedding runs the `while` loop
to its end. -/
theorem sink_eq (s : MinPQ T) (k : Int) (hk : 1 ≤ k) :
    s.sink k =
      if 2 * k ≤ s.n then
        if s.greater k (if 2 * k < s.n ∧ s.greater (2 * k) (2 * k + 1) = true
            then 2 * k + 1 else 2 * k) = false then s
        else (s.exch k (if 2 * k < s.n ∧ s.greater (2 * k) (2 * k + 1) = true
            then 2 * k + 1 else 2 * k)).sink
          (if 2 * k < s.n ∧ s.greater (2 * k) (2 * k + 1) = true then 2 * k + 1 else 2 * k)
      else s := by
  unfold sink
  by_cases hc : 2 * k ≤ s.n
  · rw [if_pos hc]
    obtain ⟨m, hm⟩ : ∃ m, s.n.toNat = m + 1 := ⟨s.n.toNat - 1, by omega⟩
    rw [hm, sinkLoop_succ _ _ _ hc]
    split_ifs with h3 h4
    · rfl
    · exact sinkLoop_fuel _ _ _ _ (by omega) (by rw [exch_n]; omega) (by rw [exch_n]; omega)
    · rfl
    · exact sinkLoop_fuel _ _ _ _ (by omega) (by rw [exch_n]; omega) (by rw [exch_n]; omega)
  · rw [if_neg hc]; exact sinkLoop_stop _ _ _ hc

/-- A property kept by every `exch` on slots `1..n` is kept by `swim`. -/
theorem swimLoop_keeps (P : MinPQ T → Prop)
    (hP : ∀ s a b, P s → 1 ≤ a → a ≤ s.n → 1 ≤ b → b ≤ s.n → P (s.exch a b))
    (fuel : Nat) : ∀ (s : MinPQ T) (k : Int), 1 ≤ k → k ≤ s.n → P s → P (swimLoop fuel s k) := by
  induction fuel with
  | zero => intro s k _ _ h; exact h
  | succ f ih =>
    intro s k hk1 hk2 h
    rw [swimLoop]
    split_ifs with hc
    · exact ih _ _ (by omega) (by rw [exch_n]; omega)
        (hP s k (k / 2) h hk1 hk2 (by omega) (by omega))
    · exact h

/-- A property kept by every `exch` on slots `1..n` is kept by `sink`. -/
theorem sinkLoop_keeps (P : MinPQ T → Prop)
    (hP : ∀ s a b, P s → 1 ≤ a → a ≤ s.n → 1 ≤ b → b ≤ s.n → P (s.exch a b))
    (fuel : Nat) : ∀ (s : MinPQ T) (k : Int), 1 ≤ k → P s → P (sinkLoop fuel s k) := by
  induction fuel with
  | zero => intro s k _ h; exact h
  | succ f ih =>
    intro s k hk1 h
    by_cases hc : 2 * k ≤ s.n
    · rw [sinkLoop_succ _ _ _ hc]
      split_ifs with h3 h4
      · exact h
      · exact ih _ _ (by omega) (hP s k _ h hk1 (by omega) (by omega) (by omega))
      · exact h
      · exact ih _ _ (by omega) (hP s k _ h hk1 (by omega) (by omega) (by omega))
    · rw [sinkLoop_stop _ _ _ hc]; exact h

theorem swim_frame (s0 s : MinPQ T) (m k : Int) (h : Frame s0 m s) (hk1 : 1 ≤ k)
    (hk2 : k ≤ s.n) : Frame s0 m (s.swim k) :=
  swimLoop_keeps (Frame s0 m) (fun s a b h => Frame.exch s0 s m a b h) _ s k hk1 hk2 h

theorem sink_frame (s0 s : MinPQ T) (m k : Int) (h : Frame s0 m s) (hk1 : 1 ≤ k) :
    Frame s0 m (s.sink k) :=
  sinkLoop_keeps (Frame s0 m) (fun s a b h => Frame.exch s0 s m a b h) _ s k hk1 h

/-- `swim(k)` restores heap order when only slot `k` may be smaller than its parent. -/
theorem swimLoop_heap (fuel : Nat) : ∀ (s : MinPQ T) (k : Int), k.toNat ≤ fuel → 1 ≤ k →
    s.HeapUp k → (swimLoop fuel s k).HeapOrdered := by
  induction fuel with
  | zero => intro s k h1 h2 _; omega
  | succ f ih =>
    intro s k hf hk hup
    obtain ⟨⟨he1, he2⟩, hch⟩ := hup
    rw [swimLoop]
    split_ifs with hc
    · obtain ⟨hk1, hg⟩ := hc
      rw [greater_iff] at hg
      apply ih _ _ (by omega) (by omega)
      have hp2 : k / 2 ≠ k := by omega
      refine ⟨⟨?_, ?_⟩, ?_⟩
      · intro j hj1 hj2 hjp hjpp
        rw [exch_n] at hj2
        have hjk : j ≠ k := fun e => hjpp (by rw [e])
        rw [exch_slotKey, exch_slotKey, if_neg hjp, if_neg hjk, if_neg hjpp]
        by_cases hjc : j / 2 = k
        · rw [if_pos hjc]
          exact he2 j hj1 hj2 hjc (by omega)
        · rw [if_neg hjc]
          exact he1 j hj1 hj2 hjk hjc
      · intro j hj1 hj2 hjp hp
        rw [exch_n] at hj2
        have e1 : k / 2 / 2 ≠ k / 2 := by omega
        have e2 : k / 2 / 2 ≠ k := by omega
        have hpar : s.slotKey (k / 2 / 2) ≤ s.slotKey (k / 2) :=
          he1 (k / 2) hp (by omega) hp2 e2
        rw [exch_slotKey, exch_slotKey, if_neg e1, if_neg e2]
        by_cases hjk : j = k
        · have : j ≠ k / 2 := by omega
          rw [if_neg this, if_pos hjk]
          exact hpar
        · have : j ≠ k / 2 := by omega
          rw [if_neg this, if_neg hjk]
          exact le_trans hpar (hjp ▸ he1 j hj1 hj2 hjk (by omega))
      · intro j hj1 hj2 hjp
        rw [exch_n] at hj2
        have hjne : j ≠ k / 2 := by omega
        rw [exch_slotKey, exch_slotKey, if_pos rfl, if_neg hjne]
        by_cases hjk : j = k
        · rw [if_pos hjk]; exact le_of_lt hg
        · rw [if_neg hjk]
          exact le_trans (le_of_lt hg) (hjp ▸ he1 j hj1 hj2 hjk (by omega))
    · intro j hj1 hj2
      by_cases hjk : j = k
      · subst hjk
        have : ¬ s.greater (j / 2) j = true := fun e => hc ⟨by omega, e⟩
        rw [Bool.not_eq_true, greater_false_iff] at this
        exact this
      · by_cases hjc : j / 2 = k
        · rw [hjc]; exact hch j hj1 hj2 hjc
        · exact he1 j hj1 hj2 hjk hjc

theorem swim_heap (s : MinPQ T) (k : Int) (hk : 1 ≤ k) (h : s.HeapUp k) :
    (s.swim k).HeapOrdered :=
  swimLoop_heap _ s k le_rfl hk h

/-- `sink(k)` restores heap order when only slot `k` may be larger than its children. -/
theorem sinkLoop_heap (fuel : Nat) : ∀ (s : MinPQ T) (k : Int), s.n - k < fuel → 1 ≤ k →
    s.HeapDown k → (sinkLoop fuel s k).HeapOrdered := by
  have stop : ∀ (s : MinPQ T) (k : Int), 1 ≤ k → s.HeapDown k →
      (∀ j, 2 ≤ j → j ≤ s.n → j / 2 = k → s.slotKey k ≤ s.slotKey j) → s.HeapOrdered := by
    intro s k _ hd hch j hj1 hj2
    by_cases hjk : j = k
    · subst hjk; exact hd.2 hj1 hj2
    · by_cases hjc : j / 2 = k
      · rw [hjc]; exact hch j hj1 hj2 hjc
      · exact hd.1.1 j hj1 hj2 hjk hjc
  intro s k
  induction fuel generalizing s k with
  | zero =>
    intro hf hk hd
    exact stop s k hk hd (fun j _ hj2 hjc => by omega)
  | succ f ih =>
    intro hf hk hd
    by_cases hc : 2 * k ≤ s.n
    · rw [sinkLoop_succ _ _ _ hc]
      -- the smaller child `c`
      generalize hcdef : (if 2 * k < s.n ∧ s.greater (2 * k) (2 * k + 1) = true
          then 2 * k + 1 else 2 * k) = c
      have hc1 : c = 2 * k ∨ c = 2 * k + 1 := by
        rw [← hcdef]; split_ifs <;> simp
      have hc2 : c ≤ s.n := by
        rw [← hcdef]; split_ifs with h
        · omega
        · exact hc
      have hcmin : ∀ j, 2 ≤ j → j ≤ s.n → j / 2 = k → s.slotKey c ≤ s.slotKey j := by
        intro j hj1 hj2 hjc
        have hj : j = 2 * k ∨ j = 2 * k + 1 := by omega
        rw [← hcdef]
        split_ifs with h
        · rcases hj with e | e
          · rw [e]; exact le_of_lt ((greater_iff _ _ _).1 h.2)
          · rw [e]
        · rcases hj with e | e
          · rw [e]
          · rw [e]
            have : ¬ s.greater (2 * k) (2 * k + 1) = true := fun e2 => h ⟨by omega, e2⟩
            rw [Bool.not_eq_true, greater_false_iff] at this
            exact this
      have hck : c / 2 = k := by omega
      have hcne : c ≠ k := by omega
      split_ifs with hg
      · rw [greater_false_iff] at hg
        exact stop s k hk hd (fun j hj1 hj2 hjc => le_trans hg (hcmin j hj1 hj2 hjc))
      · rw [Bool.not_eq_false, greater_iff] at hg
        apply ih _ _ (by rw [exch_n]; omega) (by omega)
        obtain ⟨⟨he1, he2⟩, hpar⟩ := hd
        refine ⟨⟨?_, ?_⟩, ?_⟩
        · intro j hj1 hj2 hjc hjpc
          rw [exch_n] at hj2
          rw [exch_slotKey, exch_slotKey, if_neg hjc, if_neg hjpc]
          by_cases hjk : j = k
          · have hk2 : 2 ≤ k := by omega
            have : j / 2 ≠ k := by omega
            rw [if_pos hjk, if_neg this, hjk]
            exact he2 c (by omega) hc2 hck hk2
          · rw [if_neg hjk]
            by_cases hjpk : j / 2 = k
            · rw [if_pos hjpk]; exact hcmin j hj1 hj2 hjpk
            · rw [if_neg hjpk]; exact he1 j hj1 hj2 hjk hjpk
        · intro j hj1 hj2 hjp _
          rw [exch_n] at hj2
          have e1 : j ≠ c := by omega
          have e2 : j ≠ k := by omega
          rw [exch_slotKey, exch_slotKey, hck, if_neg hcne.symm, if_pos rfl, if_neg e1,
            if_neg e2]
          rw [← hjp]
          exact he1 j hj1 hj2 e2 (by omega)
        · intro _ _
          rw [exch_slotKey, exch_slotKey, hck, if_neg hcne.symm, if_pos rfl, if_pos rfl]
          exact le_of_lt hg
    · rw [sinkLoop_stop _ _ _ hc]
      exact stop s k hk hd (fun j _ hj2 hjc => by omega)

theorem sink_heap (s : MinPQ T) (k : Int) (hk : 1 ≤ k) (h : s.HeapDown k) :
    (s.sink k).HeapOrdered :=
  sinkLoop_heap _ s k (by omega) hk h

theorem HeapOrdered.heapDown (s : MinPQ T) (k : Int) (h : s.HeapOrdered) : s.HeapDown k :=
  ⟨⟨fun j h1 h2 _ _ => h j h1 h2,
    fun j h1 h2 hj hk => hj ▸ le_trans (h (j / 2) (hj ▸ hk) (by omega)) (h j h1 h2)⟩,
    fun h1 h2 => h k h1 h2⟩

theorem HeapOrdered.heapUp (s : MinPQ T) (k : Int) (h : s.HeapOrdered) : s.HeapUp k :=
  ⟨(HeapOrdered.heapDown s k h).1, fun j h1 h2 hj => hj ▸ h j h1 h2⟩

/-- In a heap-ordered queue the root holds a minimum key. -/
theorem HeapOrdered.root_le (s : MinPQ T) (h : s.HeapOrdered) :
    ∀ k, 1 ≤ k → k ≤ s.n → s.slotKey 1 ≤ s.slotKey k := by
  intro k hk1 hk2
  obtain ⟨m, hm⟩ : ∃ m : Nat, k = m := ⟨k.toNat, by omega⟩
  subst hm
  induction m using Nat.strong_induction_on with
  | _ m ih =>
    by_cases h1 : (m : Int) = 1
    · rw [h1]
    · have hp := ih (m / 2) (by omega) (by push_cast; omega) (by push_cast; omega)
      have := h m (by omega) hk2
      push_cast at hp
      exact le_trans hp this

end Loops

/-! ### Bookkeeping lemmas -/

/-- The heap slots hold pairwise different indices, so a queue that misses a valid
index is not full. -/
theorem Bk.lt_of_absent (s : MinPQ T) (m i : Int) (h : s.Bk m) (hi1 : 0 ≤ i)
    (hi2 : i < s.maxN) (hq : s.qp i = -1) : m < s.maxN := by
  by_contra hcon
  have hsub : ∀ k ∈ Finset.Icc (1 : Int) m, s.pq k ∈ (Finset.Ico (0 : Int) s.maxN).erase i := by
    intro k hk
    rw [Finset.mem_Icc] at hk
    have := h.1 k hk.1 hk.2
    rw [Finset.mem_erase, Finset.mem_Ico]
    refine ⟨fun e => ?_, this.1, this.2.1⟩
    have h3 := this.2.2
    rw [e, hq] at h3
    omega
  have hinj : Set.InjOn s.pq (Finset.Icc (1 : Int) m : Set Int) := by
    intro a ha b hb hab
    rw [Finset.mem_coe, Finset.mem_Icc] at ha hb
    rw [← (h.1 a ha.1 ha.2).2.2, ← (h.1 b hb.1 hb.2).2.2, hab]
  have hcard := Finset.card_le_card_of_injOn s.pq hsub hinj
  have hmem : i ∈ Finset.Ico (0 : Int) s.maxN := by
    rw [Finset.mem_Ico]; exact ⟨hi1, hi2⟩
  rw [Finset.card_erase_of_mem hmem, Int.card_Icc, Int.card_Ico] at hcard
  omega

/-- Dropping the last slot `m`: the index stored there leaves the queue. -/
theorem Bk.drop (s s' : MinPQ T) (m : Int) (h : s.Bk m) (hm : 1 ≤ m)
    (hmax : s'.maxN = s.maxN) (hqp : s'.qp = Function.update s.qp (s.pq m) (-1))
    (hpq : ∀ k, k < m → s'.pq k = s.pq k) : s'.Bk (m - 1) := by
  have hM := h.1 m hm le_rfl
  constructor
  · intro k hk1 hk2
    have hK := h.1 k hk1 (by omega)
    rw [hpq k (by omega), hmax, hqp]
    refine ⟨hK.1, hK.2.1, ?_⟩
    have : s.pq k ≠ s.pq m := fun e => by
      have := hK.2.2
      rw [e, hM.2.2] at this
      omega
    rw [Function.update_noteq this]
    exact hK.2.2
  · intro i hi1 hi2
    rw [hmax] at hi2
    rw [hqp]
    by_cases hi : i = s.pq m
    · left; rw [hi, Function.update_same]
    · rw [Function.update_noteq hi]
      rcases h.2 i hi1 hi2 with e | ⟨q1, q2, q3⟩
      · exact Or.inl e
      · right
        have : s.qp i ≠ m := fun e => hi (by rw [← q3, e])
        exact ⟨q1, by omega, by rw [hpq _ (by omega)]; exact q3⟩

theorem Bk.slot_eq_iff (s : MinPQ T) (m i k : Int) (h : s.Bk m) (hi1 : 0 ≤ i)
    (hi2 : i < s.maxN) (hq : s.qp i ≠ -1) (hk1 : 1 ≤ k) (hk2 : k ≤ m) :
    s.pq k = i ↔ k = s.qp i := by
  constructor
  · intro e; rw [← e, (h.1 k hk1 hk2).2.2]
  · intro e
    rcases h.2 i hi1 hi2 with e2 | ⟨_, _, q3⟩
    · exact absurd e2 hq
    · rw [e, q3]

theorem Bk.slot_of_contained (s : MinPQ T) (m i : Int) (h : s.Bk m) (hi1 : 0 ≤ i)
    (hi2 : i < s.maxN) (hq : s.qp i ≠ -1) : 1 ≤ s.qp i ∧ s.qp i ≤ m ∧ s.pq (s.qp i) = i := by
  rcases h.2 i hi1 hi2 with e2 | h3
  · exact absurd e2 hq
  · exact h3

theorem validateIndex_ok (s : MinPQ T) (i : Int) (h1 : 0 ≤ i) (h2 : i < s.maxN) :
    s.validateIndex i = .ok () := by
  simp [validateIndex, not_lt.2 h1, h2]

theorem contains_ok (s : MinPQ T) (i : Int) (h1 : 0 ≤ i) (h2 : i < s.maxN) :
    s.contains i = .ok (s.qp i != -1) := by
  simp [contains, validateIndex_ok s i h1 h2]

theorem contains_true_iff (s : MinPQ T) (i : Int) :
    s.contains i = .ok true ↔ s.Contained i := by
  unfold contains validateIndex Contained
  split_ifs with h1 h2
  · simp; intro h; omega
  · simp; intro _ h; omega
  · simp; omega

theorem contains_false_iff (s : MinPQ T) (i : Int) :
    s.contains i = .ok false ↔ 0 ≤ i ∧ i < s.maxN ∧ s.qp i = -1 := by
  unfold contains validateIndex
  split_ifs with h1 h2
  · simp; intro h; omega
  · simp; intro _ h; omega
  · simp; omega

theorem keyOf_of_contained (s : MinPQ T) (i : Int) (h : s.Contained i) :
    s.keyOf i = .ok (s.keys i) := by
  have hc := (contains_true_iff s i).2 h
  simp [keyOf, validateIndex_ok s i h.1 h.2.1, hc]

/-- Overwriting the key of a contained index changes the key of its slot only. -/
theorem slotKey_update (s : MinPQ T) (i k : Int) (key : T) (h : s.Bk s.n) (hi1 : 0 ≤ i)
    (hi2 : i < s.maxN) (hq : s.qp i ≠ -1) (hk1 : 1 ≤ k) (hk2 : k ≤ s.n) :
    ({ s with keys := Function.update s.keys i key } : MinPQ T).slotKey k =
      if k = s.qp i then key else s.slotKey k := by
  unfold slotKey
  have := Bk.slot_eq_iff s s.n i k h hi1 hi2 hq hk1 hk2
  simp only [Function.update_apply, this]

/-! ### The public operations on a queue that satisfies the class invariant -/

section Ops

variable [LinearOrder T]

theorem insert_spec (s : MinPQ T) (i : Int) (key : T) (h : s.Inv) (hi1 : 0 ≤ i)
    (hi2 : i < s.maxN) (hq : s.qp i = -1) :
    (s.insert i key).1 = .ok () ∧ (s.insert i key).2.Inv ∧
    (s.insert i key).2.maxN = s.maxN ∧ (s.insert i key).2.n = s.n + 1 ∧
    (s.insert i key).2.keys = Function.update s.keys i key ∧
    ∀ j, (s.insert i key).2.qp j = -1 ↔ (j ≠ i ∧ s.qp j = -1) := by
  have hcf : s.contains i = .ok false := (contains_false_iff s i).2 ⟨hi1, hi2, hq⟩
  obtain ⟨hn0, hn1, hbk, hheap⟩ := h
  have hlt : s.n < s.maxN := Bk.lt_of_absent s s.n i hbk hi1 hi2 hq
  generalize hs4 : (⟨s.maxN, s.n + 1, Function.update s.pq (s.n + 1) i,
    Function.update s.qp i (s.n + 1), Function.update s.keys i key⟩ : MinPQ T) = s4
  have hins : s.insert i key = (.ok (), s4.swim (s.n + 1)) := by
    rw [← hs4]
    simp only [insert, validateIndex_ok s i hi1 hi2, hcf]
  have hpqne : ∀ k, 1 ≤ k → k ≤ s.n → s.pq k ≠ i := by
    intro k hk1 hk2 e
    have := (hbk.1 k hk1 hk2).2.2
    rw [e, hq] at this
    omega
  have e_n : s4.n = s.n + 1 := by rw [← hs4]
  have e_max : s4.maxN = s.maxN := by rw [← hs4]
  have e_pq : s4.pq = Function.update s.pq (s.n + 1) i := by rw [← hs4]
  have e_qp : s4.qp = Function.update s.qp i (s.n + 1) := by rw [← hs4]
  have e_keys : s4.keys = Function.update s.keys i key := by rw [← hs4]
  have hbk4 : s4.Bk (s.n + 1) := by
    constructor
    · intro k hk1 hk2
      rw [e_pq, e_qp, e_max]
      by_cases hk : k = s.n + 1
      · rw [hk, Function.update_same, Function.update_same]
        exact ⟨hi1, hi2, rfl⟩
      · have hK := hbk.1 k hk1 (by omega)
        rw [Function.update_noteq hk, Function.update_noteq (hpqne k hk1 (by omega))]
        exact hK
    · intro j hj1 hj2
      rw [e_pq, e_qp]
      rw [e_max] at hj2
      by_cases hj : j = i
      · right
        rw [hj, Function.update_same, Function.update_same]
        exact ⟨by omega, le_rfl, rfl⟩
      · rw [Function.update_noteq hj]
        rcases hbk.2 j hj1 hj2 with e | ⟨q1, q2, q3⟩
        · exact Or.inl e
        · right
          refine ⟨q1, by omega, ?_⟩
          rw [Function.update_noteq (by omega)]
          exact q3
  have hsk : ∀ k, 1 ≤ k → k ≤ s.n → s4.slotKey k = s.slotKey k := by
    intro k hk1 hk2
    unfold slotKey
    have e : Function.update s.pq (s.n + 1) i k = s.pq k :=
      Function.update_noteq (by omega) _ _
    rw [e_pq, e_keys, e, Function.update_noteq (hpqne k hk1 hk2)]
  have hup : s4.HeapUp (s.n + 1) := by
    refine ⟨⟨?_, ?_⟩, ?_⟩
    · intro j hj1 hj2 hj3 hj4
      rw [e_n] at hj2
      rw [hsk j (by omega) (by omega), hsk (j / 2) (by omega) (by omega)]
      exact hheap j hj1 (by omega)
    · intro j hj1 hj2 hj3 _
      rw [e_n] at hj2; omega
    · intro j hj1 hj2 hj3
      rw [e_n] at hj2; omega
  have hfr : Frame s4 (s.n + 1) (s4.swim (s.n + 1)) :=
    swim_frame s4 s4 (s.n + 1) (s.n + 1) (Frame.refl s4 _ hbk4 (by omega)) (by omega)
      (by omega)
  have hh : (s4.swim (s.n + 1)).HeapOrdered := swim_heap s4 (s.n + 1) (by omega) hup
  rw [hins]
  refine ⟨rfl, ⟨?_, ?_, ?_, hh⟩, ?_, ?_, ?_, ?_⟩
  · show 0 ≤ (s4.swim (s.n + 1)).n
    rw [hfr.n_eq, e_n]; omega
  · show (s4.swim (s.n + 1)).n ≤ (s4.swim (s.n + 1)).maxN
    rw [hfr.n_eq, hfr.maxN_eq, e_n, e_max]; omega
  · show (s4.swim (s.n + 1)).Bk (s4.swim (s.n + 1)).n
    rw [hfr.n_eq, e_n]; exact hfr.bk
  · show (s4.swim (s.n + 1)).maxN = s.maxN
    rw [hfr.maxN_eq, e_max]
  · show (s4.swim (s.n + 1)).n = s.n + 1
    rw [hfr.n_eq, e_n]
  · show (s4.swim (s.n + 1)).keys = _
    rw [hfr.keys_eq, e_keys]
  · intro j
    show (s4.swim (s.n + 1)).qp j = -1 ↔ _
    rw [hfr.absent j, e_qp]
    by_cases hj : j = i
    · rw [hj, Function.update_same]
      constructor
      · intro e; omega
      · intro e; exact absurd rfl e.1
    · rw [Function.update_noteq hj]
      exact ⟨fun e => ⟨hj, e⟩, fun e => e.2⟩

theorem delMin_spec (s : MinPQ T) (h : s.Inv) (hn : s.n ≠ 0) :
    s.delMin.1 = .ok (s.pq 1) ∧ s.delMin.2.Inv ∧ s.delMin.2.maxN = s.maxN ∧
    s.delMin.2.n = s.n - 1 ∧ s.delMin.2.keys = s.keys ∧
    (∀ j, s.delMin.2.qp j = -1 ↔ (j = s.pq 1 ∨ s.qp j = -1)) ∧
    s.Contained (s.pq 1) ∧ ∀ j, s.Contained j → s.keys (s.pq 1) ≤ s.keys j := by
  obtain ⟨hn0, hn1, hbk, hheap⟩ := h
  have hn2 : 1 ≤ s.n := by omega
  have hroot := hbk.1 1 le_rfl hn2
  -- the state after `exch(1, n--)`
  generalize hs2 : ({ s with n := s.n - 1 } : MinPQ T).exch 1 s.n = s2
  have e_n : s2.n = s.n - 1 := by rw [← hs2]; rfl
  have e_max : s2.maxN = s.maxN := by rw [← hs2]; rfl
  have e_keys : s2.keys = s.keys := by rw [← hs2]; rfl
  have hfr0 : Frame s s.n (s.exch 1 s.n) :=
    Frame.exch s s s.n 1 s.n (Frame.refl s _ hbk le_rfl) le_rfl hn2 hn2 le_rfl
  have e_pq : s2.pq = (s.exch 1 s.n).pq := by rw [← hs2]; rfl
  have e_qp : s2.qp = (s.exch 1 s.n).qp := by rw [← hs2]; rfl
  have hbk2 : s2.Bk s.n := by
    have := hfr0.bk
    unfold Bk at this ⊢
    rw [e_pq, e_qp, e_max]
    exact this
  have hlast : s2.pq s.n = s.pq 1 := by rw [e_pq, exch_pq, if_pos rfl]
  have hsk : ∀ k, 2 ≤ k → k ≤ s.n - 1 → s2.slotKey k = s.slotKey k := by
    intro k hk1 hk2
    unfold slotKey
    rw [e_pq, e_keys, exch_pq, if_neg (by omega), if_neg (by omega)]
  have hdown : s2.HeapDown 1 := by
    refine ⟨⟨?_, ?_⟩, ?_⟩
    · intro j hj1 hj2 _ hj4
      rw [e_n] at hj2
      rw [hsk j hj1 hj2, hsk (j / 2) (by omega) (by omega)]
      exact hheap j hj1 (by omega)
    · intro j _ _ _ h2; omega
    · intro h2; omega
  have hfr : Frame s2 s.n (s2.sink 1) :=
    sink_frame s2 s2 s.n 1 (Frame.refl s2 _ hbk2 (by omega)) le_rfl
  have hh : (s2.sink 1).HeapOrdered := sink_heap s2 1 le_rfl hdown
  have hassert : (s2.sink 1).pq ((s2.sink 1).n + 1) = s.pq 1 := by
    rw [hfr.n_eq, e_n, hfr.above _ (by omega)]
    have : s.n - 1 + 1 = s.n := by omega
    rw [this, hlast]
  generalize hs5 : ({ s2.sink 1 with
        qp := Function.update (s2.sink 1).qp (s.pq 1) (-1)
        pq := Function.update (s2.sink 1).pq ((s2.sink 1).n + 1) (-1) } : MinPQ T) = s5
  have hdel : s.delMin = (.ok (s.pq 1), s5) := by
    unfold delMin
    simp only [if_neg hn, hs2, hassert, ne_eq, not_true_eq_false, if_false, hs5]
  have e5_n : s5.n = s.n - 1 := by rw [← hs5]; show (s2.sink 1).n = _; rw [hfr.n_eq, e_n]
  have e5_max : s5.maxN = s.maxN := by
    rw [← hs5]; show (s2.sink 1).maxN = _; rw [hfr.maxN_eq, e_max]
  have e5_keys : s5.keys = s.keys := by
    rw [← hs5]; show (s2.sink 1).keys = _; rw [hfr.keys_eq, e_keys]
  have e3_n : (s2.sink 1).n + 1 = s.n := by rw [hfr.n_eq, e_n]; omega
  have e5_pq : s5.pq = Function.update (s2.sink 1).pq s.n (-1) := by
    rw [← hs5, ← e3_n]
  have e5_qp : s5.qp = Function.update (s2.sink 1).qp (s.pq 1) (-1) := by
    rw [← hs5]
  have hlast3 : (s2.sink 1).pq s.n = s.pq 1 := by rw [← e3_n]; exact hassert
  have hbk5 : s5.Bk (s.n - 1) :=
    Bk.drop (s2.sink 1) s5 s.n hfr.bk hn2 (by rw [e5_max, hfr.maxN_eq, e_max])
      (by rw [e5_qp, hlast3])
      (by intro k hk; rw [e5_pq, Function.update_noteq (by omega)])
  have hsk5 : ∀ c, c < s.n → s5.slotKey c = (s2.sink 1).slotKey c := by
    intro c hc
    unfold slotKey
    rw [e5_pq, e5_keys, hfr.keys_eq, e_keys, Function.update_noteq (by omega)]
  rw [hdel]
  refine ⟨rfl, ⟨?_, ?_, ?_, ?_⟩, e5_max, e5_n, e5_keys, ?_, ?_, ?_⟩
  · show 0 ≤ s5.n
    omega
  · show s5.n ≤ s5.maxN
    omega
  · show Bk s5 s5.n
    rw [e5_n]; exact hbk5
  · intro k hk1 hk2
    rw [e5_n] at hk2
    rw [hsk5 k (by omega), hsk5 (k / 2) (by omega)]
    exact hh k hk1 (by omega)
  · intro j
    show s5.qp j = -1 ↔ _
    rw [e5_qp]
    by_cases hj : j = s.pq 1
    · rw [hj, Function.update_same]; simp
    · rw [Function.update_noteq hj, hfr.absent j, e_qp, hfr0.absent j]
      simp [hj]
  · exact ⟨hroot.1, hroot.2.1, by rw [hroot.2.2]; omega⟩
  · intro j hj
    obtain ⟨q1, q2, q3⟩ := Bk.slot_of_contained s s.n j hbk hj.1 hj.2.1 hj.2.2
    have := HeapOrdered.root_le s hheap (s.qp j) q1 q2
    unfold slotKey at this
    rw [q3] at this
    exact this

/-- `swim(k)` followed by `sink(k')` restores heap order when only slot `k` is out of
order, `k'` being `k` in case `swim` left the queue as it was. -/
theorem swim_sink_heap (s : MinPQ T) (k k' : Int) (hk : 1 ≤ k) (hk' : 1 ≤ k')
    (he : s.HeapExcept k)
    (hp : 1 < k → s.slotKey k < s.slotKey (k / 2) →
      ∀ j, 2 ≤ j → j ≤ s.n → j / 2 = k → s.slotKey k ≤ s.slotKey j)
    (hsame : s.swim k = s → k' = k) : ((s.swim k).sink k').HeapOrdered := by
  by_cases hc : k > 1 ∧ s.greater (k / 2) k = true
  · have hup : s.HeapUp k := ⟨he, hp hc.1 ((greater_iff _ _ _).1 hc.2)⟩
    exact sink_heap _ _ hk' (HeapOrdered.heapDown _ _ (swim_heap s k hk hup))
  · have hsw : s.swim k = s := by rw [swim_eq, if_neg hc]
    rw [hsw, hsame hsw]
    refine sink_heap s k hk ⟨he, fun h2 _ => ?_⟩
    have : ¬ s.greater (k / 2) k = true := fun e => hc ⟨by omega, e⟩
    rw [Bool.not_eq_true, greater_false_iff] at this
    exact this

/-- The state right after `keys[i] = key` on a contained index `i`. -/
theorem setKey_facts (s : MinPQ T) (i : Int) (key : T) (h : s.Inv) (hc : s.Contained i) :
    1 ≤ s.qp i ∧ s.qp i ≤ s.n ∧
    ({ s with keys := Function.update s.keys i key } : MinPQ T).Bk s.n ∧
    ({ s with keys := Function.update s.keys i key } : MinPQ T).HeapExcept (s.qp i) ∧
    ({ s with keys := Function.update s.keys i key } : MinPQ T).slotKey (s.qp i) = key ∧
    (∀ j, 1 ≤ j → j ≤ s.n → j ≠ s.qp i →
      ({ s with keys := Function.update s.keys i key } : MinPQ T).slotKey j = s.slotKey j) := by
  obtain ⟨hn0, hn1, hbk, hheap⟩ := h
  obtain ⟨q1, q2, q3⟩ := Bk.slot_of_contained s s.n i hbk hc.1 hc.2.1 hc.2.2
  have hsk := fun k => slotKey_update s i k key hbk hc.1 hc.2.1 hc.2.2
  have hne : ∀ j, 1 ≤ j → j ≤ s.n → j ≠ s.qp i →
      ({ s with keys := Function.update s.keys i key } : MinPQ T).slotKey j = s.slotKey j := by
    intro j hj1 hj2 hj3
    rw [hsk j hj1 hj2, if_neg hj3]
  refine ⟨q1, q2, hbk, ⟨?_, ?_⟩, ?_, hne⟩
  · intro j hj1 hj2 hj3 hj4
    have hj2' : j ≤ s.n := hj2
    rw [hne j (by omega) hj2' hj3, hne (j / 2) (by omega) (by omega) hj4]
    exact hheap j hj1 hj2'
  · intro j hj1 hj2 hj3 hj4
    have hj2' : j ≤ s.n := hj2
    rw [hne j (by omega) hj2' (by omega), hne (s.qp i / 2) (by omega) (by omega) (by omega)]
    have := hheap j hj1 hj2'
    rw [hj3] at this
    exact le_trans (hheap (s.qp i) hj4 q2) this
  · rw [hsk _ q1 q2, if_pos rfl]

theorem decreaseKey_spec (s : MinPQ T) (i : Int) (key : T) (h : s.Inv) (hc : s.Contained i)
    (hlt : key < s.keys i) :
    (s.decreaseKey i key).1 = .ok () ∧ (s.decreaseKey i key).2.Inv ∧
    (s.decreaseKey i key).2.maxN = s.maxN ∧ (s.decreaseKey i key).2.n = s.n ∧
    (s.decreaseKey i key).2.keys = Function.update s.keys i key ∧
    ∀ j, (s.decreaseKey i key).2.qp j = -1 ↔ s.qp j = -1 := by
  obtain ⟨q1, q2, hbk1, hex, hki, hko⟩ := setKey_facts s i key h hc
  obtain ⟨hn0, hn1, hbk, hheap⟩ := h
  generalize hs1 : ({ s with keys := Function.update s.keys i key } : MinPQ T) = s1
    at hbk1 hex hki hko
  have e_n : s1.n = s.n := by rw [← hs1]
  have e_max : s1.maxN = s.maxN := by rw [← hs1]
  have e_keys : s1.keys = Function.update s.keys i key := by rw [← hs1]
  have e_qp : s1.qp = s.qp := by rw [← hs1]
  have hdec : s.decreaseKey i key = (.ok (), s1.swim (s.qp i)) := by
    unfold decreaseKey
    simp only [validateIndex_ok s i hc.1 hc.2.1, (contains_true_iff s i).2 hc,
      if_neg (ne_of_gt hlt), if_neg (not_lt.2 (le_of_lt hlt)), hs1, e_qp]
  have hfr : Frame s1 s.n (s1.swim (s.qp i)) :=
    swim_frame s1 s1 s.n (s.qp i) (Frame.refl s1 _ hbk1 (by omega)) q1 (by omega)
  have hup : s1.HeapUp (s.qp i) := by
    refine ⟨hex, fun j hj1 hj2 hj3 => ?_⟩
    rw [e_n] at hj2
    rw [hki, hko j (by omega) hj2 (by omega)]
    have h1 := hheap j hj1 hj2
    rw [hj3] at h1
    have h2 : s.slotKey (s.qp i) = s.keys i := by
      unfold slotKey
      rw [(Bk.slot_of_contained s s.n i hbk hc.1 hc.2.1 hc.2.2).2.2]
    rw [h2] at h1
    exact le_trans (le_of_lt hlt) h1
  have hh := swim_heap s1 (s.qp i) q1 hup
  rw [hdec]
  refine ⟨rfl, ⟨?_, ?_, ?_, hh⟩, ?_, ?_, ?_, ?_⟩
  · show 0 ≤ (s1.swim (s.qp i)).n
    rw [hfr.n_eq, e_n]; exact hn0
  · show (s1.swim (s.qp i)).n ≤ (s1.swim (s.qp i)).maxN
    rw [hfr.n_eq, hfr.maxN_eq, e_n, e_max]; exact hn1
  · show Bk _ (s1.swim (s.qp i)).n
    rw [hfr.n_eq, e_n]; exact hfr.bk
  · show (s1.swim (s.qp i)).maxN = _
    rw [hfr.maxN_eq, e_max]
  · show (s1.swim (s.qp i)).n = _
    rw [hfr.n_eq, e_n]
  · show (s1.swim (s.qp i)).keys = _
    rw [hfr.keys_eq, e_keys]
  · intro j
    show (s1.swim (s.qp i)).qp j = -1 ↔ _
    rw [hfr.absent j, e_qp]

theorem increaseKey_spec (s : MinPQ T) (i : Int) (key : T) (h : s.Inv) (hc : s.Contained i)
    (hlt : s.keys i < key) :
    (s.increaseKey i key).1 = .ok () ∧ (s.increaseKey i key).2.Inv ∧
    (s.increaseKey i key).2.maxN = s.maxN ∧ (s.increaseKey i key).2.n = s.n ∧
    (s.increaseKey i key).2.keys = Function.update s.keys i key ∧
    ∀ j, (s.increaseKey i key).2.qp j = -1 ↔ s.qp j = -1 := by
  obtain ⟨q1, q2, hbk1, hex, hki, hko⟩ := setKey_facts s i key h hc
  obtain ⟨hn0, hn1, hbk, hheap⟩ := h
  generalize hs1 : ({ s with keys := Function.update s.keys i key } : MinPQ T) = s1
    at hbk1 hex hki hko
  have e_n : s1.n = s.n := by rw [← hs1]
  have e_max : s1.maxN = s.maxN := by rw [← hs1]
  have e_keys : s1.keys = Function.update s.keys i key := by rw [← hs1]
  have e_qp : s1.qp = s.qp := by rw [← hs1]
  have hdec : s.increaseKey i key = (.ok (), s1.sink (s.qp i)) := by
    unfold increaseKey
    simp only [validateIndex_ok s i hc.1 hc.2.1, (contains_true_iff s i).2 hc,
      if_neg (ne_of_lt hlt), if_neg (not_lt.2 (le_of_lt hlt)), hs1, e_qp, gt_iff_lt]
  have hfr : Frame s1 s.n (s1.sink (s.qp i)) :=
    sink_frame s1 s1 s.n (s.qp i) (Frame.refl s1 _ hbk1 (by omega)) q1
  have hdown : s1.HeapDown (s.qp i) := by
    refine ⟨hex, fun hj1 _ => ?_⟩
    rw [hki, hko (s.qp i / 2) (by omega) (by omega) (by omega)]
    have h1 := hheap (s.qp i) hj1 q2
    have h2 : s.slotKey (s.qp i) = s.keys i := by
      unfold slotKey
      rw [(Bk.slot_of_contained s s.n i hbk hc.1 hc.2.1 hc.2.2).2.2]
    rw [h2] at h1
    exact le_trans h1 (le_of_lt hlt)
  have hh := sink_heap s1 (s.qp i) q1 hdown
  rw [hdec]
  refine ⟨rfl, ⟨?_, ?_, ?_, hh⟩, ?_, ?_, ?_, ?_⟩
  · show 0 ≤ (s1.sink (s.qp i)).n
    rw [hfr.n_eq, e_n]; exact hn0
  · show (s1.sink (s.qp i)).n ≤ (s1.sink (s.qp i)).maxN
    rw [hfr.n_eq, hfr.maxN_eq, e_n, e_max]; exact hn1
  · show Bk _ (s1.sink (s.qp i)).n
    rw [hfr.n_eq, e_n]; exact hfr.bk
  · show (s1.sink (s.qp i)).maxN = _
    rw [hfr.maxN_eq, e_max]
  · show (s1.sink (s.qp i)).n = _
    rw [hfr.n_eq, e_n]
  · show (s1.sink (s.qp i)).keys = _
    rw [hfr.keys_eq, e_keys]
  · intro j
    show (s1.sink (s.qp i)).qp j = -1 ↔ _
    rw [hfr.absent j, e_qp]

theorem changeKey_spec (s : MinPQ T) (i : Int) (key : T) (h : s.Inv) (hc : s.Contained i) :
    (s.changeKey i key).1 = .ok () ∧ (s.changeKey i key).2.Inv ∧
    (s.changeKey i key).2.maxN = s.maxN ∧ (s.changeKey i key).2.n = s.n ∧
    (s.changeKey i key).2.keys = Function.update s.keys i key ∧
    ∀ j, (s.changeKey i key).2.qp j = -1 ↔ s.qp j = -1 := by
  obtain ⟨q1, q2, hbk1, hex, hki, hko⟩ := setKey_facts s i key h hc
  obtain ⟨hn0, hn1, hbk, hheap⟩ := h
  generalize hs1 : ({ s with keys := Function.update s.keys i key } : MinPQ T) = s1
    at hbk1 hex hki hko
  have e_n : s1.n = s.n := by rw [← hs1]
  have e_max : s1.maxN = s.maxN := by rw [← hs1]
  have e_keys : s1.keys = Function.update s.keys i key := by rw [← hs1]
  have e_qp : s1.qp = s.qp := by rw [← hs1]
  have hdec : s.changeKey i key =
      (.ok (), (s1.swim (s.qp i)).sink ((s1.swim (s.qp i)).qp i)) := by
    unfold changeKey
    simp only [validateIndex_ok s i hc.1 hc.2.1, (contains_true_iff s i).2 hc, hs1, e_qp]
  have hfr1 : Frame s1 s.n (s1.swim (s.qp i)) :=
    swim_frame s1 s1 s.n (s.qp i) (Frame.refl s1 _ hbk1 (by omega)) q1 (by omega)
  have hq2 : (s1.swim (s.qp i)).qp i ≠ -1 := by
    rw [Ne, hfr1.absent i, e_qp]; exact hc.2.2
  have hslot := Bk.slot_of_contained _ s.n i hfr1.bk hc.1
    (by rw [hfr1.maxN_eq, e_max]; exact hc.2.1) hq2
  have hfr : Frame s1 s.n ((s1.swim (s.qp i)).sink ((s1.swim (s.qp i)).qp i)) :=
    sink_frame s1 _ s.n _ hfr1 hslot.1
  have hparent : s.slotKey (s.qp i) = s.keys i := by
    unfold slotKey
    rw [(Bk.slot_of_contained s s.n i hbk hc.1 hc.2.1 hc.2.2).2.2]
  have hh : ((s1.swim (s.qp i)).sink ((s1.swim (s.qp i)).qp i)).HeapOrdered := by
    refine swim_sink_heap s1 (s.qp i) _ q1 hslot.1 hex ?_ ?_
    · intro hk1 hlt j hj1 hj2 hj3
      rw [e_n] at hj2
      rw [hki] at hlt ⊢
      rw [hko (s.qp i / 2) (by omega) (by omega) (by omega)] at hlt
      rw [hko j (by omega) hj2 (by omega)]
      have h1 := hheap j hj1 hj2
      rw [hj3] at h1
      exact le_trans (le_of_lt hlt) (le_trans (hheap (s.qp i) (by omega) q2) h1)
    · intro e; rw [e, e_qp]
  rw [hdec]
  refine ⟨rfl, ⟨?_, ?_, ?_, hh⟩, ?_, ?_, ?_, ?_⟩
  · show 0 ≤ MinPQ.n _
    rw [hfr.n_eq, e_n]; exact hn0
  · show MinPQ.n _ ≤ MinPQ.maxN _
    rw [hfr.n_eq, hfr.maxN_eq, e_n, e_max]; exact hn1
  · show Bk _ (MinPQ.n _)
    rw [hfr.n_eq, e_n]; exact hfr.bk
  · show MinPQ.maxN _ = _
    rw [hfr.maxN_eq, e_max]
  · show MinPQ.n _ = _
    rw [hfr.n_eq, e_n]
  · show MinPQ.keys _ = _
    rw [hfr.keys_eq, e_keys]
  · intro j
    show MinPQ.qp _ j = -1 ↔ _
    rw [hfr.absent j, e_qp]

theorem remove_spec (s : MinPQ T) (i : Int) (h : s.Inv) (hc : s.Contained i) :
    (s.remove i).1 = .ok () ∧ (s.remove i).2.Inv ∧
    (s.remove i).2.maxN = s.maxN ∧ (s.remove i).2.n = s.n - 1 ∧
    (s.remove i).2.keys = s.keys ∧
    ∀ j, (s.remove i).2.qp j = -1 ↔ (j = i ∨ s.qp j = -1) := by
  obtain ⟨hn0, hn1, hbk, hheap⟩ := h
  obtain ⟨q1, q2, q3⟩ := Bk.slot_of_contained s s.n i hbk hc.1 hc.2.1 hc.2.2
  -- the state after `exch(index, n--)`
  generalize hs2 : ({ s with n := s.n - 1 } : MinPQ T).exch (s.qp i) s.n = s2
  have e_n : s2.n = s.n - 1 := by rw [← hs2]; rfl
  have e_max : s2.maxN = s.maxN := by rw [← hs2]; rfl
  have e_keys : s2.keys = s.keys := by rw [← hs2]; rfl
  have hfr0 : Frame s s.n (s.exch (s.qp i) s.n) :=
    Frame.exch s s s.n (s.qp i) s.n (Frame.refl s _ hbk le_rfl) q1 q2 (by omega) le_rfl
  have e_pq : s2.pq = (s.exch (s.qp i) s.n).pq := by rw [← hs2]; rfl
  have e_qp : s2.qp = (s.exch (s.qp i) s.n).qp := by rw [← hs2]; rfl
  have hbk2 : s2.Bk s.n := by
    have := hfr0.bk
    unfold Bk at this ⊢
    rw [e_pq, e_qp, e_max]
    exact this
  have hlast : s2.pq s.n = i := by rw [e_pq, exch_pq, if_pos rfl, q3]
  have hsk : ∀ k, 1 ≤ k → k ≤ s.n - 1 → k ≠ s.qp i → s2.slotKey k = s.slotKey k := by
    intro k hk1 hk2 hk3
    unfold slotKey
    rw [e_pq, e_keys, exch_pq, if_neg (by omega), if_neg hk3]
  have hski : s.qp i ≤ s.n - 1 → s2.slotKey (s.qp i) = s.slotKey s.n := by
    intro hk
    unfold slotKey
    rw [e_pq, e_keys, exch_pq, if_neg (by omega), if_pos rfl]
  generalize hs4 : (s2.swim (s.qp i)).sink (s.qp i) = s4
  have hmain : Frame s2 s.n s4 ∧ s4.HeapOrdered := by
    by_cases hidx : s.qp i = s.n
    · -- the removed index is in the last slot: nothing moves
      have hsw : s2.swim (s.qp i) = s2 := by
        rw [swim_eq, if_neg]
        rintro ⟨hk1, hg⟩
        rw [greater_iff] at hg
        have e1 : s2.slotKey (s.qp i) = s.slotKey (s.qp i) := by
          unfold slotKey
          rw [e_pq, e_keys, exch_pq, if_pos hidx, hidx]
        rw [e1, hsk _ (by omega) (by omega) (by omega)] at hg
        exact absurd (hheap (s.qp i) (by omega) q2) (not_le.2 hg)
      have hsi : s2.sink (s.qp i) = s2 := sinkLoop_stop _ _ _ (by omega)
      rw [hsw, hsi] at hs4
      rw [← hs4]
      refine ⟨Frame.refl s2 _ hbk2 (by omega), ?_⟩
      intro k hk1 hk2
      rw [e_n] at hk2
      rw [hsk k (by omega) hk2 (by omega), hsk (k / 2) (by omega) (by omega) (by omega)]
      exact hheap k hk1 (by omega)
    · have hidx2 : s.qp i ≤ s.n - 1 := by omega
      have hfr1 : Frame s2 s.n (s2.swim (s.qp i)) :=
        swim_frame s2 s2 s.n (s.qp i) (Frame.refl s2 _ hbk2 (by omega)) q1 (by omega)
      rw [← hs4]
      refine ⟨sink_frame s2 _ s.n _ hfr1 q1, ?_⟩
      refine swim_sink_heap s2 (s.qp i) _ q1 q1 ⟨?_, ?_⟩ ?_ (fun _ => rfl)
      · intro j hj1 hj2 hj3 hj4
        rw [e_n] at hj2
        rw [hsk j (by omega) hj2 hj3, hsk (j / 2) (by omega) (by omega) hj4]
        exact hheap j hj1 (by omega)
      · intro j hj1 hj2 hj3 hj4
        rw [e_n] at hj2
        rw [hsk j (by omega) hj2 (by omega),
          hsk (s.qp i / 2) (by omega) (by omega) (by omega)]
        have h1 := hheap j hj1 (by omega)
        rw [hj3] at h1
        exact le_trans (hheap (s.qp i) hj4 q2) h1
      · intro hk1 hlt j hj1 hj2 hj3
        rw [e_n] at hj2
        rw [hski hidx2] at hlt ⊢
        rw [hsk (s.qp i / 2) (by omega) (by omega) (by omega)] at hlt
        rw [hsk j (by omega) hj2 (by omega)]
        have h1 := hheap j hj1 (by omega)
        rw [hj3] at h1
        exact le_trans (le_of_lt hlt) (le_trans (hheap (s.qp i) (by omega) q2) h1)
  obtain ⟨hfr, hh⟩ := hmain
  generalize hs5 : ({ s4 with qp := Function.update s4.qp i (-1) } : MinPQ T) = s5
  have hrem : s.remove i = (.ok (), s5) := by
    unfold remove
    simp only [validateIndex_ok s i hc.1 hc.2.1, (contains_true_iff s i).2 hc, hs2, hs4, hs5]
  have e5_n : s5.n = s.n - 1 := by rw [← hs5]; show s4.n = _; rw [hfr.n_eq, e_n]
  have e5_max : s5.maxN = s.maxN := by rw [← hs5]; show s4.maxN = _; rw [hfr.maxN_eq, e_max]
  have e5_keys : s5.keys = s.keys := by rw [← hs5]; show s4.keys = _; rw [hfr.keys_eq, e_keys]
  have e5_pq : s5.pq = s4.pq := by rw [← hs5]
  have e5_qp : s5.qp = Function.update s4.qp i (-1) := by rw [← hs5]
  have hlast4 : s4.pq s.n = i := by rw [hfr.above _ (by omega), hlast]
  have hbk5 : s5.Bk (s.n - 1) :=
    Bk.drop s4 s5 s.n hfr.bk (by omega) (by rw [e5_max, hfr.maxN_eq, e_max])
      (by rw [e5_qp, hlast4]) (by intro k _; rw [e5_pq])
  rw [hrem]
  refine ⟨rfl, ⟨?_, ?_, ?_, ?_⟩, e5_max, e5_n, e5_keys, ?_⟩
  · show 0 ≤ s5.n
    omega
  · show s5.n ≤ s5.maxN
    omega
  · show Bk s5 s5.n
    rw [e5_n]; exact hbk5
  · intro k hk1 hk2
    have e : ∀ c, s5.slotKey c = s4.slotKey c := by
      intro c; unfold slotKey; rw [e5_pq, e5_keys, hfr.keys_eq, e_keys]
    rw [e5_n] at hk2
    rw [e, e]
    exact hh k hk1 (by rw [hfr.n_eq, e_n]; exact hk2)
  · intro j
    show s5.qp j = -1 ↔ _
    rw [e5_qp]
    by_cases hj : j = i
    · rw [hj, Function.update_same]; simp
    · rw [Function.update_noteq hj, hfr.absent j, e_qp, hfr0.absent j]
      simp [hj]

/-! ### Calls that throw leave the queue as it was -/

omit [LinearOrder T] in
theorem validateIndex_neg (s : MinPQ T) (i : Int) (h : i < 0) :
    s.validateIndex i = .error .indexNegative := by
  simp [validateIndex, h]

omit [LinearOrder T] in
theorem validateIndex_large (s : MinPQ T) (i : Int) (h1 : 0 ≤ i) (h2 : s.maxN ≤ i) :
    s.validateIndex i = .error .indexTooLarge := by
  simp [validateIndex, not_lt.2 h1, h2]

theorem insert_invalid (s : MinPQ T) (i : Int) (key : T) (h : ¬ (0 ≤ i ∧ i < s.maxN)) :
    ∃ e, s.insert i key = (.error e, s) := by
  by_cases h1 : i < 0
  · exact ⟨.indexNegative, by simp only [insert, validateIndex_neg s i h1]⟩
  · exact ⟨.indexTooLarge, by simp only [insert, validateIndex_large s i (by omega) (by omega)]⟩

theorem insert_duplicate (s : MinPQ T) (i : Int) (key : T) (h : s.Contained i) :
    s.insert i key = (.error .duplicateIndex, s) := by
  simp only [insert, validateIndex_ok s i h.1 h.2.1, (contains_true_iff s i).2 h]

theorem remove_invalid (s : MinPQ T) (i : Int) (h : ¬ (0 ≤ i ∧ i < s.maxN)) :
    ∃ e, s.remove i = (.error e, s) := by
  by_cases h1 : i < 0
  · exact ⟨.indexNegative, by simp only [remove, validateIndex_neg s i h1]⟩
  · exact ⟨.indexTooLarge, by simp only [remove, validateIndex_large s i (by omega) (by omega)]⟩

theorem remove_absent (s : MinPQ T) (i : Int) (h : s.contains i = .ok false) :
    s.remove i = (.error .notPresent, s) := by
  have h' := (contains_false_iff s i).1 h
  simp only [remove, validateIndex_ok s i h'.1 h'.2.1, h]

theorem changeKey_invalid (s : MinPQ T) (i : Int) (key : T) (h : ¬ (0 ≤ i ∧ i < s.maxN)) :
    ∃ e, s.changeKey i key = (.error e, s) := by
  by_cases h1 : i < 0
  · exact ⟨.indexNegative, by simp only [changeKey, validateIndex_neg s i h1]⟩
  · exact ⟨.indexTooLarge, by simp only [changeKey, validateIndex_large s i (by omega) (by omega)]⟩

theorem changeKey_absent (s : MinPQ T) (i : Int) (key : T) (h : s.contains i = .ok false) :
    s.changeKey i key = (.error .notPresent, s) := by
  have h' := (contains_false_iff s i).1 h
  simp only [changeKey, validateIndex_ok s i h'.1 h'.2.1, h]

theorem decreaseKey_invalid (s : MinPQ T) (i : Int) (key : T) (h : ¬ (0 ≤ i ∧ i < s.maxN)) :
    ∃ e, s.decreaseKey i key = (.error e, s) := by
  by_cases h1 : i < 0
  · exact ⟨.indexNegative, by simp only [decreaseKey, validateIndex_neg s i h1]⟩
  · exact ⟨.indexTooLarge, by simp only [decreaseKey, validateIndex_large s i (by omega) (by omega)]⟩

theorem decreaseKey_absent (s : MinPQ T) (i : Int) (key : T) (h : s.contains i = .ok false) :
    s.decreaseKey i key = (.error .notPresent, s) := by
  have h' := (contains_false_iff s i).1 h
  simp only [decreaseKey, validateIndex_ok s i h'.1 h'.2.1, h]

theorem decreaseKey_equal (s : MinPQ T) (i : Int) (key : T) (h : s.Contained i)
    (hk : s.keys i = key) : s.decreaseKey i key = (.error .decreaseKeyEqual, s) := by
  simp only [decreaseKey, validateIndex_ok s i h.1 h.2.1, (contains_true_iff s i).2 h,
    if_pos hk]

theorem decreaseKey_greater (s : MinPQ T) (i : Int) (key : T) (h : s.Contained i)
    (hk : s.keys i < key) : s.decreaseKey i key = (.error .decreaseKeyGreater, s) := by
  simp only [decreaseKey, validateIndex_ok s i h.1 h.2.1, (contains_true_iff s i).2 h,
    if_neg (ne_of_lt hk), if_pos hk]

theorem increaseKey_invalid (s : MinPQ T) (i : Int) (key : T) (h : ¬ (0 ≤ i ∧ i < s.maxN)) :
    ∃ e, s.increaseKey i key = (.error e, s) := by
  by_cases h1 : i < 0
  · exact ⟨.indexNegative, by simp only [increaseKey, validateIndex_neg s i h1]⟩
  · exact ⟨.indexTooLarge, by simp only [increaseKey, validateIndex_large s i (by omega) (by omega)]⟩

theorem increaseKey_absent (s : MinPQ T) (i : Int) (key : T) (h : s.contains i = .ok false) :
    s.increaseKey i key = (.error .notPresent, s) := by
  have h' := (contains_false_iff s i).1 h
  simp only [increaseKey, validateIndex_ok s i h'.1 h'.2.1, h]

theorem increaseKey_equal (s : MinPQ T) (i : Int) (key : T) (h : s.Contained i)
    (hk : s.keys i = key) : s.increaseKey i key = (.error .increaseKeyEqual, s) := by
  simp only [increaseKey, validateIndex_ok s i h.1 h.2.1, (contains_true_iff s i).2 h,
    if_pos hk]

theorem increaseKey_less (s : MinPQ T) (i : Int) (key : T) (h : s.Contained i)
    (hk : key < s.keys i) : s.increaseKey i key = (.error .increaseKeyLess, s) := by
  simp only [increaseKey, validateIndex_ok s i h.1 h.2.1, (contains_true_iff s i).2 h,
    if_neg (ne_of_gt hk), gt_iff_lt, if_pos hk]

theorem delMin_empty (s : MinPQ T) (h : s.n = 0) : s.delMin = (.error .underflow, s) := by
  simp only [delMin, if_pos h]

omit [LinearOrder T] in
theorem contained_or (s : MinPQ T) (i : Int) :
    ¬ (0 ≤ i ∧ i < s.maxN) ∨ s.contains i = .ok false ∨ s.Contained i := by
  by_cases h : 0 ≤ i ∧ i < s.maxN
  · right
    by_cases hq : s.qp i = -1
    · exact Or.inl ((contains_false_iff s i).2 ⟨h.1, h.2, hq⟩)
    · exact Or.inr ⟨h.1, h.2, hq⟩
  · exact Or.inl h

/-! ### The class invariant holds in every reachable state -/

theorem insert_inv (s : MinPQ T) (i : Int) (key : T) (h : s.Inv) : (s.insert i key).2.Inv := by
  rcases contained_or s i with h1 | h1 | h1
  · obtain ⟨e, he⟩ := insert_invalid s i key h1; rw [he]; exact h
  · have h' := (contains_false_iff s i).1 h1
    exact (insert_spec s i key h h'.1 h'.2.1 h'.2.2).2.1
  · rw [insert_duplicate s i key h1]; exact h

theorem delMin_inv (s : MinPQ T) (h : s.Inv) : s.delMin.2.Inv := by
  by_cases hn : s.n = 0
  · rw [delMin_empty s hn]; exact h
  · exact (delMin_spec s h hn).2.1

theorem remove_inv (s : MinPQ T) (i : Int) (h : s.Inv) : (s.remove i).2.Inv := by
  rcases contained_or s i with h1 | h1 | h1
  · obtain ⟨e, he⟩ := remove_invalid s i h1; rw [he]; exact h
  · rw [remove_absent s i h1]; exact h
  · exact (remove_spec s i h h1).2.1

theorem changeKey_inv (s : MinPQ T) (i : Int) (key : T) (h : s.Inv) :
    (s.changeKey i key).2.Inv := by
  rcases contained_or s i with h1 | h1 | h1
  · obtain ⟨e, he⟩ := changeKey_invalid s i key h1; rw [he]; exact h
  · rw [changeKey_absent s i key h1]; exact h
  · exact (changeKey_spec s i key h h1).2.1

theorem decreaseKey_inv (s : MinPQ T) (i : Int) (key : T) (h : s.Inv) :
    (s.decreaseKey i key).2.Inv := by
  rcases contained_or s i with h1 | h1 | h1
  · obtain ⟨e, he⟩ := decreaseKey_invalid s i key h1; rw [he]; exact h
  · rw [decreaseKey_absent s i key h1]; exact h
  · rcases lt_trichotomy (s.keys i) key with hk | hk | hk
    · rw [decreaseKey_greater s i key h1 hk]; exact h
    · rw [decreaseKey_equal s i key h1 hk]; exact h
    · exact (decreaseKey_spec s i key h h1 hk).2.1

theorem increaseKey_inv (s : MinPQ T) (i : Int) (key : T) (h : s.Inv) :
    (s.increaseKey i key).2.Inv := by
  rcases contained_or s i with h1 | h1 | h1
  · obtain ⟨e, he⟩ := increaseKey_invalid s i key h1; rw [he]; exact h
  · rw [increaseKey_absent s i key h1]; exact h
  · rcases lt_trichotomy (s.keys i) key with hk | hk | hk
    · exact (increaseKey_spec s i key h h1 hk).2.1
    · rw [increaseKey_equal s i key h1 hk]; exact h
    · rw [increaseKey_less s i key h1 hk]; exact h

theorem new_inv (maxN : Int) (junk : T) (s : MinPQ T) (h : MinPQ.new maxN junk = .ok s) :
    s.Inv ∧ s.maxN = maxN ∧ s.n = 0 ∧ (∀ i, s.qp i = -1) ∧ 0 ≤ maxN := by
  unfold MinPQ.new at h
  split_ifs at h with hneg
  injection h with h
  subst h
  refine ⟨⟨le_rfl, by show (0 : Int) ≤ maxN; omega, ⟨?_, ?_⟩, ?_⟩, rfl, rfl, fun _ => rfl,
    by omega⟩
  · intro k hk1 hk2
    have : k ≤ 0 := hk2
    omega
  · intro i _ _; exact Or.inl rfl
  · intro k hk1 hk2
    have : k ≤ 0 := hk2
    omega

theorem Reachable.inv (s : MinPQ T) (h : s.Reachable) : s.Inv := by
  induction h with
  | new maxN junk s h => exact (new_inv maxN junk s h).1
  | insert s i key _ ih => exact insert_inv s i key ih
  | delMin s _ ih => exact delMin_inv s ih
  | remove s i _ ih => exact remove_inv s i ih
  | changeKey s i key _ ih => exact changeKey_inv s i key ih
  | decreaseKey s i key _ ih => exact decreaseKey_inv s i key ih
  | increaseKey s i key _ ih => exact increaseKey_inv s i key ih

omit [LinearOrder T] in
theorem keyOf_eq_ok_iff (s : MinPQ T) (i : Int) (c : T) :
    s.keyOf i = .ok c ↔ s.Contained i ∧ s.keys i = c := by
  rcases contained_or s i with h1 | h1 | h1
  · have hn : ¬ s.Contained i := fun h => h1 ⟨h.1, h.2.1⟩
    by_cases h2 : i < 0
    · simp [keyOf, validateIndex_neg s i h2, hn]
    · simp [keyOf, validateIndex_large s i (by omega) (by omega), hn]
  · have h' := (contains_false_iff s i).1 h1
    have hn : ¬ s.Contained i := fun h => h.2.2 h'.2.2
    simp [keyOf, validateIndex_ok s i h'.1 h'.2.1, h1, hn]
  · rw [keyOf_of_contained s i h1]
    simp [h1]

omit [LinearOrder T] in
theorem contained_of_qp (s s' : MinPQ T) (j : Int) (hmax : s'.maxN = s.maxN)
    (hq : s'.qp j = -1 ↔ s.qp j = -1) : s'.Contained j ↔ s.Contained j := by
  unfold Contained
  rw [hmax, Ne, Ne, hq]

/-- The client loop empties the queue: it returns every contained index once, with its
key, in non-decreasing key order. -/
theorem drainLoop_spec (fuel : Nat) : ∀ (s : MinPQ T), s.Inv → s.n ≤ fuel →
    ∃ l s', drainLoop fuel s = (.ok l, s') ∧ s'.n = 0 ∧ (l.map Prod.fst).Nodup ∧
      (∀ i, i ∈ l.map Prod.fst ↔ s.Contained i) ∧ (∀ p ∈ l, p.2 = s.keys p.1) ∧
      (l.map Prod.snd).Pairwise (· ≤ ·) := by
  have hempty : ∀ (s : MinPQ T), s.Inv → s.n = 0 → ∀ i, ¬ s.Contained i := by
    intro s h hn i hi
    have := Bk.slot_of_contained s s.n i h.bk hi.1 hi.2.1 hi.2.2
    omega
  induction fuel with
  | zero =>
    intro s h hf
    have hn : s.n = 0 := by have := h.n_nonneg; omega
    refine ⟨[], s, by simp [drainLoop, isEmpty, hn], hn, by simp, ?_, by simp, by simp⟩
    intro i
    simp only [List.map_nil, List.not_mem_nil, false_iff]
    exact hempty s h hn i
  | succ f ih =>
    intro s h hf
    by_cases hn : s.n = 0
    · refine ⟨[], s, by simp [drainLoop, isEmpty, hn], hn, by simp, ?_, by simp, by simp⟩
      intro i
      simp only [List.map_nil, List.not_mem_nil, false_iff]
      exact hempty s h hn i
    · obtain ⟨h1, h2, h3, h4, h5, h6, h7, h8⟩ := delMin_spec s h hn
      obtain ⟨l, s', e1, e2, e3, e4, e5, e6⟩ := ih s.delMin.2 h2 (by rw [h4]; omega)
      have hmem : ∀ i, s.delMin.2.Contained i ↔ s.Contained i ∧ i ≠ s.pq 1 := by
        intro i
        unfold Contained
        rw [h3, Ne, h6 i]
        constructor
        · rintro ⟨a, b, c⟩
          exact ⟨⟨a, b, fun e => c (Or.inr e)⟩, fun e => c (Or.inl e)⟩
        · rintro ⟨⟨a, b, c⟩, d⟩
          exact ⟨a, b, fun e => e.elim d c⟩
      have hloop : drainLoop (f + 1) s = (.ok ((s.pq 1, s.keys (s.pq 1)) :: l), s') := by
        have hd : s.delMin = (.ok (s.pq 1), s.delMin.2) := by
          rw [← h1]
        rw [drainLoop]
        simp only [isEmpty, beq_iff_eq, hn, if_false, minKey, Bool.false_eq_true]
        rw [hd]
        simp only [e1]
      refine ⟨_, s', hloop, e2, ?_, ?_, ?_, ?_⟩
      · rw [List.map_cons, List.nodup_cons]
        refine ⟨fun hin => ?_, e3⟩
        exact ((hmem _).1 ((e4 _).1 hin)).2 rfl
      · intro i
        rw [List.map_cons, List.mem_cons, e4 i, hmem i]
        constructor
        · rintro (e | e)
          · rw [e]; exact h7
          · exact e.1
        · intro e
          by_cases hi : i = s.pq 1
          · exact Or.inl hi
          · exact Or.inr ⟨e, hi⟩
      · intro p hp
        rcases List.mem_cons.1 hp with e | e
        · rw [e]
        · rw [e5 p e, h5]
      · rw [List.map_cons, List.pairwise_cons]
        refine ⟨?_, e6⟩
        intro k hk
        obtain ⟨p, hp, rfl⟩ := List.mem_map.1 hk
        rw [e5 p hp, h5]
        apply h8
        exact ((hmem _).1 ((e4 _).1 (List.mem_map_of_mem _ hp))).1

end Ops

end MinPQ

/-! ## The claims about `MinPQ` -/

/-- The test queue is reachable: five `insert` calls on a fresh queue of capacity 5. -/
theorem exPQ_reachable : exPQ.Reachable :=
  .insert _ 4 4 (.insert _ 3 1 (.insert _ 2 8 (.insert _ 1 3 (.insert _ 0 5
    (.new 5 0 _ rfl)))))

/-- C3: in a reachable non-empty queue, `delMin` returns a contained index whose key is
at most the key of every contained index; afterwards that index is not contained, the
size is one less, and every other contained index is still contained with its key.  On
an empty queue `delMin` throws the underflow error and leaves the queue as it was. -/
theorem delMin_returns_minimum {T : Type} [LinearOrder T] (s : MinPQ T) (hr : s.Reachable) :
    (s.isEmpty = false → ∃ i ki, s.delMin.1 = .ok i ∧ s.contains i = .ok true ∧
      s.keyOf i = .ok ki ∧ (∀ j kj, s.keyOf j = .ok kj → ki ≤ kj) ∧
      s.delMin.2.contains i = .ok false ∧ s.delMin.2.size = s.size - 1 ∧
      ∀ j, j ≠ i → s.contains j = .ok true →
        s.delMin.2.contains j = .ok true ∧ s.delMin.2.keyOf j = s.keyOf j) ∧
    (s.isEmpty = true → s.delMin = (.error .underflow, s)) := by
  have hinv := MinPQ.Reachable.inv s hr
  constructor
  · intro hne
    have hn : s.n ≠ 0 := by simpa [MinPQ.isEmpty] using hne
    obtain ⟨h1, h2, h3, h4, h5, h6, h7, h8⟩ := MinPQ.delMin_spec s hinv hn
    refine ⟨s.pq 1, s.keys (s.pq 1), h1, (MinPQ.contains_true_iff _ _).2 h7,
      MinPQ.keyOf_of_contained _ _ h7, ?_, ?_, ?_, ?_⟩
    · intro j kj hj
      obtain ⟨hj1, hj2⟩ := (MinPQ.keyOf_eq_ok_iff s j kj).1 hj
      rw [← hj2]; exact h8 j hj1
    · rw [MinPQ.contains_false_iff, h3]
      exact ⟨h7.1, h7.2.1, (h6 _).2 (Or.inl rfl)⟩
    · exact h4
    · intro j hji hj
      rw [MinPQ.contains_true_iff] at hj
      have hj' : s.delMin.2.Contained j := by
        refine ⟨hj.1, by rw [h3]; exact hj.2.1, fun e => ?_⟩
        rcases (h6 j).1 e with e1 | e1
        · exact hji e1
        · exact hj.2.2 e1
      refine ⟨(MinPQ.contains_true_iff _ _).2 hj', ?_⟩
      rw [MinPQ.keyOf_of_contained _ _ hj', MinPQ.keyOf_of_contained _ _ hj, h5]
  · intro he
    have hn : s.n = 0 := by simpa [MinPQ.isEmpty] using he
    exact MinPQ.delMin_empty s hn

/-- C3 on the test queue: `delMin` returns index 3, whose key 1 is the least. -/
theorem delMin_returns_minimum_witness :
    ∃ i ki, exPQ.delMin.1 = .ok i ∧ exPQ.contains i = .ok true ∧
      exPQ.keyOf i = .ok ki ∧ (∀ j kj, exPQ.keyOf j = .ok kj → ki ≤ kj) ∧
      exPQ.delMin.2.contains i = .ok false ∧ exPQ.delMin.2.size = exPQ.size - 1 ∧
      ∀ j, j ≠ i → exPQ.contains j = .ok true →
        exPQ.delMin.2.contains j = .ok true ∧ exPQ.delMin.2.keyOf j = exPQ.keyOf j :=
  (delMin_returns_minimum exPQ
    (.insert _ 4 4 (.insert _ 3 1 (.insert _ 2 8 (.insert _ 1 3 (.insert _ 0 5
      (.new 5 0 _ rfl))))))).1 (by decide)

/-- C4: heap order is an invariant: in every state reachable from a freshly constructed
queue by `insert`, `delMin`, `changeKey`, `decreaseKey`, `increaseKey` and `remove`
calls, failed calls included, the key at every slot `k` with `2 ≤ k ≤ n` is at least
the key at slot `k / 2`. -/
theorem heap_order_invariant {T : Type} [LinearOrder T] (s : MinPQ T) (hr : s.Reachable) :
    ∀ k, 2 ≤ k → k ≤ s.n → s.keys (s.pq (k / 2)) ≤ s.keys (s.pq k) :=
  (MinPQ.Reachable.inv s hr).heap

/-- C4 on the test queue after a `delMin`, a `remove` and a failed `insert`, at slot 3. -/
theorem heap_order_invariant_witness :
    ((exPQ.delMin.2.remove 2).2.insert 7 0).2.n = 3 ∧
      ((exPQ.delMin.2.remove 2).2.insert 7 0).2.keys
          (((exPQ.delMin.2.remove 2).2.insert 7 0).2.pq (3 / 2)) ≤
        ((exPQ.delMin.2.remove 2).2.insert 7 0).2.keys
          (((exPQ.delMin.2.remove 2).2.insert 7 0).2.pq 3) :=
  ⟨by decide, heap_order_invariant _
    (.insert _ 7 0 (.remove _ 2 (.delMin _
      (.insert _ 4 4 (.insert _ 3 1 (.insert _ 2 8 (.insert _ 1 3 (.insert _ 0 5
        (.new 5 0 _ rfl))))))))) 3 (by decide) (by decide)⟩

/-- C5: in a reachable queue, `insert(i, k)` on a valid index `i` that is not contained
succeeds, and afterwards `contains(i)` is true and `keyOf(i)` returns `k`. -/
theorem insert_contains_keyOf {T : Type} [LinearOrder T] (s : MinPQ T) (hr : s.Reachable)
    (i : Int) (k : T) (h0 : 0 ≤ i) (h1 : i < s.maxN) (hc : s.contains i = .ok false) :
    (s.insert i k).1 = .ok () ∧ (s.insert i k).2.contains i = .ok true ∧
      (s.insert i k).2.keyOf i = .ok k := by
  have hinv := MinPQ.Reachable.inv s hr
  have hq := ((MinPQ.contains_false_iff s i).1 hc).2.2
  obtain ⟨e1, _, e3, _, e5, e6⟩ := MinPQ.insert_spec s i k hinv h0 h1 hq
  have hcon : (s.insert i k).2.Contained i :=
    ⟨h0, by rw [e3]; exact h1, fun e => ((e6 i).1 e).1 rfl⟩
  refine ⟨e1, (MinPQ.contains_true_iff _ _).2 hcon, ?_⟩
  rw [MinPQ.keyOf_of_contained _ _ hcon, e5, Function.update_same]

/-- C5 on the test queue after `delMin` removed index 3: `insert(3, 7)`. -/
theorem insert_contains_keyOf_witness :
    (exPQ.delMin.2.insert 3 7).1 = .ok () ∧
      (exPQ.delMin.2.insert 3 7).2.contains 3 = .ok true ∧
      (exPQ.delMin.2.insert 3 7).2.keyOf 3 = .ok 7 :=
  insert_contains_keyOf exPQ.delMin.2
    (.delMin _ (.insert _ 4 4 (.insert _ 3 1 (.insert _ 2 8 (.insert _ 1 3 (.insert _ 0 5
      (.new 5 0 _ rfl)))))))
    3 7 (by decide) (by decide) (by decide)

/-- C6: in a reachable queue, for a contained index `i` with key `c`: `decreaseKey(i, k)`
throws a key-direction error iff `c ≤ k`, and `increaseKey(i, k)` throws one iff `k ≤ c`;
a call that throws leaves the queue as it was, the other calls succeed and make
`keyOf(i)` return `k`. -/
theorem keyDirection_iff {T : Type} [LinearOrder T] (s : MinPQ T) (hr : s.Reachable)
    (i : Int) (c k : T) (hc : s.keyOf i = .ok c) :
    (failsWithKeyDirection (s.decreaseKey i k).1 = true ↔ c ≤ k) ∧
    (failsWithKeyDirection (s.increaseKey i k).1 = true ↔ k ≤ c) ∧
    (∀ e, (s.decreaseKey i k).1 = .error e → (s.decreaseKey i k).2 = s) ∧
    (∀ e, (s.increaseKey i k).1 = .error e → (s.increaseKey i k).2 = s) ∧
    (k < c → (s.decreaseKey i k).1 = .ok () ∧ (s.decreaseKey i k).2.keyOf i = .ok k) ∧
    (c < k → (s.increaseKey i k).1 = .ok () ∧ (s.increaseKey i k).2.keyOf i = .ok k) := by
  have hinv := MinPQ.Reachable.inv s hr
  obtain ⟨hcon, hkey⟩ := (MinPQ.keyOf_eq_ok_iff s i c).1 hc
  subst hkey
  have hdec : k < s.keys i →
      (s.decreaseKey i k).1 = .ok () ∧ (s.decreaseKey i k).2.keyOf i = .ok k := by
    intro hlt
    obtain ⟨e1, _, e3, _, e5, e6⟩ := MinPQ.decreaseKey_spec s i k hinv hcon hlt
    have hcon' := (MinPQ.contained_of_qp s _ i e3 (e6 i)).2 hcon
    refine ⟨e1, ?_⟩
    rw [MinPQ.keyOf_of_contained _ _ hcon', e5, Function.update_same]
  have hinc : s.keys i < k →
      (s.increaseKey i k).1 = .ok () ∧ (s.increaseKey i k).2.keyOf i = .ok k := by
    intro hlt
    obtain ⟨e1, _, e3, _, e5, e6⟩ := MinPQ.increaseKey_spec s i k hinv hcon hlt
    have hcon' := (MinPQ.contained_of_qp s _ i e3 (e6 i)).2 hcon
    refine ⟨e1, ?_⟩
    rw [MinPQ.keyOf_of_contained _ _ hcon', e5, Function.update_same]
  refine ⟨?_, ?_, ?_, ?_, hdec, hinc⟩
  · rcases lt_trichotomy (s.keys i) k with h | h | h
    · rw [MinPQ.decreaseKey_greater s i k hcon h]
      simp [failsWithKeyDirection, Err.isKeyDirection, le_of_lt h]
    · rw [MinPQ.decreaseKey_equal s i k hcon h]
      simp [failsWithKeyDirection, Err.isKeyDirection, h]
    · rw [(hdec h).1]
      simp [failsWithKeyDirection, h]
  · rcases lt_trichotomy (s.keys i) k with h | h | h
    · rw [(hinc h).1]
      simp [failsWithKeyDirection, h]
    · rw [MinPQ.increaseKey_equal s i k hcon h]
      simp [failsWithKeyDirection, Err.isKeyDirection, h]
    · rw [MinPQ.increaseKey_less s i k hcon h]
      simp [failsWithKeyDirection, Err.isKeyDirection, le_of_lt h]
  · intro e he
    rcases lt_trichotomy (s.keys i) k with h | h | h
    · rw [MinPQ.decreaseKey_greater s i k hcon h]
    · rw [MinPQ.decreaseKey_equal s i k hcon h]
    · rw [(hdec h).1] at he; cases he
  · intro e he
    rcases lt_trichotomy (s.keys i) k with h | h | h
    · rw [(hinc h).1] at he; cases he
    · rw [MinPQ.increaseKey_equal s i k hcon h]
    · rw [MinPQ.increaseKey_less s i k hcon h]

/-- C6 on the test queue, index 2 with key 8 and new key 8: both calls throw. -/
theorem keyDirection_iff_witness :
    (failsWithKeyDirection (exPQ.decreaseKey 2 8).1 = true ↔ (8 : Int) ≤ 8) ∧
    (failsWithKeyDirection (exPQ.increaseKey 2 8).1 = true ↔ (8 : Int) ≤ 8) ∧
    (∀ e, (exPQ.decreaseKey 2 8).1 = .error e → (exPQ.decreaseKey 2 8).2 = exPQ) ∧
    (∀ e, (exPQ.increaseKey 2 8).1 = .error e → (exPQ.increaseKey 2 8).2 = exPQ) ∧
    ((8 : Int) < 8 →
      (exPQ.decreaseKey 2 8).1 = .ok () ∧ (exPQ.decreaseKey 2 8).2.keyOf 2 = .ok 8) ∧
    ((8 : Int) < 8 →
      (exPQ.increaseKey 2 8).1 = .ok () ∧ (exPQ.increaseKey 2 8).2.keyOf 2 = .ok 8) :=
  keyDirection_iff exPQ
    (.insert _ 4 4 (.insert _ 3 1 (.insert _ 2 8 (.insert _ 1 3 (.insert _ 0 5
      (.new 5 0 _ rfl))))))
    2 8 8 (by decide)

/-- C8: in a reachable queue, `remove(i)` on a contained index `i` succeeds; afterwards
`i` is not contained, the size is one less, every other contained index is still
contained with its key, and the heap is in order.  On a valid index that is not
contained, `remove(i)` throws the not-present error and leaves the queue as it was. -/
theorem remove_contained {T : Type} [LinearOrder T] (s : MinPQ T) (hr : s.Reachable)
    (i : Int) :
    (s.contains i = .ok true →
      (s.remove i).1 = .ok () ∧ (s.remove i).2.contains i = .ok false ∧
      (s.remove i).2.size = s.size - 1 ∧
      (∀ j, j ≠ i → s.contains j = .ok true →
        (s.remove i).2.contains j = .ok true ∧ (s.remove i).2.keyOf j = s.keyOf j) ∧
      (s.remove i).2.HeapOrdered) ∧
    (s.contains i = .ok false → s.remove i = (.error .notPresent, s)) := by
  have hinv := MinPQ.Reachable.inv s hr
  refine ⟨fun hc => ?_, MinPQ.remove_absent s i⟩
  rw [MinPQ.contains_true_iff] at hc
  obtain ⟨e1, e2, e3, e4, e5, e6⟩ := MinPQ.remove_spec s i hinv hc
  refine ⟨e1, ?_, e4, ?_, e2.heap⟩
  · rw [MinPQ.contains_false_iff, e3]
    exact ⟨hc.1, hc.2.1, (e6 i).2 (Or.inl rfl)⟩
  · intro j hji hj
    rw [MinPQ.contains_true_iff] at hj
    have hj' : (s.remove i).2.Contained j := by
      refine ⟨hj.1, by rw [e3]; exact hj.2.1, fun e => ?_⟩
      rcases (e6 j).1 e with e1 | e1
      · exact hji e1
      · exact hj.2.2 e1
    refine ⟨(MinPQ.contains_true_iff _ _).2 hj', ?_⟩
    rw [MinPQ.keyOf_of_contained _ _ hj', MinPQ.keyOf_of_contained _ _ hj, e5]

/-- C8 on the test queue: index 4 sits in the last heap slot (slot 5) and is removed. -/
theorem remove_contained_witness :
    exPQ.qp 4 = exPQ.n ∧
      (exPQ.remove 4).1 = .ok () ∧ (exPQ.remove 4).2.contains 4 = .ok false ∧
      (exPQ.remove 4).2.size = exPQ.size - 1 ∧
      (∀ j, j ≠ 4 → exPQ.contains j = .ok true →
        (exPQ.remove 4).2.contains j = .ok true ∧ (exPQ.remove 4).2.keyOf j = exPQ.keyOf j) ∧
      (exPQ.remove 4).2.HeapOrdered :=
  ⟨by decide, (remove_contained exPQ
    (.insert _ 4 4 (.insert _ 3 1 (.insert _ 2 8 (.insert _ 1 3 (.insert _ 0 5
      (.new 5 0 _ rfl))))))
    4).1 (by decide)⟩

/-- C7: on a reachable queue, calling `delMin` until the queue is empty never throws
and returns every contained index exactly once; the keys of the returned indices, as
held when they are removed, are the keys they have in the queue and come out in
non-decreasing order. -/
theorem drain_sorted {T : Type} [LinearOrder T] (s : MinPQ T) (hr : s.Reachable) :
    ∃ l, s.drain.1 = .ok l ∧ s.drain.2.isEmpty = true ∧ (l.map Prod.fst).Nodup ∧
      (∀ i, i ∈ l.map Prod.fst ↔ s.contains i = .ok true) ∧
      (∀ p ∈ l, s.keyOf p.1 = .ok p.2) ∧ (l.map Prod.snd).Pairwise (· ≤ ·) := by
  have hinv := MinPQ.Reachable.inv s hr
  obtain ⟨l, s', e1, e2, e3, e4, e5, e6⟩ :=
    MinPQ.drainLoop_spec s.n.toNat s hinv (by have := hinv.n_nonneg; omega)
  have hd : s.drain = (.ok l, s') := e1
  refine ⟨l, by rw [hd], by rw [hd]; simp [MinPQ.isEmpty, e2], e3, ?_, ?_, e6⟩
  · intro i; rw [e4 i, MinPQ.contains_true_iff]
  · intro p hp
    rw [MinPQ.keyOf_eq_ok_iff]
    exact ⟨(e4 _).1 (List.mem_map_of_mem _ hp), (e5 p hp).symm⟩

/-- C7 on the test queue after `changeKey(0, 2)` and `remove(1)`. -/
theorem drain_sorted_witness :
    ∃ l, ((exPQ.changeKey 0 2).2.remove 1).2.drain.1 = .ok l ∧
      ((exPQ.changeKey 0 2).2.remove 1).2.drain.2.isEmpty = true ∧
      (l.map Prod.fst).Nodup ∧
      (∀ i, i ∈ l.map Prod.fst ↔ ((exPQ.changeKey 0 2).2.remove 1).2.contains i = .ok true) ∧
      (∀ p ∈ l, ((exPQ.changeKey 0 2).2.remove 1).2.keyOf p.1 = .ok p.2) ∧
      (l.map Prod.snd).Pairwise (· ≤ ·) :=
  drain_sorted _
    (.remove _ 1 (.changeKey _ 0 2
      (.insert _ 4 4 (.insert _ 3 1 (.insert _ 2 8 (.insert _ 1 3 (.insert _ 0 5
        (.new 5 0 _ rfl))))))))


/-! ## `get_reachable_from` -/

namespace Graph

variable {W : Type}

theorem InRange.to_mem (g : Graph W) (h : g.InRange) (v : Int) (h0 : 0 ≤ v)
    (h1 : v < (g.V : Int)) (e : Edge W) (he : e ∈ g.adj v) :
    0 ≤ e.to_ ∧ e.to_ < (g.V : Int) := by
  have := h v.toNat (List.mem_range.2 (by omega)) e (by rwa [Int.toNat_of_nonneg h0])
  exact ⟨this.2.2.1, this.2.2.2⟩

theorem InRange.reach_mem (g : Graph W) (h : g.InRange) (a b : Int) (h0 : 0 ≤ a)
    (h1 : a < (g.V : Int)) (hr : g.Reach a b) : 0 ≤ b ∧ b < (g.V : Int) := by
  induction hr with
  | refl => exact ⟨h0, h1⟩
  | tail _ hadj ih =>
    obtain ⟨e, he, rfl⟩ := hadj
    exact InRange.to_mem g h _ ih.1 ih.2 e he

/-- The scan of (a suffix of) the adjacency list of the dequeued vertex `u`. -/
theorem bfsScan_spec (g : Graph W) (hin : g.InRange) (s u : Int) :
    ∀ (es : List (Edge W)) (q : List Int) (color : Int → Int) (result : List Int),
      (∀ e ∈ es, e ∈ g.adj u) → BfsInv g s [u] q color result →
      BfsInv g s [u] (bfsScan es (q, color, result)).1 (bfsScan es (q, color, result)).2.1
        (bfsScan es (q, color, result)).2.2 ∧
      (∀ v, (bfsScan es (q, color, result)).2.1 v = 2 ↔ color v = 2) ∧
      (∀ v, color v ≠ 0 → (bfsScan es (q, color, result)).2.1 v = color v) ∧
      (∀ e ∈ es, (bfsScan es (q, color, result)).2.1 e.to_ ≠ 0) := by
  intro es
  induction es with
  | nil =>
    intro q color result _ hinv
    exact ⟨hinv, fun _ => Iff.rfl, fun _ _ => rfl, fun e he => absurd he (List.not_mem_nil e)⟩
  | cons e rest ih =>
    intro q color result hes hinv
    have hrest : ∀ e' ∈ rest, e' ∈ g.adj u := fun e' h' => hes e' (List.mem_cons_of_mem _ h')
    have hu : color u = 1 := (hinv.gray_iff u).1 (by simp)
    have hures : u ∈ result := (hinv.res_iff u).2 (by omega)
    by_cases hc : color e.to_ = 0
    · have hstep : bfsScan (e :: rest) (q, color, result) =
          bfsScan rest (q ++ [e.to_], Function.update color e.to_ 1, result ++ [e.to_]) := by
        rw [bfsScan, if_pos hc]
      have hnotres : e.to_ ∉ result := fun h => (hinv.res_iff _).1 h hc
      have hnotq : e.to_ ∉ [u] ++ q := fun h => by
        have := (hinv.gray_iff _).1 h; omega
      have hinv' : BfsInv g s [u] (q ++ [e.to_]) (Function.update color e.to_ 1)
          (result ++ [e.to_]) := by
        refine ⟨?_, ?_, ?_, ?_, ?_, ?_, ?_, ?_, ?_⟩
        · exact List.Nodup.append hinv.nodup_res (List.nodup_singleton _)
            (by simpa using hnotres)
        · rw [← List.append_assoc]
          exact List.Nodup.append hinv.nodup_q (List.nodup_singleton _) (by simpa using hnotq)
        · intro v
          rw [List.mem_append, List.mem_singleton, Function.update_apply]
          split_ifs with hv
          · simp [hv]
          · rw [hinv.res_iff v]; simp [hv]
        · intro v
          rw [← List.append_assoc, List.mem_append, List.mem_singleton, Function.update_apply]
          split_ifs with hv
          · simp [hv]
          · rw [hinv.gray_iff v]; simp [hv]
        · intro v
          rw [Function.update_apply]
          split_ifs
          · exact Or.inr (Or.inl rfl)
          · exact hinv.colors v
        · intro v hv e' he'
          rw [Function.update_apply] at hv ⊢
          split_ifs at hv with hv1
          · omega
          · split_ifs
            · omega
            · exact hinv.black v hv e' he'
        · intro v hv
          rcases List.mem_append.1 hv with h | h
          · exact hinv.reach v h
          · rw [List.mem_singleton.1 h]
            exact Relation.ReflTransGen.tail (hinv.reach u hures)
              ⟨e, hes e (List.mem_cons_self _ _), rfl⟩
        · exact List.mem_append_left _ hinv.src
        · intro v hv
          rcases List.mem_append.1 hv with h | h
          · exact hinv.range v h
          · rw [List.mem_singleton.1 h]
            have := hinv.range u hures
            exact InRange.to_mem g hin u this.1 this.2 e (hes e (List.mem_cons_self _ _))
      obtain ⟨i1, i2, i3, i4⟩ := ih _ _ _ hrest hinv'
      rw [hstep]
      refine ⟨i1, ?_, ?_, ?_⟩
      · intro v
        rw [i2 v, Function.update_apply]
        split_ifs with hv
        · rw [hv, hc]; omega
        · rfl
      · intro v hv
        have hne : v ≠ e.to_ := fun h => hv (h ▸ hc)
        rw [i3 v (by rw [Function.update_noteq hne]; exact hv), Function.update_noteq hne]
      · intro e' he'
        rcases List.mem_cons.1 he' with h | h
        · rw [h, i3 e.to_ (by rw [Function.update_same]; omega), Function.update_same]
          omega
        · exact i4 e' h
    · have hstep : bfsScan (e :: rest) (q, color, result) = bfsScan rest (q, color, result) := by
        rw [bfsScan, if_neg hc]
      obtain ⟨i1, i2, i3, i4⟩ := ih _ _ _ hrest hinv
      rw [hstep]
      refine ⟨i1, i2, i3, ?_⟩
      intro e' he'
      rcases List.mem_cons.1 he' with h | h
      · rw [h, i3 e.to_ hc]; exact hc
      · exact i4 e' h

/-- Without gray vertices the discovered vertices are closed under the edges. -/
theorem BfsInv.done (g : Graph W) (s : Int) (color : Int → Int) (result : List Int)
    (h : BfsInv g s [] [] color result) : ∀ w, w ∈ result ↔ g.Reach s w := by
  intro w
  refine ⟨h.reach w, fun hr => ?_⟩
  induction hr with
  | refl => exact h.src
  | tail _ hadj ih =>
    obtain ⟨e, he, rfl⟩ := hadj
    rename_i b _
    have hb := (h.res_iff b).1 ih
    have hng : color b ≠ 1 := fun h1 => by
      have := (h.gray_iff b).2 h1
      simp at this
    have hblack : color b = 2 := by
      rcases h.colors b with h0 | h1 | h2
      · exact absurd h0 hb
      · exact absurd h1 hng
      · exact h2
    exact (h.res_iff _).2 (h.black b hblack e he)

theorem nonBlack_pos (g : Graph W) (color : Int → Int) (u : Int) (h0 : 0 ≤ u)
    (h1 : u < (g.V : Int)) (hu : color u ≠ 2) : 0 < g.nonBlack color := by
  unfold nonBlack
  rw [Finset.card_pos]
  refine ⟨u.toNat, ?_⟩
  rw [Finset.mem_filter, Finset.mem_range, Int.toNat_of_nonneg h0]
  exact ⟨by omega, hu⟩

theorem nonBlack_blacken (g : Graph W) (c c' : Int → Int) (u : Int) (h0 : 0 ≤ u)
    (h1 : u < (g.V : Int)) (hu : c u ≠ 2) (hc : ∀ v, c' v = 2 ↔ c v = 2) :
    g.nonBlack (Function.update c' u 2) + 1 = g.nonBlack c := by
  unfold nonBlack
  have hmem : u.toNat ∈ (Finset.range g.V).filter (fun i : Nat => c (i : Int) ≠ 2) := by
    rw [Finset.mem_filter, Finset.mem_range, Int.toNat_of_nonneg h0]
    exact ⟨by omega, hu⟩
  have heq : (Finset.range g.V).filter (fun i : Nat => Function.update c' u 2 (i : Int) ≠ 2) =
      ((Finset.range g.V).filter (fun i : Nat => c (i : Int) ≠ 2)).erase u.toNat := by
    ext i
    rw [Finset.mem_erase, Finset.mem_filter, Finset.mem_filter, Function.update_apply]
    by_cases hi : (i : Int) = u
    · rw [if_pos hi]
      have : i = u.toNat := by omega
      simp [this]
    · rw [if_neg hi, Ne, hc]
      have : i ≠ u.toNat := by omega
      simp [this]
  rw [heq, Finset.card_erase_of_mem hmem]
  have := Finset.card_pos.2 ⟨_, hmem⟩
  omega

/-- The main loop of `get_reachable_from` ends with an empty queue before its budget is
used up, and returns the vertices reachable from `s`, each once. -/
theorem bfsLoop_spec (g : Graph W) (hin : g.InRange) (s : Int) (fuel : Nat) :
    ∀ (q : List Int) (color : Int → Int) (result : List Int),
      BfsInv g s [] q color result → g.nonBlack color ≤ fuel →
      ∃ r, bfsLoop g fuel (q, color, result) = .ok r ∧ r.Nodup ∧
        (∀ w, w ∈ r ↔ g.Reach s w) ∧ ∃ t, r = result ++ t := by
  induction fuel with
  | zero =>
    intro q color result hinv hf
    cases q with
    | nil => exact ⟨result, by rw [bfsLoop], hinv.nodup_res, BfsInv.done g s color result hinv,
        [], by simp⟩
    | cons u q =>
      have hu : color u = 1 := (hinv.gray_iff u).1 (by simp)
      have hr := hinv.range u ((hinv.res_iff u).2 (by omega))
      have := nonBlack_pos g color u hr.1 hr.2 (by omega)
      omega
  | succ f ih =>
    intro q color result hinv hf
    cases q with
    | nil => exact ⟨result, by rw [bfsLoop], hinv.nodup_res, BfsInv.done g s color result hinv,
        [], by simp⟩
    | cons u q =>
      have hu : color u = 1 := (hinv.gray_iff u).1 (by simp)
      have hures : u ∈ result := (hinv.res_iff u).2 (by omega)
      have hr := hinv.range u hures
      have hinv1 : BfsInv g s [u] q color result :=
        ⟨hinv.nodup_res, by simpa using hinv.nodup_q, hinv.res_iff,
          fun v => by simpa using hinv.gray_iff v, hinv.colors, hinv.black, hinv.reach,
          hinv.src, hinv.range⟩
      obtain ⟨i1, i2, i3, i4⟩ := bfsScan_spec g hin s u (g.adj u) q color result
        (fun _ h => h) hinv1
      have hsame : ∃ t, (bfsScan (g.adj u) (q, color, result)).2.2 = result ++ t := by
        have : ∀ (es : List (Edge W)) (q : List Int) (color : Int → Int) (result : List Int),
            ∃ t, (bfsScan es (q, color, result)).2.2 = result ++ t := by
          intro es
          induction es with
          | nil => intro q color result; exact ⟨[], by simp [bfsScan]⟩
          | cons e rest ih2 =>
            intro q color result
            rw [bfsScan]
            split_ifs
            · obtain ⟨t, ht⟩ := ih2 (q ++ [e.to_]) (Function.update color e.to_ 1)
                (result ++ [e.to_])
              exact ⟨e.to_ :: t, by rw [ht]; simp⟩
            · exact ih2 q color result
        exact this _ _ _ _
      rcases hst : bfsScan (g.adj u) (q, color, result) with ⟨q', c', r'⟩
      rw [hst] at i1 i2 i3 i4 hsame
      simp only at i1 i2 i3 i4 hsame
      have hu' : c' u = 1 := by rw [i3 u (by omega)]; exact hu
      have hnd : u ∉ q' := by
        have := i1.nodup_q
        simp only [List.singleton_append, List.nodup_cons] at this
        exact this.1
      have hinv2 : BfsInv g s [] q' (Function.update c' u 2) r' := by
        refine ⟨i1.nodup_res, ?_, ?_, ?_, ?_, ?_, i1.reach, i1.src, i1.range⟩
        · have := i1.nodup_q
          simp only [List.singleton_append, List.nodup_cons] at this
          simpa using this.2
        · intro v
          rw [Function.update_apply]
          split_ifs with hv
          · rw [hv, i1.res_iff u, hu']; simp
          · exact i1.res_iff v
        · intro v
          rw [List.nil_append, Function.update_apply]
          split_ifs with hv
          · rw [hv]; simp [hnd]
          · rw [← i1.gray_iff v]; simp [hv]
        · intro v
          rw [Function.update_apply]
          split_ifs
          · exact Or.inr (Or.inr rfl)
          · exact i1.colors v
        · intro v hv e he
          have hne : ∀ x, c' x ≠ 0 → Function.update c' u 2 x ≠ 0 := by
            intro x hx
            rw [Function.update_apply]
            split_ifs
            · omega
            · exact hx
          rw [Function.update_apply] at hv
          split_ifs at hv with hv1
          · rw [hv1] at he
            exact hne _ (i4 e he)
          · exact hne _ (i1.black v hv e he)
      have hcount : g.nonBlack (Function.update c' u 2) ≤ f := by
        have := nonBlack_blacken g color c' u hr.1 hr.2 (by omega) i2
        omega
      obtain ⟨r, e1, e2, e3, t, e4⟩ := ih q' (Function.update c' u 2) r' hinv2 hcount
      obtain ⟨t0, ht0⟩ := hsame
      refine ⟨r, ?_, e2, e3, t0 ++ t, ?_⟩
      · rw [bfsLoop, hst]
        exact e1
      · rw [e4, ht0, List.append_assoc]

end Graph

namespace Graph

/-- `get_reachable_from(s)` returns, without repetition, the vertices reachable from `s`;
the result starts with the initial content `[s]` of the vector. -/
theorem get_reachable_from_spec {W : Type} (g : Graph W) (hin : g.InRange) (s : Int)
    (h0 : 0 ≤ s) (h1 : s < (g.V : Int)) :
    ∃ r, g.get_reachable_from s = .ok r ∧ r.Nodup ∧ (∀ w, w ∈ r ↔ g.Reach s w) := by
  have hinit : Graph.BfsInv g s [] [s] (Function.update (fun _ => 0) s 1) [s] := by
    refine ⟨List.nodup_singleton s, by simp, ?_, ?_, ?_, ?_, ?_, by simp, ?_⟩
    · intro v
      rw [List.mem_singleton, Function.update_apply]
      split_ifs with h <;> simp [h]
    · intro v
      rw [List.nil_append, List.mem_singleton, Function.update_apply]
      split_ifs with h <;> simp [h]
    · intro v
      rw [Function.update_apply]
      split_ifs
      · exact Or.inr (Or.inl rfl)
      · exact Or.inl rfl
    · intro v hv
      rw [Function.update_apply] at hv
      split_ifs at hv <;> omega
    · intro v hv
      rw [List.mem_singleton.1 hv]
      exact Relation.ReflTransGen.refl
    · intro v hv
      rw [List.mem_singleton.1 hv]
      exact ⟨h0, h1⟩
  have hcount : g.nonBlack (Function.update (fun _ => 0) s 1) ≤ g.V := by
    unfold Graph.nonBlack
    exact le_trans (Finset.card_filter_le _ _) (by rw [Finset.card_range])
  obtain ⟨r, e1, e2, e3, _⟩ := Graph.bfsLoop_spec g hin s g.V _ _ _ hinit hcount
  refine ⟨r, ?_, e2, e3⟩
  unfold Graph.get_reachable_from
  rw [if_neg (by omega)]
  exact e1

end Graph

/-- C9: when the endpoints of all edges are vertices and `s` is a vertex,
`get_reachable_from(s)` returns a sequence without repetition whose elements are
exactly the vertices `w` with a directed path (of length `≥ 0`) from `s` to `w`; `s` is
among them, and the result is `[s]` when `s` has no outgoing edge. -/
theorem get_reachable_from_reachable {W : Type} (g : Graph W) (hin : g.InRange) (s : Int)
    (h0 : 0 ≤ s) (h1 : s < (g.V : Int)) :
    ∃ r, g.get_reachable_from s = .ok r ∧ r.Nodup ∧ (∀ w, w ∈ r ↔ g.Reach s w) ∧ s ∈ r ∧
      (g.adj s = [] → r = [s]) := by
  obtain ⟨r, e1, e2, e3⟩ := Graph.get_reachable_from_spec g hin s h0 h1
  refine ⟨r, e1, e2, e3, (e3 s).2 Relation.ReflTransGen.refl, ?_⟩
  intro hadj
  obtain ⟨f, hf⟩ : ∃ f, g.V = f + 1 := ⟨g.V - 1, by omega⟩
  have : g.get_reachable_from s = .ok [s] := by
    unfold Graph.get_reachable_from
    rw [if_neg (by omega), hf, Graph.bfsLoop, hadj, Graph.bfsScan]
    simp only
    rw [Graph.bfsLoop]
  rw [this] at e1
  injection e1 with e1
  exact e1.symm

/-- C9 on the graph of `test.cpp`, from vertex 1. -/
theorem get_reachable_from_reachable_witness :
    ∃ r, exGraph.get_reachable_from 1 = .ok r ∧ r.Nodup ∧ (∀ w, w ∈ r ↔ exGraph.Reach 1 w) ∧
      (1 : Int) ∈ r ∧ (exGraph.adj 1 = [] → r = [1]) :=
  get_reachable_from_reachable exGraph (by decide) 1 (by decide) (by decide)

/-! ## `is_undirected` and `connected_components` -/

/-- `add_edge` stores an edge under its own `from`, and only with a weight `≥ 0`. -/
theorem Graph.Built.wellFormed {W : Type} [LinearOrderedRing W] (g : Graph W) (h : g.Built) :
    g.WellFormed := by
  have key : ∀ (v : Int), ∀ e ∈ g.adj v, e.from_ = v ∧ 0 ≤ e.weight := by
    induction h with
    | new V => intro v e he; exact absurd he (List.not_mem_nil e)
    | add_edge g a b weight _ ih =>
      intro v e he
      unfold Graph.add_edge at he
      split_ifs at he with hneg
      · exact ih v e he
      · simp only [Function.update_apply] at he
        split_ifs at he with hv
        · rcases List.mem_append.1 he with h1 | h1
          · exact ih v e (hv ▸ h1)
          · rw [List.mem_singleton.1 h1]
            exact ⟨hv.symm, not_lt.1 hneg⟩
        · exact ih v e he
  exact fun v _ e he => key v e he

theorem toInt_nonneg {W : Type} [LinearOrderedRing W] [FloorRing W] (w : W) (h : 0 ≤ w) :
    0 ≤ toInt w := by
  unfold toInt
  rw [if_pos h]
  exact Int.floor_nonneg.2 h

namespace Graph

variable {W : Type}

section Undirected

variable [LinearOrderedRing W] [FloorRing W]

theorem setCell_apply (a : Int → Int → Int) (e : Edge W) (i j : Int) :
    setCell a e i j = if i = e.from_ ∧ j = e.to_ then toInt e.weight else a i j := by
  unfold setCell
  by_cases hi : i = e.from_
  · subst hi
    rw [Function.update_same, Function.update_apply]
    simp
  · rw [Function.update_noteq hi]
    simp [hi]

/-- After the edges `es` are written, a cell differs from `-1` iff it did before or one
of the edges addresses it. -/
theorem foldl_setCell (es : List (Edge W)) : ∀ (a : Int → Int → Int),
    (∀ e ∈ es, 0 ≤ e.weight) → ∀ i j,
      (es.foldl setCell a) i j ≠ -1 ↔ (a i j ≠ -1 ∨ ∃ e ∈ es, e.from_ = i ∧ e.to_ = j) := by
  induction es with
  | nil => intro a _ i j; simp
  | cons e rest ih =>
    intro a hw i j
    rw [List.foldl_cons, ih _ (fun e' h' => hw e' (List.mem_cons_of_mem _ h')), setCell_apply]
    have hnn := toInt_nonneg e.weight (hw e (List.mem_cons_self _ _))
    by_cases hc : i = e.from_ ∧ j = e.to_
    · rw [if_pos hc]
      constructor
      · intro _; exact Or.inr ⟨e, List.mem_cons_self _ _, hc.1.symm, hc.2.symm⟩
      · intro _; left; omega
    · rw [if_neg hc]
      constructor
      · rintro (h | ⟨e', h1, h2⟩)
        · exact Or.inl h
        · exact Or.inr ⟨e', List.mem_cons_of_mem _ h1, h2⟩
      · rintro (h | ⟨e', h1, h2⟩)
        · exact Or.inl h
        · rcases List.mem_cons.1 h1 with h3 | h3
          · subst h3; exact absurd ⟨h2.1.symm, h2.2.symm⟩ hc
          · exact Or.inr ⟨e', h3, h2⟩

theorem foldl_fill (g : Graph W) (vs : List Nat) : ∀ (a : Int → Int → Int),
    (∀ v ∈ vs, ∀ e ∈ g.adj (v : Int), 0 ≤ e.weight) → ∀ i j,
      (vs.foldl (fun a (v : Nat) => (g.adj (v : Int)).foldl setCell a) a) i j ≠ -1 ↔
        (a i j ≠ -1 ∨ ∃ v ∈ vs, ∃ e ∈ g.adj (v : Int), e.from_ = i ∧ e.to_ = j) := by
  induction vs with
  | nil => intro a _ i j; simp
  | cons v rest ih =>
    intro a hw i j
    rw [List.foldl_cons, ih _ (fun v' h' => hw v' (List.mem_cons_of_mem _ h')),
      foldl_setCell _ _ (hw v (List.mem_cons_self _ _))]
    constructor
    · rintro ((h | ⟨e, h1, h2⟩) | ⟨v', h1, h2⟩)
      · exact Or.inl h
      · exact Or.inr ⟨v, List.mem_cons_self _ _, e, h1, h2⟩
      · exact Or.inr ⟨v', List.mem_cons_of_mem _ h1, h2⟩
    · rintro (h | ⟨v', h1, h2⟩)
      · exact Or.inl (Or.inl h)
      · rcases List.mem_cons.1 h1 with h3 | h3
        · subst h3; exact Or.inl (Or.inr h2)
        · exact Or.inr ⟨v', h3, h2⟩

/-- In a well-formed graph the matrix of `is_undirected` marks exactly the stored
edges between vertices. -/
theorem fillMatrix_ne (g : Graph W) (hwf : g.WellFormed) (i j : Int) (hi0 : 0 ≤ i)
    (hi1 : i < (g.V : Int)) : g.fillMatrix (fun _ _ => -1) i j ≠ -1 ↔ g.Adj i j := by
  unfold fillMatrix
  rw [foldl_fill g _ _ (fun v hv e he => (hwf v hv e he).2)]
  constructor
  · rintro (h | ⟨v, hv, e, he, h1, h2⟩)
    · exact absurd rfl h
    · have := (hwf v hv e he).1
      rw [h1] at this
      rw [this]
      exact ⟨e, he, h2⟩
  · rintro ⟨e, he, h2⟩
    right
    refine ⟨i.toNat, List.mem_range.2 (by omega), e, by rwa [Int.toNat_of_nonneg hi0], ?_, h2⟩
    have := (hwf i.toNat (List.mem_range.2 (by omega)) e (by rwa [Int.toNat_of_nonneg hi0])).1
    rw [this, Int.toNat_of_nonneg hi0]

omit [LinearOrderedRing W] [FloorRing W] in
theorem foldl_flag {α : Type} (F : Bool → α → Bool) (P : α → Prop)
    (hF : ∀ flag x, F flag x = true ↔ flag = true ∧ P x) (l : List α) :
    ∀ b, l.foldl F b = true ↔ b = true ∧ ∀ x ∈ l, P x := by
  induction l with
  | nil => intro b; simp
  | cons x rest ih =>
    intro b
    rw [List.foldl_cons, ih, hF]
    simp only [List.mem_cons, forall_eq_or_imp]
    tauto

/-- `is_undirected()` returns true iff the matrix is symmetric on `[0, V)`. -/
theorem is_undirected_iff (g : Graph W) :
    g.is_undirected = true ↔ ∀ i ∈ List.range g.V, ∀ j ∈ List.range g.V,
      g.fillMatrix (fun _ _ => -1) (i : Int) (j : Int) =
        g.fillMatrix (fun _ _ => -1) (j : Int) (i : Int) := by
  unfold is_undirected
  simp only
  rw [foldl_flag _ (fun i : Nat => ∀ j ∈ List.range g.V,
      g.fillMatrix (fun _ _ => -1) (i : Int) (j : Int) =
        g.fillMatrix (fun _ _ => -1) (j : Int) (i : Int))]
  · simp
  · intro flag i
    rw [foldl_flag _ (fun j : Nat => g.fillMatrix (fun _ _ => -1) (i : Int) (j : Int) =
        g.fillMatrix (fun _ _ => -1) (j : Int) (i : Int))]
    intro flag j
    by_cases h : g.fillMatrix (fun _ _ => -1) (i : Int) (j : Int) =
        g.fillMatrix (fun _ _ => -1) (j : Int) (i : Int)
    · simp [h]
    · simp [h]

/-- When `is_undirected()` returns true on a well-formed graph, the stored edges between
vertices come in both directions. -/
theorem adj_symm (g : Graph W) (hwf : g.WellFormed) (hu : g.is_undirected = true)
    (a b : Int) (ha0 : 0 ≤ a) (ha1 : a < (g.V : Int)) (hb0 : 0 ≤ b) (hb1 : b < (g.V : Int))
    (h : g.Adj a b) : g.Adj b a := by
  rw [← fillMatrix_ne g hwf b a hb0 hb1]
  rw [← fillMatrix_ne g hwf a b ha0 ha1] at h
  have := (is_undirected_iff g).1 hu a.toNat (List.mem_range.2 (by omega)) b.toNat
    (List.mem_range.2 (by omega))
  rw [Int.toNat_of_nonneg ha0, Int.toNat_of_nonneg hb0] at this
  rw [← this]
  exact h

theorem reach_symm (g : Graph W) (hwf : g.WellFormed) (hin : g.InRange)
    (hu : g.is_undirected = true) (a b : Int) (ha0 : 0 ≤ a) (ha1 : a < (g.V : Int))
    (h : g.Reach a b) : g.Reach b a := by
  induction h with
  | refl => exact Relation.ReflTransGen.refl
  | tail hab hbc ih =>
    rename_i b c
    have hb := InRange.reach_mem g hin a b ha0 ha1 hab
    have hc := InRange.reach_mem g hin a c ha0 ha1 (Relation.ReflTransGen.tail hab hbc)
    exact Relation.ReflTransGen.head (adj_symm g hwf hu b c hb.1 hb.2 hc.1 hc.2 hbc) ih

omit [LinearOrderedRing W] [FloorRing W] in
theorem markDone_apply (v : List Int) : ∀ (done : Int → Int) (x : Int),
    markDone v done x ≠ 0 ↔ (x ∈ v ∨ done x ≠ 0) := by
  induction v with
  | nil => intro done x; simp [markDone]
  | cons y rest ih =>
    intro done x
    have : markDone (y :: rest) done = markDone rest (Function.update done y 1) := rfl
    rw [this, ih, Function.update_apply, List.mem_cons]
    by_cases hxy : x = y
    · simp [hxy]
    · simp [hxy]

omit [LinearOrderedRing W] [FloorRing W] in
/-- The main loop of `connected_components` on a graph whose reachability relation is
symmetric: the components collected at the end hold every vertex once. -/
theorem ccLoop_spec (g : Graph W) (hin : g.InRange)
    (hsymm : ∀ a b, 0 ≤ a → a < (g.V : Int) → g.Reach a b → g.Reach b a) :
    ∀ (rest : List Nat) (done : Int → Int) (result : List (List Int)),
      (∀ i ∈ rest, i < g.V) → CcInv g rest done result →
      ∃ comps, ccLoop g rest done result = .ok comps ∧ comps.flatten.Nodup ∧
        (∀ v ∈ comps.flatten, 0 ≤ v ∧ v < (g.V : Int)) ∧
        (∀ v : Nat, v < g.V → (v : Int) ∈ comps.flatten) := by
  intro rest
  induction rest with
  | nil =>
    intro done result _ hinv
    exact ⟨result, by rw [ccLoop], hinv.nodup, hinv.range,
      fun v hv => hinv.visited v hv (List.not_mem_nil v)⟩
  | cons i rest ih =>
    intro done result hr hinv
    have hrest : ∀ j ∈ rest, j < g.V := fun j hj => hr j (List.mem_cons_of_mem _ hj)
    have hi : i < g.V := hr i (List.mem_cons_self _ _)
    by_cases hd : done (i : Int) = 0
    · have hnot : (i : Int) ∉ result.flatten := fun h => (hinv.done_iff _).2 h hd
      obtain ⟨r, e1, e2, e3⟩ := get_reachable_from_spec g hin (i : Int) (by omega) (by omega)
      have hinv' : CcInv g rest (markDone r done) (result ++ [r]) := by
        have hfl : (result ++ [r]).flatten = result.flatten ++ r := by simp
        refine ⟨?_, ?_, ?_, ?_, ?_⟩
        · intro v
          rw [markDone_apply, hfl, List.mem_append, hinv.done_iff v]
          tauto
        · rw [hfl]
          refine List.Nodup.append hinv.nodup e2 ?_
          intro x hx1 hx2
          have hix := (e3 x).1 hx2
          exact hnot (hinv.closed x hx1 _ (hsymm _ _ (by omega) (by omega) hix))
        · intro v hv
          rw [hfl] at hv
          rcases List.mem_append.1 hv with h | h
          · exact hinv.range v h
          · exact InRange.reach_mem g hin _ v (by omega) (by omega) ((e3 v).1 h)
        · intro v hv w hw
          rw [hfl] at hv ⊢
          rcases List.mem_append.1 hv with h | h
          · exact List.mem_append_left _ (hinv.closed v h w hw)
          · exact List.mem_append_right _
              ((e3 w).2 (Relation.ReflTransGen.trans ((e3 v).1 h) hw))
        · intro v hv hvr
          rw [hfl]
          by_cases hvi : v = i
          · rw [hvi]
            exact List.mem_append_right _ ((e3 _).2 Relation.ReflTransGen.refl)
          · exact List.mem_append_left _
              (hinv.visited v hv (fun h => (List.mem_cons.1 h).elim hvi hvr))
      obtain ⟨comps, c1, c2⟩ := ih _ _ hrest hinv'
      refine ⟨comps, ?_, c2⟩
      rw [ccLoop, if_pos hd, e1]
      exact c1
    · have hmem : (i : Int) ∈ result.flatten := (hinv.done_iff _).1 hd
      have hinv' : CcInv g rest done result := by
        refine ⟨hinv.done_iff, hinv.nodup, hinv.range, hinv.closed, ?_⟩
        intro v hv hvr
        by_cases hvi : v = i
        · rw [hvi]; exact hmem
        · exact hinv.visited v hv (fun h => (List.mem_cons.1 h).elim hvi hvr)
      obtain ⟨comps, c1, c2⟩ := ih _ _ hrest hinv'
      refine ⟨comps, ?_, c2⟩
      rw [ccLoop, if_neg hd]
      exact c1

end Undirected

end Graph

/-- C10: on a graph (built by the constructor and `add_edge` calls) whose edge
endpoints are vertices and on which `is_undirected()` returns true,
`connected_components()` returns a list of components in which every vertex of
`[0, V)` occurs exactly once over all components together, so in exactly one
component and once there, and no other number occurs. -/
theorem connected_components_partition {W : Type} [LinearOrderedRing W] [FloorRing W]
    (g : Graph W) (hb : g.Built) (hin : g.InRange) (hu : g.is_undirected = true) :
    ∃ comps, g.connected_components = .ok comps ∧
      (∀ v : Int, 0 ≤ v → v < (g.V : Int) → comps.flatten.count v = 1) ∧
      (∀ c ∈ comps, ∀ v ∈ c, 0 ≤ v ∧ v < (g.V : Int)) := by
  have hwf := Graph.Built.wellFormed g hb
  have hinit : Graph.CcInv g (List.range g.V) (fun _ => 0) [] :=
    ⟨by simp, by simp, by simp, by simp, fun v hv hn => absurd (List.mem_range.2 hv) hn⟩
  obtain ⟨comps, e1, e2, e3, e4⟩ := Graph.ccLoop_spec g hin
    (fun a b ha0 ha1 => Graph.reach_symm g hwf hin hu a b ha0 ha1)
    (List.range g.V) _ _ (fun i hi => List.mem_range.1 hi) hinit
  refine ⟨comps, ?_, ?_, ?_⟩
  · unfold Graph.connected_components
    rw [if_neg (by rw [hu]; exact Bool.noConfusion)]
    exact e1
  · intro v h0 h1
    have := e4 v.toNat (by omega)
    rw [Int.toNat_of_nonneg h0] at this
    exact List.count_eq_one_of_mem e2 this
  · intro c hc v hv
    exact e3 v (List.mem_flatten.2 ⟨c, hc, hv⟩)

/-- C10 on the graph of `test.cpp`: one component. -/
theorem connected_components_partition_witness :
    exGraph.connected_components = .ok [[0, 1, 3, 2]] ∧
    ∃ comps, exGraph.connected_components = .ok comps ∧
      (∀ v : Int, 0 ≤ v → v < (exGraph.V : Int) → comps.flatten.count v = 1) ∧
      (∀ c ∈ comps, ∀ v ∈ c, 0 ≤ v ∧ v < (exGraph.V : Int)) :=
  ⟨by decide, connected_components_partition exGraph
    (.add_edge _ 0 3 3 (.add_edge _ 3 0 3 (.add_edge _ 3 2 2 (.add_edge _ 2 3 2
      (.add_edge _ 1 0 4 (.add_edge _ 0 1 4 (.new 4)))))))
    (by decide) (by decide)⟩

/-! ## `shortest_paths` -/

theorem vget_of_lt {α : Type} (l : List α) (i : Int) (d : α) (h0 : 0 ≤ i)
    (h1 : i < (l.length : Int)) : ∃ h : i.toNat < l.length, vget l i d = l.get ⟨i.toNat, h⟩ := by
  refine ⟨by omega, ?_⟩
  unfold vget
  rw [if_neg (by omega), List.getD_eq_getElem l d (by omega)]
  rfl

theorem length_vset {α : Type} (l : List α) (i : Int) (x : α) :
    (vset l i x).length = l.length := by
  unfold vset
  split_ifs
  · rfl
  · exact List.length_set _ _ _

theorem vget_vset_same {α : Type} (l : List α) (i : Int) (x d : α) (h0 : 0 ≤ i)
    (h1 : i < (l.length : Int)) : vget (vset l i x) i d = x := by
  unfold vget vset
  rw [if_neg (by omega), if_neg (by omega), List.getD_eq_getElem _ d (by simp; omega)]
  simp

theorem vget_vset_ne {α : Type} (l : List α) (i j : Int) (x d : α) (hij : i ≠ j) :
    vget (vset l i x) j d = vget l j d := by
  unfold vget vset
  by_cases hi : i < 0
  · rw [if_pos hi]
  · by_cases hj : j < 0
    · rw [if_pos hj, if_pos hj]
    · rw [if_neg hi, if_neg hj, if_neg hj]
      simp only [List.getD_eq_getElem?_getD]
      rw [List.getElem?_set_ne (by omega)]

theorem vget_replicate {α : Type} (n : Nat) (x d : α) (i : Int) (h0 : 0 ≤ i)
    (h1 : i < (n : Int)) : vget (List.replicate n x) i d = x := by
  unfold vget
  rw [if_neg (by omega), List.getD_eq_getElem _ d (by simp; omega)]
  simp

namespace Graph

variable {W : Type}

section Dijkstra

variable [LinearOrderedRing W]

theorem DBL_MAX_pos : (0 : W) < DBL_MAX := by
  unfold DBL_MAX
  have : 0 < 2 ^ 1024 - 2 ^ 971 := by norm_num
  exact_mod_cast this

omit [LinearOrderedRing W] in
theorem checkSources_ok (g : Graph W) (sources : List Int) (h : g.ValidSources sources) :
    checkSources g sources = .ok () := by
  induction sources with
  | nil => rfl
  | cons s rest ih =>
    have hs := h s (List.mem_cons_self _ _)
    rw [checkSources, if_neg (by omega)]
    exact ih (fun x hx => h x (List.mem_cons_of_mem _ hx))

theorem length_zeroSources (sources : List Int) : ∀ (dist : List W),
    (zeroSources sources dist).length = dist.length := by
  induction sources with
  | nil => intro dist; rfl
  | cons s rest ih =>
    intro dist
    have : zeroSources (s :: rest) dist = zeroSources rest (vset dist s 0) := rfl
    rw [this, ih, length_vset]

theorem vget_zeroSources (sources : List Int) : ∀ (dist : List W) (v : Int), 0 ≤ v →
    v < (dist.length : Int) →
    vget (zeroSources sources dist) v DBL_MAX =
      if v ∈ sources ∨ vget dist v DBL_MAX = 0 then 0 else vget dist v DBL_MAX := by
  induction sources with
  | nil =>
    intro dist v _ _
    have : zeroSources [] dist = dist := rfl
    rw [this]
    split_ifs with h
    · simpa using h
    · rfl
  | cons s rest ih =>
    intro dist v h0 h1
    have : zeroSources (s :: rest) dist = zeroSources rest (vset dist s 0) := rfl
    rw [this, ih _ v h0 (by rw [length_vset]; exact h1)]
    by_cases hvs : s = v
    · subst hvs
      rw [vget_vset_same _ _ _ _ h0 h1]
      simp
    · rw [vget_vset_ne _ _ _ _ _ hvs]
      have : v ≠ s := fun e => hvs e.symm
      simp [this]

/-- The loop that inserts the vertices `rest` after the vertices before them. -/
theorem insertAll_spec (g : Graph W) (dist : List W) : ∀ (rest : List Nat) (k : Nat)
    (pq : MinPQ W), rest = List.range' k (g.V - k) → k ≤ g.V → pq.Inv →
    pq.maxN = (g.V : Int) → pq.n = (k : Int) →
    (∀ v, 0 ≤ v → v < (g.V : Int) → (pq.qp v = -1 ↔ (k : Int) ≤ v)) →
    (∀ v, 0 ≤ v → v < (k : Int) → pq.keys v = vget dist v DBL_MAX) →
    ∃ pq', insertAll dist rest pq = .ok pq' ∧ pq'.Inv ∧ pq'.maxN = (g.V : Int) ∧
      pq'.n = (g.V : Int) ∧ (∀ v, 0 ≤ v → v < (g.V : Int) → pq'.qp v ≠ -1) ∧
      (∀ v, 0 ≤ v → v < (g.V : Int) → pq'.keys v = vget dist v DBL_MAX) := by
  intro rest
  induction rest with
  | nil =>
    intro k pq hrest hk hinv hmax hn hq hkeys
    have hkV : k = g.V := by
      by_contra hne
      have : g.V - k = (g.V - k - 1) + 1 := by omega
      rw [this, List.range'_succ] at hrest
      exact List.noConfusion hrest
    subst hkV
    refine ⟨pq, rfl, hinv, hmax, hn, ?_, hkeys⟩
    intro v h0 h1 e
    have := (hq v h0 h1).1 e
    omega
  | cons i rest ih =>
    intro k pq hrest hk hinv hmax hn hq hkeys
    have hkV : k < g.V := by
      by_contra hne
      have : g.V - k = 0 := by omega
      rw [this] at hrest
      exact List.noConfusion hrest
    have h1 : g.V - k = (g.V - (k + 1)) + 1 := by omega
    rw [h1, List.range'_succ] at hrest
    injection hrest with hi hrest
    subst hi
    have hqi : pq.qp (i : Int) = -1 := (hq i (by omega) (by omega)).2 le_rfl
    obtain ⟨e1, e2, e3, e4, e5, e6⟩ := MinPQ.insert_spec pq (i : Int)
      (vget dist (i : Int) DBL_MAX) hinv (by omega) (by rw [hmax]; omega) hqi
    obtain ⟨pq', c1, c2⟩ := ih (i + 1) (pq.insert (i : Int) (vget dist (i : Int) DBL_MAX)).2
      hrest (by omega) e2 (by rw [e3, hmax]) (by rw [e4, hn]; push_cast; rfl)
      (by
        intro v h0 h1
        rw [e6 v, hq v h0 h1]
        push_cast
        omega)
      (by
        intro v h0 h1
        rw [e5, Function.update_apply]
        split_ifs with hv
        · rw [hv]
        · exact hkeys v h0 (by push_cast at h1; omega))
    refine ⟨pq', ?_, c2⟩
    rw [insertAll]
    have : pq.insert (i : Int) (vget dist (i : Int) DBL_MAX) =
        (.ok (), (pq.insert (i : Int) (vget dist (i : Int) DBL_MAX)).2) := by
      rw [← e1]
    rw [this]
    exact c1

theorem NonNeg.weight (g : Graph W) (h : g.NonNeg) (v : Int) (h0 : 0 ≤ v)
    (h1 : v < (g.V : Int)) (e : Edge W) (he : e ∈ g.adj v) : 0 ≤ e.weight :=
  h v.toNat (List.mem_range.2 (by omega)) e (by rwa [Int.toNat_of_nonneg h0])

/-- The scan of (a suffix of) the adjacency list of the removed vertex `u`: no
`decreaseKey` throws, and the invariant is kept. -/
theorem relaxEdges_spec (g : Graph W) (hin : g.InRange) (hnn : g.NonNeg) (sources : List Int)
    (order : List Int) (u : Int) (hu : u ∈ order) :
    ∀ (es : List (Edge W)) (dist : List W) (parent : List Int) (pq : MinPQ W),
      (∀ e ∈ es, e ∈ g.adj u) → DCore g sources dist parent pq order →
      Relaxed g dist order u es →
      (∀ x ∈ order, vget dist x DBL_MAX ≤ vget dist u DBL_MAX) →
      ∃ dist' parent' pq', relaxEdges u es (dist, parent, pq) = .ok (dist', parent', pq') ∧
        DCore g sources dist' parent' pq' order ∧ Relaxed g dist' order u [] ∧
        pq'.n = pq.n := by
  intro es
  induction es with
  | nil =>
    intro dist parent pq _ hcore hrel _
    exact ⟨dist, parent, pq, rfl, hcore, hrel, rfl⟩
  | cons e rest ih =>
    intro dist parent pq hes hcore hrel hE
    have hrest : ∀ e' ∈ rest, e' ∈ g.adj u := fun e' h' => hes e' (List.mem_cons_of_mem _ h')
    have he : e ∈ g.adj u := hes e (List.mem_cons_self _ _)
    have hur := hcore.order_range u hu
    have hto := InRange.to_mem g hin u hur.1 hur.2 e he
    have hw := NonNeg.weight g hnn u hur.1 hur.2 e he
    by_cases hc : vget dist u DBL_MAX + e.weight < vget dist e.to_ DBL_MAX
    · -- the edge is relaxed
      have hnd : e.to_ ∉ order := by
        intro hmem
        have h1 := hE _ hmem
        have h2 : vget dist u DBL_MAX ≤ vget dist u DBL_MAX + e.weight :=
          le_add_of_nonneg_right hw
        exact absurd (lt_of_lt_of_le hc (le_trans h1 h2)) (lt_irrefl _)
      have hne : e.to_ ≠ u := fun h => hnd (h ▸ hu)
      have hq : pq.qp e.to_ ≠ -1 := fun h => hnd ((hcore.done_iff _ hto.1 hto.2).2 h)
      have hcont : pq.Contained e.to_ := ⟨hto.1, by rw [hcore.maxN]; exact hto.2, hq⟩
      have hkey := hcore.keys _ hto.1 hto.2 hq
      have hlen : e.to_ < (dist.length : Int) := by rw [hcore.len_d]; exact hto.2
      have hlenp : e.to_ < (parent.length : Int) := by rw [hcore.len_p]; exact hto.2
      generalize hk : vget dist u DBL_MAX + e.weight = k at hc
      have hk0 : 0 ≤ k := by
        rw [← hk]; exact add_nonneg (hcore.bounds u hur.1 hur.2).1 hw
      have hku : vget dist u DBL_MAX ≤ k := by
        rw [← hk]; exact le_add_of_nonneg_right hw
      have hnew : vget (vset dist e.to_ k) e.to_ DBL_MAX = k :=
        vget_vset_same _ _ _ _ hto.1 hlen
      have hold : ∀ v, v ≠ e.to_ → vget (vset dist e.to_ k) v DBL_MAX = vget dist v DBL_MAX :=
        fun v hv => vget_vset_ne _ _ _ _ _ (fun h => hv h.symm)
      have hpnew : vget (vset parent e.to_ u) e.to_ (-1) = u :=
        vget_vset_same _ _ _ _ hto.1 hlenp
      have hpold : ∀ v, v ≠ e.to_ → vget (vset parent e.to_ u) v (-1) = vget parent v (-1) :=
        fun v hv => vget_vset_ne _ _ _ _ _ (fun h => hv h.symm)
      have hordne : ∀ x ∈ order, x ≠ e.to_ := fun x hx h => hnd (h ▸ hx)
      obtain ⟨d1, d2, d3, d4, d5, d6⟩ := MinPQ.decreaseKey_spec pq e.to_ k hcore.pqinv hcont
        (by rw [hkey]; exact hc)
      have hdec : pq.decreaseKey e.to_ k = (.ok (), (pq.decreaseKey e.to_ k).2) := by
        rw [← d1]
      have hcore' : DCore g sources (vset dist e.to_ k) (vset parent e.to_ u)
          (pq.decreaseKey e.to_ k).2 order := by
        have hsrcne : ∀ s ∈ sources, s ≠ e.to_ := by
          intro s hs h
          have hs0 := hcore.src s hs
          rw [h] at hs0
          rw [hs0] at hc
          exact absurd (lt_of_le_of_lt hk0 hc) (lt_irrefl _)
        refine ⟨d2, by rw [d3, hcore.maxN], by rw [length_vset, hcore.len_d],
          by rw [length_vset, hcore.len_p], hcore.order_nodup, ?_, hcore.order_range,
          ?_, ?_, ?_, ?_, ?_,
          fun s hs => by rw [hpold s (hsrcne s hs)]; exact hcore.src_par s hs⟩
        · intro v h0 h1
          rw [d6 v]; exact hcore.done_iff v h0 h1
        · intro v h0 h1 hv
          rw [d5, Function.update_apply]
          split_ifs with hvt
          · rw [hvt, hnew]
          · rw [hold v hvt]
            exact hcore.keys v h0 h1 (fun h => hv ((d6 v).2 h))
        · intro s hs
          have hs0 := hcore.src s hs
          have : s ≠ e.to_ := by
            intro h
            rw [h] at hs0
            rw [hs0] at hc
            exact absurd (lt_of_le_of_lt hk0 hc) (lt_irrefl _)
          rw [hold s this]; exact hs0
        · intro v h0 h1
          by_cases hvt : v = e.to_
          · rw [hvt, hnew]
            exact ⟨hk0, le_trans (le_of_lt hc) (hcore.bounds _ hto.1 hto.2).2⟩
          · rw [hold v hvt]; exact hcore.bounds v h0 h1
        · intro x hx v h0 h1 hv
          rw [hold x (hordne x hx)]
          by_cases hvt : v = e.to_
          · rw [hvt, hnew]
            exact le_trans (hE x hx) hku
          · rw [hold v hvt]; exact hcore.mono x hx v h0 h1 hv
        · intro v h0 h1
          by_cases hvt : v = e.to_
          · right
            obtain ⟨l1, l2, hl⟩ := List.append_of_mem hu
            rw [hvt, hpnew, hnew, hold u (fun h => hne h.symm)]
            refine ⟨l1, l2, e, hl, ?_, hne, he, rfl, hk.symm,
              lt_of_lt_of_le hc (hcore.bounds _ hto.1 hto.2).2⟩
            intro hmem
            exact hnd (by rw [hl]; exact List.mem_append_left _ hmem)
          · rw [hpold v hvt, hold v hvt]
            rcases hcore.par v h0 h1 with hl | ⟨l1, l2, e', p1, p2, p3, p4, p5, p6, p7⟩
            · exact Or.inl hl
            · right
              have hpm : vget parent v (-1) ∈ order := by
                rw [p1]; exact List.mem_append_right _ (List.mem_cons_self _ _)
              rw [hold _ (hordne _ hpm)]
              exact ⟨l1, l2, e', p1, p2, p3, p4, p5, p6, p7⟩
      have hrel' : Relaxed g (vset dist e.to_ k) order u rest := by
        intro x hx e' he'
        rw [hold x (hordne x hx)]
        have hle : vget (vset dist e.to_ k) e'.to_ DBL_MAX ≤ vget dist e'.to_ DBL_MAX := by
          by_cases h : e'.to_ = e.to_
          · rw [h, hnew]; exact le_of_lt hc
          · rw [hold _ h]
        rcases hrel x hx e' he' with h | ⟨h1, h2⟩
        · exact Or.inl (le_trans hle h)
        · rcases List.mem_cons.1 h2 with h3 | h3
          · left
            rw [h3, hnew, h1, hk]
          · exact Or.inr ⟨h1, h3⟩
      have hE' : ∀ x ∈ order, vget (vset dist e.to_ k) x DBL_MAX ≤
          vget (vset dist e.to_ k) u DBL_MAX := by
        intro x hx
        rw [hold x (hordne x hx), hold u (fun h => hne h.symm)]
        exact hE x hx
      obtain ⟨dist', parent', pq', r1, r2, r3, r4⟩ := ih _ _ _ hrest hcore' hrel' hE'
      refine ⟨dist', parent', pq', ?_, r2, r3, by rw [r4, d4]⟩
      rw [relaxEdges, hk, if_pos hc]
      simp only [hnew]
      rw [hdec]
      exact r1
    · -- the edge is already relaxed
      have hrel' : Relaxed g dist order u rest := by
        intro x hx e' he'
        rcases hrel x hx e' he' with h | ⟨h1, h2⟩
        · exact Or.inl h
        · rcases List.mem_cons.1 h2 with h3 | h3
          · left
            rw [h3, h1]
            exact not_lt.1 hc
          · exact Or.inr ⟨h1, h3⟩
      obtain ⟨dist', parent', pq', r1, r2⟩ := ih _ _ _ hrest hcore hrel' hE
      refine ⟨dist', parent', pq', ?_, r2⟩
      rw [relaxEdges, if_neg hc]
      exact r1

/-- The main loop of `shortest_paths` empties the queue before its budget is used up;
no queue operation throws, and the invariant holds at the end. -/
theorem dijkstraLoop_spec (g : Graph W) (hin : g.InRange) (hnn : g.NonNeg)
    (sources : List Int) (fuel : Nat) :
    ∀ (dist : List W) (parent : List Int) (pq : MinPQ W) (order : List Int),
      DCore g sources dist parent pq order → Relaxed g dist order 0 [] → pq.n ≤ fuel →
      ∃ dist' parent' pq' order', dijkstraLoop g fuel (dist, parent, pq) = .ok (dist', parent') ∧
        DCore g sources dist' parent' pq' order' ∧ Relaxed g dist' order' 0 [] ∧ pq'.n = 0 := by
  induction fuel with
  | zero =>
    intro dist parent pq order hcore hrel hf
    have hn : pq.n = 0 := by have := hcore.pqinv.n_nonneg; omega
    refine ⟨dist, parent, pq, order, ?_, hcore, hrel, hn⟩
    rw [dijkstraLoop]
    simp [MinPQ.isEmpty, hn]
  | succ f ih =>
    intro dist parent pq order hcore hrel hf
    by_cases hn : pq.n = 0
    · refine ⟨dist, parent, pq, order, ?_, hcore, hrel, hn⟩
      rw [dijkstraLoop]
      simp [MinPQ.isEmpty, hn]
    · obtain ⟨m1, m2, m3, m4, m5, m6, m7, m8⟩ := MinPQ.delMin_spec pq hcore.pqinv hn
      generalize hu : pq.pq 1 = u at m1 m6 m7 m8
      have hur : 0 ≤ u ∧ u < (g.V : Int) := ⟨m7.1, by rw [← hcore.maxN]; exact m7.2.1⟩
      have hund : u ∉ order := fun h => m7.2.2 ((hcore.done_iff u hur.1 hur.2).1 h)
      have hcont : ∀ v, 0 ≤ v → v < (g.V : Int) → v ∉ order → pq.Contained v :=
        fun v h0 h1 hv => ⟨h0, by rw [hcore.maxN]; exact h1,
          fun h => hv ((hcore.done_iff v h0 h1).2 h)⟩
      have hE : ∀ x ∈ order ++ [u], vget dist x DBL_MAX ≤ vget dist u DBL_MAX := by
        intro x hx
        rcases List.mem_append.1 hx with h | h
        · exact hcore.mono x h u hur.1 hur.2 hund
        · rw [List.mem_singleton.1 h]
      have hcore1 : DCore g sources dist parent pq.delMin.2 (order ++ [u]) := by
        refine ⟨m2, by rw [m3, hcore.maxN], hcore.len_d, hcore.len_p, ?_, ?_, ?_, ?_,
          hcore.src, hcore.bounds, ?_, ?_, hcore.src_par⟩
        · exact List.Nodup.append hcore.order_nodup (List.nodup_singleton _)
            (by simpa using hund)
        · intro v h0 h1
          rw [List.mem_append, List.mem_singleton, m6 v, hcore.done_iff v h0 h1]
          tauto
        · intro v hv
          rcases List.mem_append.1 hv with h | h
          · exact hcore.order_range v h
          · rw [List.mem_singleton.1 h]; exact hur
        · intro v h0 h1 hv
          rw [m5]
          exact hcore.keys v h0 h1 (fun h => hv ((m6 v).2 (Or.inr h)))
        · intro x hx v h0 h1 hv
          have hv1 : v ∉ order := fun h => hv (List.mem_append_left _ h)
          rcases List.mem_append.1 hx with h | h
          · exact hcore.mono x h v h0 h1 hv1
          · rw [List.mem_singleton.1 h]
            have hcv := hcont v h0 h1 hv1
            have := m8 v hcv
            rw [hcore.keys u hur.1 hur.2 m7.2.2, hcore.keys v h0 h1 hcv.2.2] at this
            exact this
        · intro v h0 h1
          rcases hcore.par v h0 h1 with hl | ⟨l1, l2, e', p1, p2⟩
          · exact Or.inl hl
          · right
            exact ⟨l1, l2 ++ [u], e', by rw [p1]; simp, p2⟩
      have hrel1 : Relaxed g dist (order ++ [u]) u (g.adj u) := by
        intro x hx e he
        rcases List.mem_append.1 hx with h | h
        · rcases hrel x h e he with h2 | ⟨_, h2⟩
          · exact Or.inl h2
          · exact absurd h2 (List.not_mem_nil e)
        · have := List.mem_singleton.1 h
          subst this
          exact Or.inr ⟨rfl, he⟩
      obtain ⟨dist', parent', pq', r1, r2, r3, r4⟩ := relaxEdges_spec g hin hnn sources
        (order ++ [u]) u (by simp) (g.adj u) dist parent pq.delMin.2 (fun _ h => h)
        hcore1 hrel1 hE
      have hrel2 : Relaxed g dist' (order ++ [u]) 0 [] := by
        intro x hx e he
        rcases r3 x hx e he with h2 | ⟨_, h2⟩
        · exact Or.inl h2
        · exact absurd h2 (List.not_mem_nil e)
      obtain ⟨dist2, parent2, pq2, order2, c1, c2⟩ := ih dist' parent' pq' (order ++ [u]) r2 hrel2
        (by rw [r4, m4]; omega)
      refine ⟨dist2, parent2, pq2, order2, ?_, c2⟩
      have hdel : pq.delMin = (.ok u, pq.delMin.2) := by rw [← m1]
      rw [dijkstraLoop]
      simp only [MinPQ.isEmpty, beq_iff_eq, hn, if_false, Bool.false_eq_true]
      rw [hdel]
      simp only [r1]
      exact c1

/-- The outcome of `shortest_paths` on a graph with in-range endpoints and non-negative
weights and on valid sources: the call returns, and the vectors satisfy the invariant
with an empty queue. -/
theorem shortest_paths_spec (g : Graph W) (hin : g.InRange) (hnn : g.NonNeg)
    (sources : List Int) (hs : g.ValidSources sources) :
    ∃ dist parent pq order, g.shortest_paths sources = .ok (dist, parent) ∧
      DCore g sources dist parent pq order ∧ Relaxed g dist order 0 [] ∧
      ∀ v, 0 ≤ v → v < (g.V : Int) → v ∈ order := by
  have hnew : MinPQ.new (g.V : Int) (DBL_MAX : W) =
      .ok ⟨(g.V : Int), 0, fun _ => 0, fun _ => -1, fun _ => DBL_MAX⟩ := by
    unfold MinPQ.new
    rw [if_neg (by omega)]
  obtain ⟨i1, i2, i3, i4, _⟩ := MinPQ.new_inv _ _ _ hnew
  generalize hd0 : zeroSources sources (List.replicate g.V (DBL_MAX : W)) = dist0
  have hlen0 : dist0.length = g.V := by
    rw [← hd0, length_zeroSources, List.length_replicate]
  have hval0 : ∀ v, 0 ≤ v → v < (g.V : Int) →
      vget dist0 v DBL_MAX = if v ∈ sources then 0 else DBL_MAX := by
    intro v h0 h1
    rw [← hd0, vget_zeroSources _ _ v h0 (by rw [List.length_replicate]; exact h1),
      vget_replicate _ _ _ _ h0 h1]
    have : (DBL_MAX : W) ≠ 0 := ne_of_gt DBL_MAX_pos
    simp [this]
  obtain ⟨pq, q1, q2, q3, q4, q5, q6⟩ := insertAll_spec g dist0 (List.range g.V) 0 _
    (by rw [List.range_eq_range']; rfl) (Nat.zero_le _) i1 i2 i3
    (fun v h0 _ => by simp [i4 v, h0]) (fun v h0 h1 => by push_cast at h1; omega)
  have hcore0 : DCore g sources dist0 (List.replicate g.V (-1)) pq [] := by
    refine ⟨q2, q3, hlen0, List.length_replicate _ _, List.nodup_nil, ?_, ?_, ?_, ?_, ?_,
      ?_, ?_, fun s hs' => vget_replicate _ _ _ _ (hs s hs').1 (hs s hs').2⟩
    · intro v h0 h1
      simp [q5 v h0 h1]
    · intro v hv; exact absurd hv (List.not_mem_nil v)
    · intro v h0 h1 _; exact q6 v h0 h1
    · intro s hs'
      have := hs s hs'
      rw [hval0 s this.1 this.2, if_pos hs']
    · intro v h0 h1
      rw [hval0 v h0 h1]
      split_ifs
      · exact ⟨le_rfl, le_of_lt DBL_MAX_pos⟩
      · exact ⟨le_of_lt DBL_MAX_pos, le_rfl⟩
    · intro u hu; exact absurd hu (List.not_mem_nil u)
    · intro v h0 h1
      left
      refine ⟨vget_replicate _ _ _ _ h0 h1, ?_⟩
      rw [hval0 v h0 h1]
      by_cases hv : v ∈ sources
      · right; exact ⟨hv, by rw [if_pos hv]⟩
      · left; rw [if_neg hv]
  have hrel0 : Relaxed g dist0 [] 0 [] := fun x hx => absurd hx (List.not_mem_nil x)
  obtain ⟨dist, parent, pq', order, r1, r2, r3, r4⟩ := dijkstraLoop_spec g hin hnn sources g.V
    dist0 _ pq [] hcore0 hrel0 (by rw [q4])
  refine ⟨dist, parent, pq', order, ?_, r2, r3, ?_⟩
  · unfold shortest_paths
    simp only [hnew, checkSources_ok g sources hs, hd0, q1]
    exact r1
  · intro v h0 h1
    rw [r2.done_iff v h0 h1]
    rcases r2.pqinv.bk.2 v h0 (by rw [r2.maxN]; exact h1) with h | ⟨h2, h3, _⟩
    · exact h
    · omega

theorem PathW.toReach (g : Graph W) (a b : Int) (w : W) (h : PathW g a b w) : g.Reach a b := by
  induction h with
  | nil => exact Relation.ReflTransGen.refl
  | snoc b w e _ he ih => exact Relation.ReflTransGen.tail ih ⟨e, he, rfl⟩

theorem ParentWalk.path (g : Graph W) (sources parent : List Int) (x : Int) (w : W)
    (h : ParentWalk g sources parent x w) : ∃ s ∈ sources, PathW g s x w := by
  induction h with
  | root s hs _ => exact ⟨s, hs, PathW.nil s⟩
  | step x w e _ _ he hx ih =>
    obtain ⟨s, hs, hp⟩ := ih
    exact ⟨s, hs, hx ▸ PathW.snoc s _ w e hp he⟩

/-- At the end of `shortest_paths`, `dist[v]` is at most the weight of every path from a
source to `v`. -/
theorem DCore.le_path (g : Graph W) (hin : g.InRange) (sources : List Int) (dist : List W)
    (parent : List Int) (pq : MinPQ W) (order : List Int)
    (hcore : DCore g sources dist parent pq order) (hrel : Relaxed g dist order 0 [])
    (hall : ∀ v, 0 ≤ v → v < (g.V : Int) → v ∈ order) (hs : g.ValidSources sources)
    (s : Int) (hsrc : s ∈ sources) (v : Int) (w : W) (hp : PathW g s v w) :
    (0 ≤ v ∧ v < (g.V : Int)) ∧ vget dist v DBL_MAX ≤ w := by
  induction hp with
  | nil => exact ⟨hs s hsrc, le_of_eq (hcore.src s hsrc)⟩
  | snoc b w e _ he ih =>
    obtain ⟨hb, hle⟩ := ih
    refine ⟨InRange.to_mem g hin b hb.1 hb.2 e he, ?_⟩
    rcases hrel b (hall b hb.1 hb.2) e he with h | ⟨_, h⟩
    · exact le_trans h (add_le_add_right hle _)
    · exact absurd h (List.not_mem_nil e)

/-- At the end of `shortest_paths`, the parents of a vertex with `dist[v] < DBL_MAX`
lead back to a source along stored edges whose weights sum to `dist[v]`. -/
theorem DCore.parentWalk (g : Graph W) (hnn : g.NonNeg) (sources : List Int) (dist : List W)
    (parent : List Int) (pq : MinPQ W) (order : List Int)
    (hcore : DCore g sources dist parent pq order) :
    ∀ (n : Nat) (v : Int), order.indexOf v = n → 0 ≤ v → v < (g.V : Int) →
      vget dist v DBL_MAX < DBL_MAX →
      ParentWalk g sources parent v (vget dist v DBL_MAX) := by
  intro n
  induction n using Nat.strong_induction_on with
  | _ n ih =>
    intro v hn h0 h1 hlt
    rcases hcore.par v h0 h1 with ⟨hp, hd | ⟨hsrc, hd⟩⟩ | ⟨l1, l2, e, p1, p2, p3, p4, p5, p6, _⟩
    · exact absurd hd (ne_of_lt hlt)
    · rw [hd]; exact ParentWalk.root v hsrc hp
    · have hpm : vget parent v (-1) ∈ order := by
        rw [p1]; exact List.mem_append_right _ (List.mem_cons_self _ _)
      have hpr := hcore.order_range _ hpm
      have hw := NonNeg.weight g hnn _ hpr.1 hpr.2 e p4
      have hnd := hcore.order_nodup
      rw [p1] at hnd
      have hpl1 : vget parent v (-1) ∉ l1 := fun h =>
        (List.nodup_append.1 hnd).2.2 h (List.mem_cons_self _ _)
      have hidx : order.indexOf (vget parent v (-1)) < n := by
        rw [← hn, p1, List.indexOf_append_of_not_mem hpl1, List.indexOf_cons_self,
          List.indexOf_append_of_not_mem p2, List.indexOf_cons_ne _ (Ne.symm p3)]
        omega
      have hplt : vget dist (vget parent v (-1)) DBL_MAX < DBL_MAX :=
        lt_of_le_of_lt (by rw [p6]; exact le_add_of_nonneg_right hw) hlt
      have hwalk := ih _ hidx (vget parent v (-1)) rfl hpr.1 hpr.2 hplt
      rw [p6]
      exact ParentWalk.step v _ e (by omega) hwalk p4 p5

end Dijkstra

end Graph

/-- The paths of `satGraph` from vertex 0: the empty path, the first edge, both edges. -/
theorem satGraph_paths (a b : Int) (w : Int) (h : Graph.PathW satGraph a b w) (ha : a = 0) :
    (b = 0 ∧ w = 0) ∨ (b = 1 ∧ w = DBL_MAX) ∨ (b = 2 ∧ w = DBL_MAX + DBL_MAX) := by
  induction h with
  | nil => exact Or.inl ⟨ha, rfl⟩
  | snoc b w e _ he ih =>
    have h0 : satGraph.adj 0 = [⟨0, 1, DBL_MAX⟩] := by decide!
    have h1 : satGraph.adj 1 = [⟨1, 2, DBL_MAX⟩] := by decide!
    have h2 : satGraph.adj 2 = [] := by decide!
    rcases ih with ⟨hb, hw⟩ | ⟨hb, hw⟩ | ⟨hb, hw⟩
    · rw [hb, h0, List.mem_singleton] at he
      rw [he, hw]
      right; left
      exact ⟨rfl, zero_add _⟩
    · rw [hb, h1, List.mem_singleton] at he
      rw [he, hw]
      right; right
      exact ⟨rfl, rfl⟩
    · rw [hb, h2] at he
      exact absurd he (List.not_mem_nil e)

/-- C1 as stated fails: on the chain `0 -> 1 -> 2` of two edges of weight `DBL_MAX`,
with source 0, vertex 2 is reached by exactly the paths of total weight `2 * DBL_MAX`,
but `dist[2]` is `DBL_MAX`, which is the weight of no path from the source to 2. -/
theorem shortest_paths_dist_counterexample :
    satGraph.InRange ∧ satGraph.NonNeg ∧ satGraph.ValidSources [0] ∧
    satGraph.shortest_paths [0] = .ok ([0, DBL_MAX, DBL_MAX], [-1, -1, -1]) ∧
    Graph.PathW satGraph 0 2 (DBL_MAX + DBL_MAX) ∧
    (∀ w, Graph.PathW satGraph 0 2 w → w = DBL_MAX + DBL_MAX) ∧
    ¬ ∃ s ∈ [(0 : Int)], Graph.PathW satGraph s 2
      (vget ([0, DBL_MAX, DBL_MAX] : List Int) 2 DBL_MAX) := by
  have hpos : (0 : Int) < DBL_MAX := Graph.DBL_MAX_pos
  have hall : ∀ w, Graph.PathW satGraph 0 2 w → w = DBL_MAX + DBL_MAX := by
    intro w hw
    rcases satGraph_paths 0 2 w hw rfl with ⟨h, _⟩ | ⟨h, _⟩ | ⟨_, h⟩
    · omega
    · omega
    · exact h
  refine ⟨by decide!, by decide!, by decide!, by decide!, ?_, hall, ?_⟩
  · have h1 : Graph.PathW satGraph 0 1 (0 + DBL_MAX) :=
      Graph.PathW.snoc 0 0 0 ⟨0, 1, DBL_MAX⟩ (Graph.PathW.nil 0) (by decide!)
    have h2 := Graph.PathW.snoc 0 1 _ ⟨1, 2, DBL_MAX⟩ h1 (by decide!)
    rw [zero_add] at h2
    exact h2
  · rintro ⟨s, hs, hp⟩
    rw [List.mem_singleton] at hs
    subst hs
    have h1 := hall _ hp
    have h2 : vget ([0, DBL_MAX, DBL_MAX] : List Int) 2 DBL_MAX = DBL_MAX := rfl
    rw [h2] at h1
    omega

/-- C1, amended: on a graph with in-range endpoints and weights `≥ 0` and on valid
sources, `shortest_paths` returns a vector `dist` of length `V` in which `dist[v]` is
the minimum of `DBL_MAX` and the least total weight of a path from a source to `v`:
it is at most `DBL_MAX` and at most the weight of every such path, it is the weight
of such a path when it is below `DBL_MAX`, and it is `DBL_MAX` when no source reaches
`v`. -/
theorem shortest_paths_dist {W : Type} [LinearOrderedRing W] (g : Graph W)
    (hin : g.InRange) (hnn : g.NonNeg) (sources : List Int) (hs : g.ValidSources sources) :
    ∃ dist parent, g.shortest_paths sources = .ok (dist, parent) ∧ dist.length = g.V ∧
      ∀ v, 0 ≤ v → v < (g.V : Int) →
        (∀ s ∈ sources, ∀ w, Graph.PathW g s v w → vget dist v DBL_MAX ≤ w) ∧
        vget dist v DBL_MAX ≤ DBL_MAX ∧
        (vget dist v DBL_MAX < DBL_MAX →
          ∃ s ∈ sources, Graph.PathW g s v (vget dist v DBL_MAX)) ∧
        ((∀ s ∈ sources, ¬ g.Reach s v) → vget dist v DBL_MAX = DBL_MAX) := by
  obtain ⟨dist, parent, pq, order, e1, hcore, hrel, hall⟩ :=
    Graph.shortest_paths_spec g hin hnn sources hs
  have hwalk : ∀ v, 0 ≤ v → v < (g.V : Int) → vget dist v DBL_MAX < DBL_MAX →
      ∃ s ∈ sources, Graph.PathW g s v (vget dist v DBL_MAX) := fun v h0 h1 hlt =>
    Graph.ParentWalk.path g sources parent v _
      (Graph.DCore.parentWalk g hnn sources dist parent pq order hcore _ v rfl h0 h1 hlt)
  refine ⟨dist, parent, e1, hcore.len_d, fun v h0 h1 => ⟨?_, (hcore.bounds v h0 h1).2,
    hwalk v h0 h1, ?_⟩⟩
  · intro s hsrc w hp
    exact (Graph.DCore.le_path g hin sources dist parent pq order hcore hrel hall hs s hsrc
      v w hp).2
  · intro hno
    by_contra hne
    obtain ⟨s, hsrc, hp⟩ := hwalk v h0 h1 (lt_of_le_of_ne (hcore.bounds v h0 h1).2 hne)
    exact hno s hsrc (Graph.PathW.toReach g s v _ hp)

/-- C1 on the graph of `test.cpp`: the distances from source 0 are `[0, 4, 5, 3]`, and
from the sources 0 and 2 they are 4 for vertex 1 and 2 for vertex 3. -/
theorem shortest_paths_dist_witness :
    (exGraph.shortest_paths [0] = .ok ([0, 4, 5, 3], [-1, 0, 3, 0]) ∧
      exGraph.shortest_paths [0, 2] = .ok ([0, 4, 0, 2], [-1, 0, -1, 2])) ∧
    ∃ dist parent, exGraph.shortest_paths [0] = .ok (dist, parent) ∧ dist.length = exGraph.V ∧
      ∀ v, 0 ≤ v → v < (exGraph.V : Int) →
        (∀ s ∈ [(0 : Int)], ∀ w, Graph.PathW exGraph s v w → vget dist v DBL_MAX ≤ w) ∧
        vget dist v DBL_MAX ≤ DBL_MAX ∧
        (vget dist v DBL_MAX < DBL_MAX →
          ∃ s ∈ [(0 : Int)], Graph.PathW exGraph s v (vget dist v DBL_MAX)) ∧
        ((∀ s ∈ [(0 : Int)], ¬ exGraph.Reach s v) → vget dist v DBL_MAX = DBL_MAX) :=
  ⟨⟨by decide!, by decide!⟩,
    shortest_paths_dist exGraph (by decide) (by decide) [0] (by decide)⟩

/-- C2 as stated fails: on the single edge `0 -> 1` of weight `DBL_MAX`, with source 0,
vertex 1 is reachable from the source, but `parent[1]` is `-1` and 1 is not a source:
following `parent[]` from 1 does not end at a source. -/
theorem shortest_paths_parent_counterexample :
    satEdge.InRange ∧ satEdge.NonNeg ∧ satEdge.ValidSources [0] ∧
    satEdge.shortest_paths [0] = .ok ([0, DBL_MAX], [-1, -1]) ∧
    satEdge.Reach 0 1 ∧
    ∀ w, ¬ Graph.ParentWalk satEdge [0] [-1, -1] 1 w := by
  refine ⟨by decide!, by decide!, by decide!, by decide!, ?_, ?_⟩
  · exact Relation.ReflTransGen.single ⟨⟨0, 1, DBL_MAX⟩, by decide!, rfl⟩
  · intro w hw
    generalize hx : (1 : Int) = x at hw
    cases hw with
    | root s hs _ =>
      rw [List.mem_singleton] at hs
      omega
    | step x w e hp _ _ _ =>
      rw [← hx] at hp
      exact hp rfl

/-- C2, amended: on a graph with in-range endpoints and weights `≥ 0` and on valid
sources, after `shortest_paths`, for every vertex `v` that some source reaches by a
path of total weight below `DBL_MAX`: following `parent[]` from `v` ends after finitely
many steps at a source whose parent is `-1`, every step `parent[x] -> x` is a stored
edge, and the weights of the edges of the walk sum to `dist[v]`. -/
theorem shortest_paths_parent {W : Type} [LinearOrderedRing W] (g : Graph W)
    (hin : g.InRange) (hnn : g.NonNeg) (sources : List Int) (hs : g.ValidSources sources) :
    ∃ dist parent, g.shortest_paths sources = .ok (dist, parent) ∧
      ∀ v, 0 ≤ v → v < (g.V : Int) →
        (∃ s ∈ sources, ∃ w, Graph.PathW g s v w ∧ w < DBL_MAX) →
        Graph.ParentWalk g sources parent v (vget dist v DBL_MAX) := by
  obtain ⟨dist, parent, pq, order, e1, hcore, hrel, hall⟩ :=
    Graph.shortest_paths_spec g hin hnn sources hs
  refine ⟨dist, parent, e1, ?_⟩
  rintro v h0 h1 ⟨s, hsrc, w, hp, hw⟩
  have hle := (Graph.DCore.le_path g hin sources dist parent pq order hcore hrel hall hs
    s hsrc v w hp).2
  exact Graph.DCore.parentWalk g hnn sources dist parent pq order hcore _ v rfl h0 h1
    (lt_of_le_of_lt hle hw)

/-- C2 on the graph of `test.cpp` with source 0: `parent[3] = 0`, `parent[2] = 3`,
`parent[1] = 0`, and the walk from vertex 2 sums to `dist[2]`. -/
theorem shortest_paths_parent_witness :
    exGraph.shortest_paths [0] = .ok ([0, 4, 5, 3], [-1, 0, 3, 0]) ∧
    ∃ dist parent, exGraph.shortest_paths [0] = .ok (dist, parent) ∧
      ∀ v, 0 ≤ v → v < (exGraph.V : Int) →
        (∃ s ∈ [(0 : Int)], ∃ w, Graph.PathW exGraph s v w ∧ w < DBL_MAX) →
        Graph.ParentWalk exGraph [0] parent v (vget dist v DBL_MAX) :=
  ⟨by decide!, shortest_paths_parent exGraph (by decide) (by decide) [0] (by decide)⟩

/-! ## More claims about `MinPQ` -/

/-- The contained indices are the indices stored in the heap slots `1..n`, so there are
`n` of them. -/
theorem MinPQ.Bk.card_contained {T : Type} (s : MinPQ T) (h : s.Bk s.n) :
    ((Finset.Ico (0 : Int) s.maxN).filter (fun i => s.qp i ≠ -1)).card = s.n.toNat := by
  have himg : (Finset.Icc (1 : Int) s.n).image s.pq =
      (Finset.Ico (0 : Int) s.maxN).filter (fun i => s.qp i ≠ -1) := by
    ext i
    rw [Finset.mem_image, Finset.mem_filter, Finset.mem_Ico]
    constructor
    · rintro ⟨k, hk, rfl⟩
      rw [Finset.mem_Icc] at hk
      have := h.1 k hk.1 hk.2
      exact ⟨⟨this.1, this.2.1⟩, by rw [this.2.2]; omega⟩
    · rintro ⟨⟨h0, h1⟩, hq⟩
      obtain ⟨q1, q2, q3⟩ := MinPQ.Bk.slot_of_contained s s.n i h h0 h1 hq
      exact ⟨s.qp i, Finset.mem_Icc.2 ⟨q1, q2⟩, q3⟩
  have hinj : Set.InjOn s.pq (Finset.Icc (1 : Int) s.n : Set Int) := by
    intro a ha b hb hab
    rw [Finset.mem_coe, Finset.mem_Icc] at ha hb
    rw [← (h.1 a ha.1 ha.2).2.2, ← (h.1 b hb.1 hb.2).2.2, hab]
  rw [← himg, Finset.card_image_of_injOn hinj, Int.card_Icc]
  congr 1
  omega

/-- C15: on a reachable queue of capacity `maxN`, `insert(i, key)` throws an
invalid-index error (of `validateIndex`) when `i < 0` or `i ≥ maxN`, throws the
duplicate-index error when `i` is in range and contained, and succeeds otherwise; a
call that throws leaves the queue, hence its size, membership and keys, as it was. -/
theorem insert_errors {T : Type} [LinearOrder T] (s : MinPQ T) (hr : s.Reachable) (i : Int)
    (key : T) :
    (i < 0 → (s.insert i key).1 = .error .indexNegative) ∧
    (0 ≤ i → s.maxN ≤ i → (s.insert i key).1 = .error .indexTooLarge) ∧
    (0 ≤ i → i < s.maxN → s.contains i = .ok true →
      (s.insert i key).1 = .error .duplicateIndex) ∧
    (0 ≤ i → i < s.maxN → s.contains i = .ok false → (s.insert i key).1 = .ok ()) ∧
    (∀ e, (s.insert i key).1 = .error e →
      (s.insert i key).2 = s ∧ (s.insert i key).2.size = s.size ∧
      (∀ j, (s.insert i key).2.contains j = s.contains j) ∧
      (∀ j, (s.insert i key).2.keyOf j = s.keyOf j)) := by
  have hinv := MinPQ.Reachable.inv s hr
  have hsame : ∀ e, (s.insert i key).1 = .error e → (s.insert i key).2 = s := by
    intro e he
    rcases MinPQ.contained_or s i with h1 | h1 | h1
    · obtain ⟨e', he'⟩ := MinPQ.insert_invalid s i key h1
      rw [he']
    · have h' := (MinPQ.contains_false_iff s i).1 h1
      rw [(MinPQ.insert_spec s i key hinv h'.1 h'.2.1 h'.2.2).1] at he
      cases he
    · rw [MinPQ.insert_duplicate s i key h1]
  refine ⟨?_, ?_, ?_, ?_, ?_⟩
  · intro h
    simp only [MinPQ.insert, MinPQ.validateIndex_neg s i h]
  · intro h0 h1
    simp only [MinPQ.insert, MinPQ.validateIndex_large s i h0 h1]
  · intro _ _ hc
    rw [MinPQ.insert_duplicate s i key ((MinPQ.contains_true_iff s i).1 hc)]
  · intro h0 h1 hc
    exact (MinPQ.insert_spec s i key hinv h0 h1 ((MinPQ.contains_false_iff s i).1 hc).2.2).1
  · intro e he
    have := hsame e he
    exact ⟨this, by rw [this], fun j => by rw [this], fun j => by rw [this]⟩

/-- C15 on the test queue (capacity 5, indices 0..4 contained), for index 2. -/
theorem insert_errors_witness :
    exPQ.contains 2 = .ok true ∧ (exPQ.insert 2 9).1 = .error .duplicateIndex ∧
    ((2 : Int) < 0 → (exPQ.insert 2 9).1 = .error .indexNegative) ∧
    ((0 : Int) ≤ 2 → exPQ.maxN ≤ 2 → (exPQ.insert 2 9).1 = .error .indexTooLarge) ∧
    ((0 : Int) ≤ 2 → 2 < exPQ.maxN → exPQ.contains 2 = .ok true →
      (exPQ.insert 2 9).1 = .error .duplicateIndex) ∧
    ((0 : Int) ≤ 2 → 2 < exPQ.maxN → exPQ.contains 2 = .ok false →
      (exPQ.insert 2 9).1 = .ok ()) ∧
    (∀ e, (exPQ.insert 2 9).1 = .error e →
      (exPQ.insert 2 9).2 = exPQ ∧ (exPQ.insert 2 9).2.size = exPQ.size ∧
      (∀ j, (exPQ.insert 2 9).2.contains j = exPQ.contains j) ∧
      (∀ j, (exPQ.insert 2 9).2.keyOf j = exPQ.keyOf j)) :=
  ⟨by decide, by decide, insert_errors exPQ
    (.insert _ 4 4 (.insert _ 3 1 (.insert _ 2 8 (.insert _ 1 3 (.insert _ 0 5
      (.new 5 0 _ rfl))))))
    2 9⟩

/-- C19: the index bookkeeping is an invariant: in every state reachable from a freshly
constructed queue by public operations, `0 ≤ n ≤ maxN`; every slot `k` in `1..n` holds a
valid index with `qp[pq[k]] = k`; every valid index `i` has `qp[i] = -1` or
`1 ≤ qp[i] ≤ n` and `pq[qp[i]] = i`.  Hence an index is in at most one heap slot, and
`n` is the number of contained indices. -/
theorem bookkeeping_invariant {T : Type} [LinearOrder T] (s : MinPQ T) (hr : s.Reachable) :
    0 ≤ s.n ∧ s.n ≤ s.maxN ∧
    (∀ k, 1 ≤ k → k ≤ s.n → 0 ≤ s.pq k ∧ s.pq k < s.maxN ∧ s.qp (s.pq k) = k) ∧
    (∀ i, 0 ≤ i → i < s.maxN →
      s.qp i = -1 ∨ (1 ≤ s.qp i ∧ s.qp i ≤ s.n ∧ s.pq (s.qp i) = i)) ∧
    (∀ k1 k2, 1 ≤ k1 → k1 ≤ s.n → 1 ≤ k2 → k2 ≤ s.n → s.pq k1 = s.pq k2 → k1 = k2) ∧
    ((Finset.Ico (0 : Int) s.maxN).filter (fun i => s.qp i ≠ -1)).card = s.n.toNat := by
  have hinv := MinPQ.Reachable.inv s hr
  refine ⟨hinv.n_nonneg, hinv.n_le, hinv.bk.1, hinv.bk.2, ?_,
    MinPQ.Bk.card_contained s hinv.bk⟩
  intro k1 k2 a1 a2 b1 b2 h
  rw [← (hinv.bk.1 k1 a1 a2).2.2, ← (hinv.bk.1 k2 b1 b2).2.2, h]

/-- C19 on the test queue after a `delMin`, a `changeKey` and a `remove`. -/
theorem bookkeeping_invariant_witness :
    0 ≤ ((exPQ.delMin.2.changeKey 2 0).2.remove 0).2.n ∧
    ((exPQ.delMin.2.changeKey 2 0).2.remove 0).2.n ≤
      ((exPQ.delMin.2.changeKey 2 0).2.remove 0).2.maxN ∧
    (∀ k, 1 ≤ k → k ≤ ((exPQ.delMin.2.changeKey 2 0).2.remove 0).2.n →
      0 ≤ ((exPQ.delMin.2.changeKey 2 0).2.remove 0).2.pq k ∧
      ((exPQ.delMin.2.changeKey 2 0).2.remove 0).2.pq k <
        ((exPQ.delMin.2.changeKey 2 0).2.remove 0).2.maxN ∧
      ((exPQ.delMin.2.changeKey 2 0).2.remove 0).2.qp
        (((exPQ.delMin.2.changeKey 2 0).2.remove 0).2.pq k) = k) ∧
    (∀ i, 0 ≤ i → i < ((exPQ.delMin.2.changeKey 2 0).2.remove 0).2.maxN →
      ((exPQ.delMin.2.changeKey 2 0).2.remove 0).2.qp i = -1 ∨
      (1 ≤ ((exPQ.delMin.2.changeKey 2 0).2.remove 0).2.qp i ∧
        ((exPQ.delMin.2.changeKey 2 0).2.remove 0).2.qp i ≤
          ((exPQ.delMin.2.changeKey 2 0).2.remove 0).2.n ∧
        ((exPQ.delMin.2.changeKey 2 0).2.remove 0).2.pq
          (((exPQ.delMin.2.changeKey 2 0).2.remove 0).2.qp i) = i)) ∧
    (∀ k1 k2, 1 ≤ k1 → k1 ≤ ((exPQ.delMin.2.changeKey 2 0).2.remove 0).2.n → 1 ≤ k2 →
      k2 ≤ ((exPQ.delMin.2.changeKey 2 0).2.remove 0).2.n →
      ((exPQ.delMin.2.changeKey 2 0).2.remove 0).2.pq k1 =
        ((exPQ.delMin.2.changeKey 2 0).2.remove 0).2.pq k2 → k1 = k2) ∧
    ((Finset.Ico (0 : Int) ((exPQ.delMin.2.changeKey 2 0).2.remove 0).2.maxN).filter
      (fun i => ((exPQ.delMin.2.changeKey 2 0).2.remove 0).2.qp i ≠ -1)).card =
      ((exPQ.delMin.2.changeKey 2 0).2.remove 0).2.n.toNat :=
  bookkeeping_invariant _
    (.remove _ 0 (.changeKey _ 2 0 (.delMin _
      (.insert _ 4 4 (.insert _ 3 1 (.insert _ 2 8 (.insert _ 1 3 (.insert _ 0 5
        (.new 5 0 _ rfl)))))))))

/-! ## More claims about `Graph` -/

namespace Graph

variable {W : Type}

/-- Every edge stored by `add_edge` has a weight `≥ 0`, in every adjacency list. -/
theorem Built.weight_nonneg [LinearOrderedRing W] (g : Graph W) (h : g.Built) :
    ∀ (v : Int), ∀ e ∈ g.adj v, 0 ≤ e.weight := by
  induction h with
  | new V => intro v e he; exact absurd he (List.not_mem_nil e)
  | add_edge g a b weight _ ih =>
    intro v e he
    unfold Graph.add_edge at he
    split_ifs at he with hneg
    · exact ih v e he
    · simp only [Function.update_apply] at he
      split_ifs at he with hv
      · rcases List.mem_append.1 he with h1 | h1
        · exact ih v e (hv ▸ h1)
        · rw [List.mem_singleton.1 h1]
          exact not_lt.1 hneg
      · exact ih v e he

theorem has_edge_loop_iff (w : Int) (l : List (Edge W)) :
    has_edge_loop w l = true ↔ ∃ e ∈ l, e.to_ = w := by
  induction l with
  | nil => simp [has_edge_loop]
  | cons e rest ih =>
    rw [has_edge_loop]
    split_ifs with h
    · simp [h]
    · rw [ih]; simp [h]

theorem has_edge_iff (g : Graph W) (v w : Int) : g.has_edge v w = true ↔ g.Adj v w :=
  has_edge_loop_iff w (g.adj v)

/-- On a graph with in-range endpoints the main loop of `connected_components`
returns. -/
theorem ccLoop_ok (g : Graph W) (hin : g.InRange) : ∀ (rest : List Nat) (done : Int → Int)
    (result : List (List Int)), (∀ i ∈ rest, i < g.V) →
    ∃ comps, ccLoop g rest done result = .ok comps := by
  intro rest
  induction rest with
  | nil => intro done result _; exact ⟨result, by rw [ccLoop]⟩
  | cons i rest ih =>
    intro done result hr
    have hrest : ∀ j ∈ rest, j < g.V := fun j hj => hr j (List.mem_cons_of_mem _ hj)
    have hi : i < g.V := hr i (List.mem_cons_self _ _)
    rw [ccLoop]
    split_ifs with hd
    · obtain ⟨r, e1, _⟩ := get_reachable_from_spec g hin (i : Int) (by omega) (by omega)
      rw [e1]
      exact ih _ _ hrest
    · exact ih _ _ hrest

end Graph

/-- C17: `add_edge(v, w, weight)` throws the negative-weight error iff `weight < 0`, and
then the graph is as it was; otherwise it returns, the edge `(v, w, weight)` is appended
at the end of the adjacency list of `v`, and `V` and the other adjacency lists are as
they were.  Consequently every edge stored in a graph built by the constructor and
`add_edge` calls has a weight `≥ 0`. -/
theorem add_edge_negative_iff {W : Type} [LinearOrderedRing W] (g : Graph W) (v w : Int)
    (weight : W) :
    ((g.add_edge v w weight).1 = .error .negativeWeight ↔ weight < 0) ∧
    ((∃ e, (g.add_edge v w weight).1 = .error e) ↔ weight < 0) ∧
    (weight < 0 → (g.add_edge v w weight).2 = g) ∧
    (¬ weight < 0 → (g.add_edge v w weight).1 = .ok () ∧
      (g.add_edge v w weight).2.V = g.V ∧
      (g.add_edge v w weight).2.adj v = g.adj v ++ [⟨v, w, weight⟩] ∧
      ∀ x, x ≠ v → (g.add_edge v w weight).2.adj x = g.adj x) ∧
    (g.Built → ∀ x, ∀ e ∈ (g.add_edge v w weight).2.adj x, 0 ≤ e.weight) := by
  refine ⟨?_, ?_, ?_, ?_, ?_⟩
  · unfold Graph.add_edge
    split_ifs with h
    · simp [h]
    · simp [h]
  · unfold Graph.add_edge
    split_ifs with h
    · simp [h]
    · simp [h]
  · intro h
    unfold Graph.add_edge
    rw [if_pos h]
  · intro h
    unfold Graph.add_edge
    rw [if_neg h]
    refine ⟨rfl, rfl, ?_, ?_⟩
    · simp
    · intro x hx
      simp [Function.update_noteq hx]
  · intro hb
    exact Graph.Built.weight_nonneg _ (Graph.Built.add_edge g v w weight hb)

/-- C16: on a graph with in-range endpoints, `connected_components()` throws the
not-undirected error iff `is_undirected()` returns false; when `is_undirected()` returns
true it returns a list of components. -/
theorem connected_components_error_iff {W : Type} [LinearOrderedRing W] [FloorRing W]
    (g : Graph W) (hin : g.InRange) :
    (g.connected_components = .error .notUndirected ↔ g.is_undirected = false) ∧
    ((∃ e, g.connected_components = .error e) ↔ g.is_undirected = false) ∧
    (g.is_undirected = true → ∃ comps, g.connected_components = .ok comps) := by
  obtain ⟨comps, hc⟩ := Graph.ccLoop_ok g hin (List.range g.V) (fun _ => 0) []
    (fun i hi => List.mem_range.1 hi)
  unfold Graph.connected_components
  by_cases hu : g.is_undirected = false
  · rw [if_pos hu]
    simp [hu]
  · rw [if_neg hu, hc]
    simp [hu]

/-- C16 on the graph of `test.cpp`, which is undirected: no error. -/
theorem connected_components_error_iff_witness :
    (exGraph.connected_components = .error .notUndirected ↔ exGraph.is_undirected = false) ∧
    ((∃ e, exGraph.connected_components = .error e) ↔ exGraph.is_undirected = false) ∧
    (exGraph.is_undirected = true → ∃ comps, exGraph.connected_components = .ok comps) :=
  connected_components_error_iff exGraph (by decide)

/-- C13: on a graph (built by the constructor and `add_edge` calls, so with weights
`≥ 0`) with in-range endpoints: if there is a stored edge `u -> v` between vertices but
no stored edge `v -> u`, `is_undirected()` returns false; and whenever
`is_undirected()` returns true, `has_edge(v, w) = has_edge(w, v)` for all vertices
`v`, `w`. -/
theorem is_undirected_false_of_oneway {W : Type} [LinearOrderedRing W] [FloorRing W]
    (g : Graph W) (hb : g.Built) :
    (∀ u v, 0 ≤ u → u < (g.V : Int) → 0 ≤ v → v < (g.V : Int) → u ≠ v →
      (∃ e ∈ g.adj u, e.to_ = v) → (¬ ∃ e ∈ g.adj v, e.to_ = u) →
      g.is_undirected = false) ∧
    (g.is_undirected = true → ∀ v w, 0 ≤ v → v < (g.V : Int) → 0 ≤ w → w < (g.V : Int) →
      g.has_edge v w = g.has_edge w v) := by
  have hwf := Graph.Built.wellFormed g hb
  constructor
  · intro u v hu0 hu1 hv0 hv1 _ huv hvu
    by_contra hne
    have htrue : g.is_undirected = true := by
      cases h : g.is_undirected
      · exact absurd h hne
      · rfl
    exact hvu (Graph.adj_symm g hwf htrue u v hu0 hu1 hv0 hv1 huv)
  · intro htrue v w hv0 hv1 hw0 hw1
    have h1 : g.has_edge v w = true ↔ g.has_edge w v = true := by
      rw [Graph.has_edge_iff, Graph.has_edge_iff]
      exact ⟨Graph.adj_symm g hwf htrue v w hv0 hv1 hw0 hw1,
        Graph.adj_symm g hwf htrue w v hw0 hw1 hv0 hv1⟩
    cases h2 : g.has_edge v w <;> cases h3 : g.has_edge w v <;> simp_all

/-- C13 on the graph with the single edge `0 -> 1`: `is_undirected()` returns false. -/
theorem is_undirected_false_of_oneway_witness :
    oneWay.InRange ∧ oneWay.is_undirected = false :=
  ⟨by decide, (is_undirected_false_of_oneway oneWay (.add_edge _ 0 1 1 (.new 2))).1 0 1
    (by decide) (by decide) (by decide) (by decide) (by decide) (by decide) (by decide)⟩

namespace Graph

variable {W : Type}

section Matrix

variable [LinearOrderedRing W] [FloorRing W]

/-- The row `v` of the matrix after the adjacency list of `v` is written. -/
theorem foldl_setCell_eq (v : Int) (es : List (Edge W)) (hfrom : ∀ e ∈ es, e.from_ = v) :
    ∀ (a : Int → Int → Int) (i j : Int),
      (es.foldl setCell a) i j =
        if i = v then (match lastTo j es with | some x => toInt x | none => a i j)
        else a i j := by
  induction es with
  | nil =>
    intro a i j
    simp [lastTo]
  | cons e rest ih =>
    intro a i j
    have he := hfrom e (List.mem_cons_self _ _)
    rw [List.foldl_cons, ih (fun e' h' => hfrom e' (List.mem_cons_of_mem _ h')),
      setCell_apply, he]
    by_cases hi : i = v
    · rw [if_pos hi, if_pos hi, lastTo]
      cases hl : lastTo j rest with
      | some x => rfl
      | none =>
        by_cases hj : e.to_ = j
        · simp [hi, hj]
        · have : ¬ j = e.to_ := fun h => hj h.symm
          simp [hj, this]
    · rw [if_neg hi, if_neg hi, if_neg (fun h => hi h.1)]

theorem foldl_fill_eq (g : Graph W) (hfrom : ∀ (v : Int), ∀ e ∈ g.adj v, e.from_ = v)
    (vs : List Nat) (hnd : vs.Nodup) : ∀ (a : Int → Int → Int) (i j : Int),
      (vs.foldl (fun a (v : Nat) => (g.adj (v : Int)).foldl setCell a) a) i j =
        if (∃ v ∈ vs, (v : Int) = i) then
          (match lastTo j (g.adj i) with | some x => toInt x | none => a i j)
        else a i j := by
  induction vs with
  | nil => intro a i j; simp
  | cons v rest ih =>
    intro a i j
    rw [List.nodup_cons] at hnd
    rw [List.foldl_cons, ih hnd.2, foldl_setCell_eq (v : Int) _ (hfrom v)]
    by_cases hr : ∃ v' ∈ rest, (v' : Int) = i
    · have hne : i ≠ (v : Int) := by
        obtain ⟨v', h1, h2⟩ := hr
        intro h
        have : v' = v := by omega
        exact hnd.1 (this ▸ h1)
      have hex : ∃ v' ∈ v :: rest, (v' : Int) = i := by
        obtain ⟨v', h1, h2⟩ := hr
        exact ⟨v', List.mem_cons_of_mem _ h1, h2⟩
      rw [if_pos hr, if_pos hex, if_neg hne]
    · rw [if_neg hr]
      by_cases hi : i = (v : Int)
      · have hex : ∃ v' ∈ v :: rest, (v' : Int) = i := ⟨v, List.mem_cons_self _ _, hi.symm⟩
        rw [if_pos hi, if_pos hex, hi]
      · have hex : ¬ ∃ v' ∈ v :: rest, (v' : Int) = i := by
          rintro ⟨v', h1, h2⟩
          rcases List.mem_cons.1 h1 with h3 | h3
          · exact hi (by rw [← h2, h3])
          · exact hr ⟨v', h3, h2⟩
        rw [if_neg hi, if_neg hex]

/-- The matrix of `is_undirected`: the cell `(i, j)` holds the truncated weight of the
last edge to `j` in the adjacency list of `i`, or `-1` when there is none. -/
theorem fillMatrix_eq (g : Graph W) (hfrom : ∀ (v : Int), ∀ e ∈ g.adj v, e.from_ = v)
    (i j : Int) (h0 : 0 ≤ i) (h1 : i < (g.V : Int)) :
    g.fillMatrix (fun _ _ => -1) i j =
      match lastTo j (g.adj i) with | some x => toInt x | none => -1 := by
  unfold fillMatrix
  rw [foldl_fill_eq g hfrom _ (List.nodup_range _), if_pos]
  exact ⟨i.toNat, List.mem_range.2 (by omega), by omega⟩

omit [LinearOrderedRing W] [FloorRing W] in
theorem lastTo_append_singleton (w : Int) (l : List (Edge W)) (e : Edge W) :
    lastTo w (l ++ [e]) = if e.to_ = w then some e.weight else lastTo w l := by
  induction l with
  | nil => simp [lastTo]
  | cons x rest ih =>
    rw [List.cons_append, lastTo, ih, lastTo]
    by_cases h : e.to_ = w
    · simp [h]
    · simp [h]

omit [FloorRing W] in
/-- Paired insertions keep the last weights symmetric. -/
theorem PairBuilt.symm (g : Graph W) (h : g.PairBuilt) :
    (∀ (v : Int), ∀ e ∈ g.adj v, e.from_ = v) ∧
    ∀ a b : Int, lastTo b (g.adj a) = lastTo a (g.adj b) := by
  induction h with
  | new V =>
    exact ⟨fun v e he => absurd he (List.not_mem_nil e), fun a b => rfl⟩
  | pair g u v w _ _ _ _ hw _ ih =>
    obtain ⟨ih1, ih2⟩ := ih
    have hnot : ¬ w < 0 := not_lt.2 hw
    have hadj : ∀ x, ((g.add_edge u v w).2.add_edge v u w).2.adj x =
        (if x = v then (if x = u then g.adj x ++ [⟨u, v, w⟩] else g.adj x) ++ [⟨v, u, w⟩]
         else if x = u then g.adj x ++ [⟨u, v, w⟩] else g.adj x) := by
      intro x
      simp only [add_edge, if_neg hnot, Function.update_apply]
      by_cases hxv : x = v
      · subst hxv
        by_cases hxu : x = u
        · subst hxu; simp
        · simp [hxu]
      · by_cases hxu : x = u
        · subst hxu; simp [hxv]
        · simp [hxv, hxu]
    constructor
    · intro x e he
      rw [hadj x] at he
      split_ifs at he with h1 h2 h3
      · rcases List.mem_append.1 he with h | h
        · rcases List.mem_append.1 h with h' | h'
          · exact ih1 x e h'
          · rw [List.mem_singleton.1 h']; exact h2.symm
        · rw [List.mem_singleton.1 h]; exact h1.symm
      · rcases List.mem_append.1 he with h | h
        · exact ih1 x e h
        · rw [List.mem_singleton.1 h]; exact h1.symm
      · rcases List.mem_append.1 he with h | h
        · exact ih1 x e h
        · rw [List.mem_singleton.1 h]; exact h3.symm
      · exact ih1 x e he
    · have hlast : ∀ x t : Int, lastTo t (((g.add_edge u v w).2.add_edge v u w).2.adj x) =
          if (x = v ∧ u = t) ∨ (x = u ∧ v = t) then some w else lastTo t (g.adj x) := by
        intro x t
        rw [hadj x]
        by_cases hxv : x = v
        · by_cases hxu : x = u
          · rw [if_pos hxv, if_pos hxu, lastTo_append_singleton, lastTo_append_singleton]
            by_cases h1 : u = t
            · simp [h1, hxv]
            · by_cases h2 : v = t
              · simp [h1, h2, hxu]
              · simp [h1, h2]
          · rw [if_pos hxv, if_neg hxu, lastTo_append_singleton]
            by_cases h1 : u = t
            · simp [h1, hxv]
            · simp [h1, hxu]
        · by_cases hxu : x = u
          · rw [if_neg hxv, if_pos hxu, lastTo_append_singleton]
            by_cases h2 : v = t
            · simp [h2, hxu]
            · simp [h2, hxv]
          · rw [if_neg hxv, if_neg hxu]
            simp [hxv, hxu]
      intro a b
      rw [hlast a b, hlast b a, ih2 a b]
      have hiff : ((a = v ∧ u = b) ∨ (a = u ∧ v = b)) ↔ ((b = v ∧ u = a) ∨ (b = u ∧ v = a)) := by
        constructor
        · rintro (⟨h1, h2⟩ | ⟨h1, h2⟩)
          · exact Or.inr ⟨h2.symm, h1.symm⟩
          · exact Or.inl ⟨h2.symm, h1.symm⟩
        · rintro (⟨h1, h2⟩ | ⟨h1, h2⟩)
          · exact Or.inr ⟨h2.symm, h1.symm⟩
          · exact Or.inl ⟨h2.symm, h1.symm⟩
      simp only [hiff]

end Matrix

end Graph

/-- C11 fails on the code: `is_undirected()` keeps, for every pair of vertices, only the
weight of the last parallel edge, converted to `int`.  On `parGraph` it returns true
although the edge `0 -> 1` of weight 1 has no edge back of weight 1; on `parGraph2` it
returns false although every edge has an edge back of the same weight; on `fracGraph`
it returns true although the weights 1/2 and 7/10 of the two directions differ. -/
theorem is_undirected_not_reciprocal :
    (parGraph.InRange ∧ parGraph.NonNeg ∧
      parGraph.is_undirected = true ∧ ¬ parGraph.Reciprocal) ∧
    (parGraph2.InRange ∧ parGraph2.NonNeg ∧
      parGraph2.is_undirected = false ∧ parGraph2.Reciprocal) ∧
    (fracGraph.InRange ∧ fracGraph.NonNeg ∧
      fracGraph.is_undirected = true ∧ ¬ fracGraph.Reciprocal) :=
  ⟨⟨by decide, by decide, by decide, by decide⟩,
    ⟨by decide, by decide, by decide, by decide⟩,
    ⟨by decide!, by decide!, by decide!, by decide!⟩⟩

/-- C12: on a graph built from an empty `Graph(V)` by paired insertions, each
`add_edge(u, v, w)` immediately followed by `add_edge(v, u, w)` with vertices `u`, `v`
and `w ≥ 0` (repeated pairs and self-loops allowed), `is_undirected()` returns true. -/
theorem is_undirected_of_pairs {W : Type} [LinearOrderedRing W] [FloorRing W] (g : Graph W)
    (h : g.PairBuilt) : g.is_undirected = true := by
  obtain ⟨h1, h2⟩ := Graph.PairBuilt.symm g h
  rw [Graph.is_undirected_iff]
  intro i hi j hj
  rw [Graph.fillMatrix_eq g h1 _ _ (by omega) (by have := List.mem_range.1 hi; omega),
    Graph.fillMatrix_eq g h1 _ _ (by omega) (by have := List.mem_range.1 hj; omega), h2]

/-- C12 on the graph of `test.cpp`: the pairs 0-1 (4), 2-3 (2), 3-0 (3). -/
theorem is_undirected_of_pairs_witness : exGraph.is_undirected = true :=
  is_undirected_of_pairs exGraph
    (.pair _ 3 0 3 (by decide) (by decide) (by decide) (by decide) (by decide)
      (.pair _ 2 3 2 (by decide) (by decide) (by decide) (by decide) (by decide)
        (.pair _ 0 1 4 (by decide) (by decide) (by decide) (by decide) (by decide)
          (.new 4))))

/-- C17 on the graph of `test.cpp`: `add_edge(0, 1, -1)` throws and changes nothing. -/
theorem add_edge_negative_iff_witness :
    (exGraph.add_edge 0 1 (-1)).1 = .error .negativeWeight ∧
    (exGraph.add_edge 0 1 (-1)).2 = exGraph :=
  ⟨(add_edge_negative_iff exGraph 0 1 (-1)).1.2 (by decide),
    (add_edge_negative_iff exGraph 0 1 (-1)).2.2.1 (by decide)⟩

/-- C14: on a graph with in-range endpoints and weights `≥ 0` and on valid sources,
after `shortest_paths`: every source has `parent = -1` and `dist = 0`, and every vertex
that no source reaches has `dist = DBL_MAX` and `parent = -1`. -/
theorem shortest_paths_sources_unreached {W : Type} [LinearOrderedRing W] (g : Graph W)
    (hin : g.InRange) (hnn : g.NonNeg) (sources : List Int) (hs : g.ValidSources sources) :
    ∃ dist parent, g.shortest_paths sources = .ok (dist, parent) ∧
      (∀ s ∈ sources, vget parent s (-1) = -1 ∧ vget dist s DBL_MAX = 0) ∧
      (∀ v, 0 ≤ v → v < (g.V : Int) → (∀ s ∈ sources, ¬ g.Reach s v) →
        vget dist v DBL_MAX = DBL_MAX ∧ vget parent v (-1) = -1) := by
  obtain ⟨dist, parent, pq, order, e1, hcore, hrel, hall⟩ :=
    Graph.shortest_paths_spec g hin hnn sources hs
  refine ⟨dist, parent, e1, fun s hsrc => ⟨hcore.src_par s hsrc, hcore.src s hsrc⟩, ?_⟩
  intro v h0 h1 hno
  have hd : vget dist v DBL_MAX = DBL_MAX := by
    by_contra hne
    have hlt := lt_of_le_of_ne (hcore.bounds v h0 h1).2 hne
    obtain ⟨s, hsrc, hp⟩ := Graph.ParentWalk.path g sources parent v _
      (Graph.DCore.parentWalk g hnn sources dist parent pq order hcore _ v rfl h0 h1 hlt)
    exact hno s hsrc (Graph.PathW.toReach g s v _ hp)
  refine ⟨hd, ?_⟩
  rcases hcore.par v h0 h1 with ⟨hp, _⟩ | ⟨_, _, _, _, _, _, _, _, _, hlt⟩
  · exact hp
  · exact absurd hd (ne_of_lt hlt)

/-- C14 on the graph of `test.cpp` with a fifth vertex that no edge touches, source 0:
`dist[4] = DBL_MAX` and `parent[4] = -1`. -/
theorem shortest_paths_sources_unreached_witness :
    exGraph5.shortest_paths [0] = .ok ([0, 4, 5, 3, DBL_MAX], [-1, 0, 3, 0, -1]) ∧
    ∃ dist parent, exGraph5.shortest_paths [0] = .ok (dist, parent) ∧
      (∀ s ∈ [(0 : Int)], vget parent s (-1) = -1 ∧ vget dist s DBL_MAX = 0) ∧
      (∀ v, 0 ≤ v → v < (exGraph5.V : Int) → (∀ s ∈ [(0 : Int)], ¬ exGraph5.Reach s v) →
        vget dist v DBL_MAX = DBL_MAX ∧ vget parent v (-1) = -1) :=
  ⟨by decide!, shortest_paths_sources_unreached exGraph5 (by decide) (by decide) [0]
    (by decide)⟩

/-! ## The priority-queue calls of `shortest_paths` -/

namespace MinPQ

variable {T : Type} [LinearOrder T]

theorem insert_ok_pre (s : MinPQ T) (i : Int) (key : T) (h : (s.insert i key).1 = .ok ()) :
    0 ≤ i ∧ i < s.maxN ∧ s.contains i = .ok false := by
  rcases contained_or s i with h1 | h1 | h1
  · obtain ⟨e, he⟩ := insert_invalid s i key h1
    rw [he] at h; cases h
  · exact ⟨((contains_false_iff s i).1 h1).1, ((contains_false_iff s i).1 h1).2.1, h1⟩
  · rw [insert_duplicate s i key h1] at h; cases h

theorem delMin_ok_pre (s : MinPQ T) (u : Int) (h : s.delMin.1 = .ok u) : s.isEmpty = false := by
  by_contra hne
  have hn : s.n = 0 := by simpa [isEmpty] using hne
  rw [delMin_empty s hn] at h
  cases h

theorem decreaseKey_ok_pre (s : MinPQ T) (i : Int) (key : T)
    (h : (s.decreaseKey i key).1 = .ok ()) : s.Contained i ∧ key < s.keys i := by
  rcases contained_or s i with h1 | h1 | h1
  · obtain ⟨e, he⟩ := decreaseKey_invalid s i key h1
    rw [he] at h; cases h
  · rw [decreaseKey_absent s i key h1] at h; cases h
  · rcases lt_trichotomy (s.keys i) key with hk | hk | hk
    · rw [decreaseKey_greater s i key h1 hk] at h; cases h
    · rw [decreaseKey_equal s i key h1 hk] at h; cases h
    · exact ⟨h1, hk⟩

end MinPQ

namespace Graph

variable {W : Type}

theorem inserted_append (a b : List (PQCall W)) : inserted (a ++ b) = inserted a ++ inserted b := by
  induction a with
  | nil => rfl
  | cons c rest ih => cases c <;> simp [inserted, ih]

theorem extracted_append (a b : List (PQCall W)) :
    extracted (a ++ b) = extracted a ++ extracted b := by
  induction a with
  | nil => rfl
  | cons c rest ih => cases c <;> simp [extracted, ih]

section Log

variable [LinearOrderedRing W]

/-- The log of `insertAll`: one `insert` call for every vertex, each on a valid index that
is not contained. -/
theorem insertAllLog_spec (dist : List W) : ∀ (rest : List Nat) (pq : MinPQ W)
    (log : List (PQCall W)) (pq' : MinPQ W), insertAll dist rest pq = .ok pq' →
    ∃ t, insertAllLog dist rest pq log = .ok (pq', log ++ t) ∧ (∀ c ∈ t, c.Pre) ∧
      inserted t = rest.map (fun i : Nat => (i : Int)) ∧ extracted t = [] := by
  intro rest
  induction rest with
  | nil =>
    intro pq log pq' h
    rw [insertAll] at h
    injection h with h
    subst h
    exact ⟨[], by rw [insertAllLog, List.append_nil], by simp, rfl, rfl⟩
  | cons i rest ih =>
    intro pq log pq' h
    rw [insertAll] at h
    rcases hins : pq.insert (i : Int) (vget dist (i : Int) DBL_MAX) with ⟨r, pq1⟩
    rw [hins] at h
    cases r with
    | error e => cases h
    | ok x =>
      simp only at h
      have hpre := MinPQ.insert_ok_pre pq i (vget dist (i : Int) DBL_MAX) (by rw [hins])
      obtain ⟨t, e1, e2, e3, e4⟩ := ih pq1
        (log ++ [.insert pq i (vget dist (i : Int) DBL_MAX)]) pq' h
      refine ⟨.insert pq i (vget dist (i : Int) DBL_MAX) :: t, ?_, ?_, ?_, ?_⟩
      · rw [insertAllLog, hins]
        simp only
        rw [e1, List.append_assoc]
        rfl
      · intro c hc
        rcases List.mem_cons.1 hc with h1 | h1
        · rw [h1]; exact hpre
        · exact e2 c h1
      · simp [inserted, e3]
      · simp [extracted, e4]

/-- The log of `relaxEdges`: `decreaseKey` calls only, each on a contained index with a
strictly smaller key; the queue keeps its invariant, size and contained indices. -/
theorem relaxEdgesLog_spec (u : Int) : ∀ (es : List (Edge W)) (dist : List W)
    (parent : List Int) (pq : MinPQ W) (log : List (PQCall W))
    (st' : List W × List Int × MinPQ W), pq.Inv →
    relaxEdges u es (dist, parent, pq) = .ok st' →
    ∃ t, relaxEdgesLog u es (dist, parent, pq) log = .ok (st', log ++ t) ∧
      (∀ c ∈ t, c.Pre) ∧ inserted t = [] ∧ extracted t = [] ∧
      st'.2.2.Inv ∧ st'.2.2.maxN = pq.maxN ∧ st'.2.2.n = pq.n ∧
      ∀ j, st'.2.2.qp j = -1 ↔ pq.qp j = -1 := by
  intro es
  induction es with
  | nil =>
    intro dist parent pq log st' hinv h
    rw [relaxEdges] at h
    injection h with h
    subst h
    exact ⟨[], by rw [relaxEdgesLog, List.append_nil], by simp, rfl, rfl, hinv, rfl, rfl,
      fun _ => Iff.rfl⟩
  | cons e rest ih =>
    intro dist parent pq log st' hinv h
    by_cases hc : vget dist u DBL_MAX + e.weight < vget dist e.to_ DBL_MAX
    · rw [relaxEdges, if_pos hc] at h
      simp only at h
      generalize hkey : vget (vset dist e.to_ (vget dist u DBL_MAX + e.weight)) e.to_
        DBL_MAX = key at h
      rcases hdec : pq.decreaseKey e.to_ key with ⟨r, pq1⟩
      rw [hdec] at h
      cases r with
      | error err => cases h
      | ok x =>
        simp only at h
        have hpre := MinPQ.decreaseKey_ok_pre pq e.to_ key (by rw [hdec])
        obtain ⟨_, d2, d3, d4, _, d6⟩ := MinPQ.decreaseKey_spec pq e.to_ key hinv hpre.1 hpre.2
        rw [hdec] at d2 d3 d4 d6
        simp only at d2 d3 d4 d6
        obtain ⟨t, e1, e2, e3, e4, e5, e6, e7, e8⟩ := ih _ _ pq1
          (log ++ [.decreaseKey pq e.to_ key]) st' d2 h
        refine ⟨.decreaseKey pq e.to_ key :: t, ?_, ?_, ?_, ?_, e5, by rw [e6, d3],
          by rw [e7, d4], fun j => by rw [e8 j, d6 j]⟩
        · rw [relaxEdgesLog, if_pos hc]
          simp only [hkey]
          rw [hdec]
          simp only
          rw [e1, List.append_assoc]
          rfl
        · intro c hcm
          rcases List.mem_cons.1 hcm with h1 | h1
          · rw [h1]
            exact ⟨(MinPQ.contains_true_iff _ _).2 hpre.1, pq.keys e.to_,
              MinPQ.keyOf_of_contained _ _ hpre.1, hpre.2⟩
          · exact e2 c h1
        · simp [inserted, e3]
        · simp [extracted, e4]
    · rw [relaxEdges, if_neg hc] at h
      obtain ⟨t, e1, e2⟩ := ih dist parent pq log st' hinv h
      refine ⟨t, ?_, e2⟩
      rw [relaxEdgesLog, if_neg hc]
      exact e1

/-- The log of the main loop: every logged call succeeds for the stated reason, and the
`delMin` calls return every index that the queue holds at the start once. -/
theorem dijkstraLoopLog_spec (g : Graph W) (fuel : Nat) : ∀ (dist : List W)
    (parent : List Int) (pq : MinPQ W) (log : List (PQCall W)) (r : List W × List Int),
    pq.Inv → dijkstraLoop g fuel (dist, parent, pq) = .ok r →
    ∃ t, dijkstraLoopLog g fuel (dist, parent, pq) log = .ok (r, log ++ t) ∧
      (∀ c ∈ t, c.Pre) ∧ inserted t = [] ∧ (extracted t).Nodup ∧
      ∀ v, v ∈ extracted t ↔ pq.Contained v := by
  have hempty : ∀ (pq : MinPQ W), pq.Inv → pq.n = 0 → ∀ v, ¬ pq.Contained v := by
    intro pq h hn v hv
    have := MinPQ.Bk.slot_of_contained pq pq.n v h.bk hv.1 hv.2.1 hv.2.2
    omega
  induction fuel with
  | zero =>
    intro dist parent pq log r hinv h
    rw [dijkstraLoop] at h
    by_cases hn : pq.n = 0
    · simp only [MinPQ.isEmpty, hn, beq_self_eq_true, if_true] at h
      injection h with h
      subst h
      refine ⟨[], ?_, by simp, rfl, List.nodup_nil, fun v => ?_⟩
      · rw [dijkstraLoopLog]
        simp [MinPQ.isEmpty, hn]
      · simp only [extracted, List.not_mem_nil, false_iff]
        exact hempty pq hinv hn v
    · simp [MinPQ.isEmpty, hn] at h
  | succ f ih =>
    intro dist parent pq log r hinv h
    rw [dijkstraLoop] at h
    by_cases hn : pq.n = 0
    · simp only [MinPQ.isEmpty, hn, beq_self_eq_true, if_true] at h
      injection h with h
      subst h
      refine ⟨[], ?_, by simp, rfl, List.nodup_nil, fun v => ?_⟩
      · rw [dijkstraLoopLog]
        simp [MinPQ.isEmpty, hn]
      · simp only [extracted, List.not_mem_nil, false_iff]
        exact hempty pq hinv hn v
    · simp only [MinPQ.isEmpty, beq_iff_eq, hn, if_false, Bool.false_eq_true] at h
      obtain ⟨m1, m2, m3, m4, _, m6, m7, _⟩ := MinPQ.delMin_spec pq hinv hn
      have hdel : pq.delMin = (.ok (pq.pq 1), pq.delMin.2) := by rw [← m1]
      rw [hdel] at h
      simp only at h
      cases hrel : relaxEdges (pq.pq 1) (g.adj (pq.pq 1)) (dist, parent, pq.delMin.2) with
      | error e => rw [hrel] at h; cases h
      | ok st =>
        rw [hrel] at h
        simp only at h
        obtain ⟨t1, a1, a2, a3, a4, a5, a6, _, a8⟩ := relaxEdgesLog_spec (pq.pq 1)
          (g.adj (pq.pq 1)) dist parent pq.delMin.2 (log ++ [.delMin pq (pq.pq 1)]) st m2 hrel
        obtain ⟨dist2, parent2, pq2⟩ := st
        obtain ⟨t2, b1, b2, b3, b4, b5⟩ := ih dist2 parent2 pq2
          (log ++ [.delMin pq (pq.pq 1)] ++ t1) r a5 h
        have hcon : ∀ v, pq2.Contained v ↔ pq.Contained v ∧ v ≠ pq.pq 1 := by
          intro v
          unfold MinPQ.Contained
          rw [a6, m3, Ne, a8 v, m6 v]
          constructor
          · rintro ⟨x, y, z⟩
            exact ⟨⟨x, y, fun e => z (Or.inr e)⟩, fun e => z (Or.inl e)⟩
          · rintro ⟨⟨x, y, z⟩, d⟩
            exact ⟨x, y, fun e => e.elim d z⟩
        refine ⟨.delMin pq (pq.pq 1) :: (t1 ++ t2), ?_, ?_, ?_, ?_, ?_⟩
        · rw [dijkstraLoopLog]
          simp only [MinPQ.isEmpty, beq_iff_eq, hn, if_false, Bool.false_eq_true]
          rw [hdel]
          simp only [a1]
          rw [b1]
          simp
        · intro c hc
          rcases List.mem_cons.1 hc with h1 | h1
          · rw [h1]
            exact ⟨by simp [MinPQ.isEmpty, hn], m1⟩
          · rcases List.mem_append.1 h1 with h2 | h2
            · exact a2 c h2
            · exact b2 c h2
        · simp [inserted, inserted_append, a3, b3]
        · simp only [extracted, extracted_append, a4, List.nil_append, List.nodup_cons]
          exact ⟨fun hmem => ((hcon _).1 ((b5 _).1 hmem)).2 rfl, b4⟩
        · intro v
          simp only [extracted, extracted_append, a4, List.nil_append, List.mem_cons]
          rw [b5 v, hcon v]
          constructor
          · rintro (e | e)
            · rw [e]; exact m7
            · exact e.1
          · intro e
            by_cases hv : v = pq.pq 1
            · exact Or.inl hv
            · exact Or.inr ⟨e, hv⟩

end Log

/-! ## The order of the result of `get_reachable_from` -/

theorem mem_newOf (v : Int) : ∀ (ws seen : List Int),
    v ∈ newOf seen ws ↔ v ∈ ws ∧ v ∉ seen := by
  intro ws
  induction ws with
  | nil => intro seen; simp [newOf]
  | cons w ws ih =>
    intro seen
    rw [newOf]
    split_ifs with h
    · rw [ih seen, List.mem_cons]
      constructor
      · rintro ⟨a, b⟩; exact ⟨Or.inr a, b⟩
      · rintro ⟨a | a, b⟩
        · rw [a] at b; exact absurd h b
        · exact ⟨a, b⟩
    · rw [List.mem_cons, ih (seen ++ [w]), List.mem_cons, List.mem_append, List.mem_singleton]
      constructor
      · rintro (a | ⟨a, b⟩)
        · rw [a]; exact ⟨Or.inl rfl, h⟩
        · exact ⟨Or.inr a, fun c => b (Or.inl c)⟩
      · rintro ⟨a | a, b⟩
        · exact Or.inl a
        · by_cases hv : v = w
          · exact Or.inl hv
          · exact Or.inr ⟨a, fun c => c.elim b hv⟩

/-- The scan of an adjacency list appends to the queue and to the result the heads of
its edges that are not yet in the result, in the order of the list. -/
theorem bfsScan_eq : ∀ (es : List (Edge W)) (q : List Int) (color : Int → Int)
    (result : List Int), (∀ v, color v ≠ 0 ↔ v ∈ result) →
    ∃ color', bfsScan es (q, color, result) =
        (q ++ newOf result (es.map fun e => e.to_), color',
          result ++ newOf result (es.map fun e => e.to_)) ∧
      ∀ v, color' v ≠ 0 ↔ v ∈ result ++ newOf result (es.map fun e => e.to_) := by
  intro es
  induction es with
  | nil =>
    intro q color result h
    exact ⟨color, by simp [bfsScan, newOf], by simpa [newOf] using h⟩
  | cons e rest ih =>
    intro q color result h
    rw [bfsScan, List.map_cons, newOf]
    by_cases hc : color e.to_ = 0
    · have hnot : e.to_ ∉ result := fun hm => (h e.to_).2 hm hc
      rw [if_pos hc, if_neg hnot]
      obtain ⟨c', e1, e2⟩ := ih (q ++ [e.to_]) (Function.update color e.to_ 1)
        (result ++ [e.to_]) (by
          intro v
          rw [Function.update_apply, List.mem_append, List.mem_singleton]
          split_ifs with hv
          · simp [hv]
          · rw [h v]; simp [hv])
      refine ⟨c', ?_, ?_⟩
      · rw [e1]; simp
      · intro v; rw [e2 v]; simp
    · have hin : e.to_ ∈ result := (h e.to_).1 hc
      rw [if_neg hc, if_pos hin]
      exact ih q color result h

theorem OrdInv.init (g : Graph W) (s : Int) :
    OrdInv g s [] [s] (Function.update (fun _ => 0) s 1) [s] [] (fun _ => 0) := by
  refine ⟨rfl, ?_, rfl, rfl, ?_, rfl, ?_, ?_, ?_, ?_⟩
  · intro v
    rw [Function.update_apply, List.mem_singleton]
    split_ifs with h <;> simp [h]
  · intro i u h; simp at h
  · intro v hv
    rw [List.mem_singleton.1 hv]
    exact HopN.nil
  · simp
  · intro u _ v _; exact Nat.zero_le _
  · intro x hx; simp at hx

/-- One iteration of the main loop: `u` is dequeued, and the scan of its adjacency list
has appended the block `newOf result ...` to the queue and to the result. -/
theorem OrdInv.step (g : Graph W) (s u : Int) (done q : List Int) (color color' : Int → Int)
    (result : List Int) (blocks : List (List Int)) (lev : Int → Nat)
    (h : OrdInv g s done (u :: q) color result blocks lev)
    (hc : ∀ v, color' v ≠ 0 ↔ v ∈ result ++ newOf result ((g.adj u).map fun e => e.to_)) :
    OrdInv g s (done ++ [u]) (q ++ newOf result ((g.adj u).map fun e => e.to_))
      (Function.update color' u 2) (result ++ newOf result ((g.adj u).map fun e => e.to_))
      (blocks ++ [newOf result ((g.adj u).map fun e => e.to_)])
      (fun v => if v ∈ newOf result ((g.adj u).map fun e => e.to_) then lev u + 1
        else lev v) := by
  have hmem : ∀ v, v ∈ newOf result ((g.adj u).map fun e => e.to_) ↔
      (∃ e ∈ g.adj u, e.to_ = v) ∧ v ∉ result := by
    intro v
    rw [mem_newOf, List.mem_map]
  generalize ht : newOf result ((g.adj u).map fun e => e.to_) = t at hc hmem ⊢
  have hu : u ∈ result := by rw [h.split]; simp
  have hlev : ∀ v ∈ result, (if v ∈ t then lev u + 1 else lev v) = lev v := by
    intro v hv
    rw [if_neg (fun hm => ((hmem v).1 hm).2 hv)]
  have hfront : ∀ v ∈ result, lev v ≤ lev u + 1 := h.front u (by simp)
  have hs : s ∈ result := by rw [h.flat]; simp
  refine ⟨?_, ?_, ?_, ?_, ?_, ?_, ?_, ?_, ?_, ?_⟩
  · rw [h.split]; simp
  · intro v
    rw [Function.update_apply]
    split_ifs with hv
    · simp [hv, hu]
    · exact hc v
  · simp [h.len]
  · have := h.flat
    rw [this]; simp
  · intro i v hi
    rcases Nat.lt_or_ge i done.length with hlt | hge
    · rw [List.getElem?_append_left hlt] at hi
      rw [List.getElem?_append_left (by rw [h.len]; exact hlt),
        List.take_append_of_le_length (by rw [h.len]; omega)]
      exact h.block i v hi
    · obtain ⟨hb, _⟩ := List.getElem?_eq_some.1 hi
      have hi' : i = done.length := by
        rw [List.length_append, List.length_singleton] at hb
        omega
      subst hi'
      have hv : v = u := by simpa using hi.symm
      subst hv
      rw [← h.len, List.getElem?_append_right (le_refl _), List.take_left']
      · simp only [Nat.sub_self, List.getElem?_cons_zero, Option.some.injEq]
        rw [← h.flat, ht]
      · rfl
  · rw [hlev s hs]
    exact h.lev_s
  · intro v hv
    rcases List.mem_append.1 hv with h1 | h1
    · rw [hlev v h1]; exact h.hop v h1
    · simp only [if_pos h1]
      obtain ⟨e, he, hev⟩ := ((hmem v).1 h1).1
      exact HopN.snoc u v (lev u) (h.hop u hu) ⟨e, he, hev⟩
  · refine List.pairwise_append.2 ⟨?_, ?_, ?_⟩
    · refine h.sorted.imp_of_mem ?_
      intro a b ha hb hab
      simp only [hlev a ha, hlev b hb]
      exact hab
    · refine (List.pairwise_of_forall (fun _ _ => trivial :
        ∀ x y : Int, True)).imp_of_mem ?_
      intro a b ha hb _
      simp only [if_pos ha, if_pos hb, le_refl]
    · intro a ha b hb
      simp only [hlev a ha, if_pos hb]
      exact hfront a ha
  · intro u' hu' v hv
    have hv' : (if v ∈ t then lev u + 1 else lev v) ≤ lev u + 1 := by
      split_ifs
      · exact le_refl _
      · rcases List.mem_append.1 hv with h1 | h1
        · exact hfront v h1
        · contradiction
    have hu'' : lev u ≤ (if u' ∈ t then lev u + 1 else lev u') := by
      split_ifs with h2
      · omega
      · have h3 : u' ∈ q := by
          rcases List.mem_append.1 (List.mem_of_mem_head? hu') with h4 | h4
          · exact h4
          · exact absurd h4 h2
        have hsorted := h.sorted
        rw [h.split] at hsorted
        exact (List.pairwise_cons.1 (List.pairwise_append.1 hsorted).2.1).1 u' h3
    exact le_trans hv' (Nat.add_le_add_right hu'' 1)
  · intro x hx y hxy
    have hy : x = u → y ∈ result ++ t ∧
        (if y ∈ t then lev u + 1 else lev y) ≤ lev u + 1 := by
      intro hxu
      rw [hxu] at hxy
      by_cases hyr : y ∈ result
      · exact ⟨List.mem_append_left _ hyr, by rw [hlev y hyr]; exact hfront y hyr⟩
      · have hyt : y ∈ t := (hmem y).2 ⟨hxy, hyr⟩
        exact ⟨List.mem_append_right _ hyt, by rw [if_pos hyt]⟩
    rcases List.mem_append.1 hx with h1 | h1
    · obtain ⟨a, b⟩ := h.closed x h1 y hxy
      have hxr : x ∈ result := by rw [h.split]; exact List.mem_append_left _ h1
      simp only [hlev y a, hlev x hxr]
      exact ⟨List.mem_append_left _ a, b⟩
    · have hxu : x = u := List.mem_singleton.1 h1
      obtain ⟨a, b⟩ := hy hxu
      refine ⟨a, ?_⟩
      rw [hxu, hlev u hu]
      exact b

/-- When the main loop returns, the invariant holds with an empty queue. -/
theorem bfsLoop_order (g : Graph W) (s : Int) (fuel : Nat) :
    ∀ (done q : List Int) (color : Int → Int) (result : List Int)
      (blocks : List (List Int)) (lev : Int → Nat) (r : List Int),
      OrdInv g s done q color result blocks lev →
      bfsLoop g fuel (q, color, result) = .ok r →
      ∃ color' blocks' lev', OrdInv g s r [] color' r blocks' lev' := by
  have hnil : ∀ (fuel : Nat) (done : List Int) (color : Int → Int) (result : List Int)
      (blocks : List (List Int)) (lev : Int → Nat) (r : List Int),
      OrdInv g s done [] color result blocks lev →
      bfsLoop g fuel ([], color, result) = .ok r →
      ∃ color' blocks' lev', OrdInv g s r [] color' r blocks' lev' := by
    intro fuel done color result blocks lev r h hr
    rw [bfsLoop] at hr
    injection hr with hr
    subst hr
    have hd : done = result := by simpa using h.split.symm
    subst hd
    exact ⟨color, blocks, lev, h⟩
  induction fuel with
  | zero =>
    intro done q color result blocks lev r h hr
    cases q with
    | nil => exact hnil 0 done color result blocks lev r h hr
    | cons u q => rw [bfsLoop] at hr; cases hr
  | succ f ih =>
    intro done q color result blocks lev r h hr
    cases q with
    | nil => exact hnil (f + 1) done color result blocks lev r h hr
    | cons u q =>
      rw [bfsLoop] at hr
      obtain ⟨c', e1, e2⟩ := bfsScan_eq (g.adj u) q color result h.res_iff
      rw [e1] at hr
      exact ih _ _ _ _ _ _ r (OrdInv.step g s u done q color c' result blocks lev h e2) hr

end Graph

/-- C18: on a graph with in-range endpoints and weights `≥ 0` and on valid sources, no
priority-queue call inside `shortest_paths` throws: the run returns, its log holds one
`insert` for each of the vertices `0, ..., V-1`, each on a valid index that is not
contained; every `delMin` is on a queue that is not empty; every `decreaseKey(w, d)`
is on a contained index `w` with `d` strictly less than the key of `w`.  The `delMin`
calls return every vertex exactly once, so there are exactly `V` of them. -/
theorem shortest_paths_calls_succeed {W : Type} [LinearOrderedRing W] (g : Graph W)
    (hin : g.InRange) (hnn : g.NonNeg) (sources : List Int) (hs : g.ValidSources sources) :
    ∃ dist parent log, g.shortest_paths_log sources = .ok ((dist, parent), log) ∧
      g.shortest_paths sources = .ok (dist, parent) ∧
      (∀ c ∈ log, c.Pre) ∧
      Graph.inserted log = (List.range g.V).map (fun i : Nat => (i : Int)) ∧
      (Graph.extracted log).Nodup ∧
      (∀ v, v ∈ Graph.extracted log ↔ 0 ≤ v ∧ v < (g.V : Int)) ∧
      (Graph.extracted log).length = g.V := by
  obtain ⟨dist, parent, _, _, e1, _⟩ := Graph.shortest_paths_spec g hin hnn sources hs
  have hnew : MinPQ.new (g.V : Int) (DBL_MAX : W) =
      .ok ⟨(g.V : Int), 0, fun _ => 0, fun _ => -1, fun _ => DBL_MAX⟩ := by
    unfold MinPQ.new
    rw [if_neg (by omega)]
  obtain ⟨i1, i2, i3, i4, _⟩ := MinPQ.new_inv _ _ _ hnew
  generalize hd0 : Graph.zeroSources sources (List.replicate g.V (DBL_MAX : W)) = dist0
    at e1
  obtain ⟨pq, q1, q2, q3, _, q5, _⟩ := Graph.insertAll_spec g dist0 (List.range g.V) 0 _
    (by rw [List.range_eq_range']; rfl) (Nat.zero_le _) i1 i2 i3
    (fun v h0 _ => by simp [i4 v, h0]) (fun v h0 h1 => by push_cast at h1; omega)
  have hloop : Graph.dijkstraLoop g g.V (dist0, List.replicate g.V (-1), pq) =
      .ok (dist, parent) := by
    unfold Graph.shortest_paths at e1
    simp only [hnew, Graph.checkSources_ok g sources hs, hd0, q1] at e1
    exact e1
  obtain ⟨t1, a1, a2, a3, a4⟩ := Graph.insertAllLog_spec dist0 (List.range g.V) _ [] pq q1
  obtain ⟨t2, b1, b2, b3, b4, b5⟩ := Graph.dijkstraLoopLog_spec g g.V dist0 _ pq ([] ++ t1)
    (dist, parent) q2 hloop
  have hmem : ∀ v, v ∈ Graph.extracted ([] ++ t1 ++ t2) ↔ 0 ≤ v ∧ v < (g.V : Int) := by
    intro v
    rw [Graph.extracted_append, Graph.extracted_append, a4]
    simp only [Graph.extracted, List.nil_append]
    rw [b5 v]
    unfold MinPQ.Contained
    rw [q3]
    constructor
    · rintro ⟨x, y, _⟩; exact ⟨x, y⟩
    · rintro ⟨x, y⟩; exact ⟨x, y, q5 v x y⟩
  have hnd : (Graph.extracted ([] ++ t1 ++ t2)).Nodup := by
    rw [Graph.extracted_append, Graph.extracted_append, a4]
    simpa [Graph.extracted] using b4
  refine ⟨dist, parent, [] ++ t1 ++ t2, ?_, ?_, ?_, ?_, hnd, hmem, ?_⟩
  · unfold Graph.shortest_paths_log
    simp only [hnew, Graph.checkSources_ok g sources hs, hd0, a1]
    exact b1
  · unfold Graph.shortest_paths
    simp only [hnew, Graph.checkSources_ok g sources hs, hd0, q1]
    exact hloop
  · intro c hc
    rcases List.mem_append.1 hc with h1 | h1
    · exact a2 c (by simpa using h1)
    · exact b2 c h1
  · rw [Graph.inserted_append, Graph.inserted_append, a3, b3]
    simp [Graph.inserted]
  · have hfin : (Graph.extracted ([] ++ t1 ++ t2)).toFinset = Finset.Ico (0 : Int) g.V := by
      ext v
      rw [List.mem_toFinset, hmem v, Finset.mem_Ico]
    have := List.toFinset_card_of_nodup hnd
    rw [hfin, Int.card_Ico] at this
    omega

/-- C18 on the graph of `test.cpp` with source 0. -/
theorem shortest_paths_calls_succeed_witness :
    ∃ dist parent log, exGraph.shortest_paths_log [0] = .ok ((dist, parent), log) ∧
      exGraph.shortest_paths [0] = .ok (dist, parent) ∧
      (∀ c ∈ log, c.Pre) ∧
      Graph.inserted log = (List.range exGraph.V).map (fun i : Nat => (i : Int)) ∧
      (Graph.extracted log).Nodup ∧
      (∀ v, v ∈ Graph.extracted log ↔ 0 ≤ v ∧ v < (exGraph.V : Int)) ∧
      (Graph.extracted log).length = exGraph.V :=
  shortest_paths_calls_succeed exGraph (by decide) (by decide) [0] (by decide)

/-- C20: on a graph with in-range endpoints and for a vertex `s`, `get_reachable_from(s)`
returns a sequence in breadth-first discovery order: its first element is `s`; every
element has a hop distance from `s` (the minimum number of edges on a directed path
from `s`), and the hop distance is non-decreasing along the sequence; the sequence is
`s` followed, for each of its elements `u` in turn, by the neighbours of `u` not
discovered before, in the order of the adjacency list of `u`, that is, of the insertion
of the edges. -/
theorem get_reachable_from_bfs_order {W : Type} (g : Graph W) (hin : g.InRange) (s : Int)
    (h0 : 0 ≤ s) (h1 : s < (g.V : Int)) :
    ∃ r, g.get_reachable_from s = .ok r ∧ r.head? = some s ∧
      (∀ v ∈ r, ∃ n, g.IsHopDist s v n) ∧
      r.Pairwise (fun a b => ∀ n m, g.IsHopDist s a n → g.IsHopDist s b m → n ≤ m) ∧
      g.DiscoveryOrder s r := by
  obtain ⟨r, e1, _⟩ := Graph.get_reachable_from_spec g hin s h0 h1
  have e2 := e1
  unfold Graph.get_reachable_from at e2
  rw [if_neg (by omega)] at e2
  obtain ⟨c, blocks, lev, h⟩ := Graph.bfsLoop_order g s g.V [] [s] _ [s] [] (fun _ => 0) r
    (Graph.OrdInv.init g s) e2
  have hs : s ∈ r := by
    have := h.flat
    rw [this]
    exact List.mem_cons_self _ _
  have hmin : ∀ v m, g.HopN s v m → v ∈ r ∧ lev v ≤ m := by
    intro v m hp
    induction hp with
    | nil => exact ⟨hs, by rw [h.lev_s]⟩
    | snoc b c n _ hbc ih =>
      obtain ⟨a1, a2⟩ := h.closed b ih.1 c hbc
      exact ⟨a1, by omega⟩
  have hdist : ∀ v ∈ r, g.IsHopDist s v (lev v) :=
    fun v hv => ⟨h.hop v hv, fun m hm => (hmin v m hm).2⟩
  refine ⟨r, e1, ?_, fun v hv => ⟨lev v, hdist v hv⟩, ?_, blocks, h.len, h.flat, h.block⟩
  · have := h.flat
    rw [this]
    rfl
  · refine h.sorted.imp_of_mem ?_
    intro a b ha hb hab n m hn hm
    have i1 := hn.2 _ (hdist a ha).1
    have i2 := (hdist b hb).2 _ hm.1
    omega

/-- C20 on the graph of `test.cpp`, from vertex 1: the result is `[1, 0, 3, 2]`. -/
theorem get_reachable_from_bfs_order_witness :
    exGraph.get_reachable_from 1 = .ok [1, 0, 3, 2] ∧
    ∃ r, exGraph.get_reachable_from 1 = .ok r ∧ r.head? = some 1 ∧
      (∀ v ∈ r, ∃ n, exGraph.IsHopDist 1 v n) ∧
      r.Pairwise (fun a b => ∀ n m, exGraph.IsHopDist 1 a n → exGraph.IsHopDist 1 b m →
        n ≤ m) ∧
      exGraph.DiscoveryOrder 1 r :=
  ⟨by decide, get_reachable_from_bfs_order exGraph (by decide) 1 (by decide) (by decide)⟩
